import Mathlib

/-!
Verification of the LaPair IR framework (`lapair`): a shallow embedding of
the core IR data model (`lapair/core/ir.py`), the type system
(`lapair/core/types.py`), the symbol table (`lapair/core/symbol.py`), the
control-flow graph (`lapair/analysis/control_flow.py`) and the dataflow
engine (`lapair/analysis/data_flow.py`), together with theorems settling
the specification's claims about them.

Objects with Python identity semantics (values, instructions, basic
blocks, scopes, composite type objects) are modelled as arena indices
(`Nat`); Python sets keyed on identity become boolean membership
functions or `Finset`s over those indices.
-/

namespace LaPair

/-! ## Use-def state machine: `Instruction.add_operand` / `remove_operand` /
`replace_operand` from `lapair/core/ir.py`.

The state tracks, for every instruction index `i`, its ordered operand
list `operands i` (a Python `list`, so duplicates are possible) and for
every value index `v` the member set `users v` (a Python `set`,
membership-only). -/

structure UDState where
  operands : Nat → List Nat
  users : Nat → Nat → Bool

inductive UDOp where
  | add (i v : Nat)
  | remove (i v : Nat)
  | replace (i old nv : Nat)

/-- Freshly constructed values and instructions: no operands, no users. -/
def UDState.init : UDState :=
  { operands := fun _ => [], users := fun _ _ => false }

/-- One mutator call.  `add_operand` appends and registers the user;
`remove_operand` mirrors Python `list.remove` (raising `ValueError`,
i.e. `none`, when the value is absent) followed by `set.discard`;
`replace_operand` rewrites every matching position (the Python loop has
no `break`), then discards the instruction from `old`'s users and adds
it to `nv`'s users (in that order, so the add wins when `old = nv`). -/
def udStep (s : UDState) : UDOp → Option UDState
  | .add i v =>
      some { operands := fun j => if j = i then s.operands j ++ [v] else s.operands j
             users := fun w u => if w = v ∧ u = i then true else s.users w u }
  | .remove i v =>
      if v ∈ s.operands i then
        some { operands := fun j => if j = i then (s.operands j).erase v else s.operands j
               users := fun w u => if w = v ∧ u = i then false else s.users w u }
      else
        none
  | .replace i old nv =>
      if old ∈ s.operands i then
        some { operands := fun j =>
                 if j = i then (s.operands j).map (fun x => if x = old then nv else x)
                 else s.operands j
               users := fun w u =>
                 if w = nv ∧ u = i then true
                 else if w = old ∧ u = i then false
                 else s.users w u }
      else
        some s

/-- Run a finite sequence of mutator calls; `none` as soon as one raises. -/
def udRun (s : UDState) : List UDOp → Option UDState
  | [] => some s
  | op :: rest => (udStep s op).bind (fun s' => udRun s' rest)

/-- Invariant I1: `v ∈ i.operands ⇔ i ∈ v.users`. -/
def UseDef (s : UDState) : Prop :=
  ∀ i v, v ∈ s.operands i ↔ s.users v i = true

/-- All operand lists are duplicate-free. -/
def UDNodup (s : UDState) : Prop :=
  ∀ i, (s.operands i).Nodup

/-- An op is safe when it cannot create a duplicate operand entry. -/
def udSafe (s : UDState) : UDOp → Bool
  | .add i v => !(decide (v ∈ s.operands i))
  | .remove _ _ => true
  | .replace i old nv =>
      !(decide (old ∈ s.operands i)) || decide (old = nv) || !(decide (nv ∈ s.operands i))

/-- Every op of the sequence is safe in the state where it executes. -/
def udSafeRun (s : UDState) : List UDOp → Bool
  | [] => true
  | op :: rest =>
      udSafe s op &&
        (match udStep s op with
         | some s' => udSafeRun s' rest
         | none => true)

theorem mem_map_replace_self {l : List Nat} {old : Nat} (nv : Nat) (h : old ∈ l) :
    nv ∈ l.map (fun x => if x = old then nv else x) :=
  List.mem_map.mpr ⟨old, h, by simp⟩

theorem not_mem_map_replace (l : List Nat) {old nv : Nat} (hne : old ≠ nv) :
    old ∉ l.map (fun x => if x = old then nv else x) := by
  intro hmem
  obtain ⟨x, _, hfx⟩ := List.mem_map.mp hmem
  by_cases hx : x = old
  · rw [if_pos hx] at hfx; exact hne hfx.symm
  · rw [if_neg hx] at hfx; exact hx hfx

theorem mem_map_replace_other (l : List Nat) {old nv b : Nat}
    (hbo : b ≠ old) (hbn : b ≠ nv) :
    b ∈ l.map (fun x => if x = old then nv else x) ↔ b ∈ l := by
  constructor
  · intro hmem
    obtain ⟨x, hx, hfx⟩ := List.mem_map.mp hmem
    by_cases hxo : x = old
    · rw [if_pos hxo] at hfx; exact absurd hfx.symm hbn
    · rw [if_neg hxo] at hfx; exact hfx ▸ hx
  · intro hmem
    exact List.mem_map.mpr ⟨b, hmem, by rw [if_neg hbo]⟩

theorem map_replace_of_not_mem (l : List Nat) {old : Nat} (nv : Nat) (h : old ∉ l) :
    l.map (fun x => if x = old then nv else x) = l := by
  induction l with
  | nil => rfl
  | cons x xs ih =>
      simp only [List.map_cons]
      rw [if_neg (fun hx => h (by rw [← hx]; exact List.mem_cons_self x xs)),
        ih (fun hm => h (List.mem_cons_of_mem x hm))]

theorem udStep_add_preserves (s : UDState) (i v : Nat)
    (hinv : UseDef s) (hnd : UDNodup s) (hsafe : v ∉ s.operands i) :
    ∀ s', udStep s (.add i v) = some s' → UseDef s' ∧ UDNodup s' := by
  intro s' hstep
  simp only [udStep, Option.some.injEq] at hstep
  subst hstep
  constructor
  · intro a b
    by_cases ha : a = i <;> by_cases hb : b = v
    · subst ha; subst hb; simp
    · subst ha
      simpa [hb] using hinv a b
    · subst hb
      simpa [ha] using hinv a b
    · simpa [ha, hb] using hinv a b
  · intro a
    by_cases ha : a = i
    · subst ha
      simp only [if_pos rfl]
      refine (hnd a).append (List.nodup_singleton v) ?_
      intro x hx hxv
      rw [List.mem_singleton] at hxv
      exact hsafe (hxv ▸ hx)
    · simpa [ha] using hnd a

theorem udStep_remove_preserves (s : UDState) (i v : Nat)
    (hinv : UseDef s) (hnd : UDNodup s) :
    ∀ s', udStep s (.remove i v) = some s' → UseDef s' ∧ UDNodup s' := by
  intro s' hstep
  simp only [udStep] at hstep
  by_cases hmem : v ∈ s.operands i
  · rw [if_pos hmem] at hstep
    simp only [Option.some.injEq] at hstep
    subst hstep
    constructor
    · intro a b
      by_cases ha : a = i <;> by_cases hb : b = v
      · subst ha; subst hb
        simp only [if_pos rfl, if_pos (And.intro rfl rfl)]
        constructor
        · intro habs
          exact absurd rfl ((hnd a).mem_erase_iff.mp habs).1
        · intro habs; exact absurd habs (by simp)
      · subst ha
        have heq : b ∈ (s.operands a).erase v ↔ b ∈ s.operands a :=
          (hnd a).mem_erase_iff.trans (by simp [hb])
        simpa [hb, heq] using hinv a b
      · subst hb
        simpa [ha] using hinv a b
      · simpa [ha, hb] using hinv a b
    · intro a
      by_cases ha : a = i
      · subst ha
        simpa using (hnd a).erase v
      · simpa [ha] using hnd a
  · rw [if_neg hmem] at hstep
    exact absurd hstep (by simp)

/-- The state produced by `replace_operand(old, nv)` when `old` is among
the operands of instruction `i`. -/
def udReplacePost (s : UDState) (i old nv : Nat) : UDState :=
  { operands := fun j =>
      if j = i then (s.operands j).map (fun x => if x = old then nv else x)
      else s.operands j
    users := fun w u =>
      if w = nv ∧ u = i then true
      else if w = old ∧ u = i then false
      else s.users w u }

theorem udStep_replace_eq (s : UDState) (i old nv : Nat)
    (hmem : old ∈ s.operands i) :
    udStep s (.replace i old nv) = some (udReplacePost s i old nv) := by
  simp only [udStep, if_pos hmem]
  rfl

theorem udStep_replace_eq_of_not_mem (s : UDState) (i old nv : Nat)
    (hmem : old ∉ s.operands i) :
    udStep s (.replace i old nv) = some s := by
  simp only [udStep, if_neg hmem]

theorem udReplacePost_useDef (s : UDState) (i old nv : Nat)
    (hinv : UseDef s) (hmem : old ∈ s.operands i)
    (hnvout : old = nv ∨ nv ∉ s.operands i) :
    UseDef (udReplacePost s i old nv) := by
  intro a b
  show b ∈ (if a = i then (s.operands a).map (fun x => if x = old then nv else x)
      else s.operands a) ↔
    (if b = nv ∧ a = i then true
      else if b = old ∧ a = i then false
      else s.users b a) = true
  by_cases ha : a = i
  · subst ha
    by_cases hb : b = nv
    · subst hb
      rw [if_pos rfl, if_pos ⟨rfl, rfl⟩]
      simp only [iff_true]
      exact mem_map_replace_self b hmem
    · by_cases hbo : b = old
      · subst hbo
        have hbo' : b ≠ nv := hb
        rcases hnvout with h | h
        · exact absurd h hb
        rw [if_pos rfl, if_neg (fun hc => hb hc.1), if_pos ⟨rfl, rfl⟩]
        constructor
        · intro habs
          exact absurd habs (not_mem_map_replace _ hbo')
        · intro habs
          exact absurd habs Bool.false_ne_true
      · rw [if_pos rfl, if_neg (fun hc => hb hc.1), if_neg (fun hc => hbo hc.1),
          mem_map_replace_other (s.operands a) hbo hb]
        exact hinv a b
  · rw [if_neg ha, if_neg (fun hc => ha hc.2), if_neg (fun hc => ha hc.2)]
    exact hinv a b

theorem udReplacePost_nodup (s : UDState) (i old nv : Nat)
    (hnd : UDNodup s) (hnvout : old = nv ∨ nv ∉ s.operands i) :
    UDNodup (udReplacePost s i old nv) := by
  intro a
  show ((if a = i then (s.operands a).map (fun x => if x = old then nv else x)
      else s.operands a)).Nodup
  by_cases ha : a = i
  · subst ha
    rw [if_pos rfl]
    rcases hnvout with h | h
    · subst h
      have : (s.operands a).map (fun x => if x = old then old else x) = s.operands a :=
        List.map_id'' (fun x => by by_cases hx : x = old <;> simp [hx]) _
      rw [this]
      exact hnd a
    · refine (hnd a).map_on ?_
      intro x hx y hy hfxy
      by_cases hxo : x = old <;> by_cases hyo : y = old
      · rw [hxo, hyo]
      · rw [if_pos hxo, if_neg hyo] at hfxy
        exact absurd (hfxy ▸ hy) h
      · rw [if_neg hxo, if_pos hyo] at hfxy
        exact absurd (hfxy ▸ hx) h
      · rwa [if_neg hxo, if_neg hyo] at hfxy
  · rw [if_neg ha]
    exact hnd a

theorem udStep_replace_preserves (s : UDState) (i old nv : Nat)
    (hinv : UseDef s) (hnd : UDNodup s)
    (hsafe : old ∉ s.operands i ∨ old = nv ∨ nv ∉ s.operands i) :
    ∀ s', udStep s (.replace i old nv) = some s' → UseDef s' ∧ UDNodup s' := by
  intro s' hstep
  by_cases hmem : old ∈ s.operands i
  · rw [udStep_replace_eq s i old nv hmem] at hstep
    injection hstep with hstep
    subst hstep
    have hnvout : old = nv ∨ nv ∉ s.operands i := by
      rcases hsafe with h | h | h
      · exact absurd hmem h
      · exact Or.inl h
      · exact Or.inr h
    exact ⟨udReplacePost_useDef s i old nv hinv hmem hnvout,
      udReplacePost_nodup s i old nv hnd hnvout⟩
  · rw [udStep_replace_eq_of_not_mem s i old nv hmem] at hstep
    injection hstep with hstep
    subst hstep
    exact ⟨hinv, hnd⟩

theorem udRun_preserves (ops : List UDOp) :
    ∀ s s', UseDef s → UDNodup s → udSafeRun s ops = true →
      udRun s ops = some s' → UseDef s' ∧ UDNodup s' := by
  induction ops with
  | nil =>
      intro s s' hinv hnd _ hrun
      simp only [udRun, Option.some.injEq] at hrun
      exact hrun ▸ ⟨hinv, hnd⟩
  | cons op rest ih =>
      intro s s' hinv hnd hsafe hrun
      simp only [udRun] at hrun
      cases hstep : udStep s op with
      | none => rw [hstep] at hrun; exact absurd hrun (by simp)
      | some s₁ =>
          rw [hstep] at hrun
          simp only [Option.some_bind] at hrun
          simp only [udSafeRun, hstep, Bool.and_eq_true] at hsafe
          have hmid : UseDef s₁ ∧ UDNodup s₁ := by
            cases op with
            | add i v =>
                refine udStep_add_preserves s i v hinv hnd ?_ s₁ hstep
                have := hsafe.1
                simp only [udSafe, Bool.not_eq_true', decide_eq_false_iff_not] at this
                exact this
            | remove i v =>
                exact udStep_remove_preserves s i v hinv hnd s₁ hstep
            | replace i old nv =>
                refine udStep_replace_preserves s i old nv hinv hnd ?_ s₁ hstep
                have := hsafe.1
                simp only [udSafe, Bool.or_eq_true, Bool.not_eq_true',
                  decide_eq_false_iff_not, decide_eq_true_eq] at this
                tauto
          exact ih s₁ s' hmid.1 hmid.2 hsafe.2 hrun

theorem useDef_init : UseDef UDState.init := by
  intro i v
  simp [UDState.init]

theorem udNodup_init : UDNodup UDState.init := by
  intro i
  simp [UDState.init]

def c1ops : List UDOp := [UDOp.add 0 5, UDOp.add 0 5, UDOp.remove 0 5]

def c1state : UDState := (udRun UDState.init c1ops).getD UDState.init

theorem c1run : udRun UDState.init c1ops = some c1state := rfl

/-- C1 counterexample: after `add_operand(v)`, `add_operand(v)`,
`remove_operand(v)` on a fresh instruction, `v` is still an operand but
the instruction is no longer in `v.users`, so invariant I1 fails after a
sequence that adds the same value as an operand twice. -/
theorem c1_counterexample :
    ¬ (∀ (ops : List UDOp) (s : UDState),
        udRun UDState.init ops = some s → UseDef s) := by
  intro h
  have h5 := (h c1ops c1state c1run 0 5).mp (by decide)
  exact absurd h5 (by decide)

/-- C1 amended: I1 (`v ∈ i.operands ⇔ i ∈ v.users`) holds after any finite
sequence of `add_operand` / `remove_operand` / `replace_operand` calls
starting from freshly constructed values and instructions, provided no
call ever creates a duplicate operand entry (in particular, the same
value is never added as an operand of the same instruction twice). -/
theorem c1_use_def_invariant (ops : List UDOp) (s : UDState)
    (hsafe : udSafeRun UDState.init ops = true)
    (hrun : udRun UDState.init ops = some s) : UseDef s :=
  (udRun_preserves ops UDState.init s useDef_init udNodup_init hsafe hrun).1

def c1wops : List UDOp :=
  [UDOp.add 0 5, UDOp.add 0 6, UDOp.replace 0 5 7, UDOp.remove 0 6, UDOp.add 1 7]

/-- C1 witness: a concrete safe sequence on which the amended invariant
theorem applies. -/
theorem c1_witness :
    udSafeRun UDState.init c1wops = true ∧
      ∃ s, udRun UDState.init c1wops = some s ∧ UseDef s :=
  ⟨by decide, (udRun UDState.init c1wops).getD UDState.init,
    rfl, c1_use_def_invariant c1wops _ (by decide) rfl⟩

/-! ## C3: `replace_operand` and the first occurrence. -/

/-- Modelled from the spec's words for comparison (refinement): replace
only the first occurrence of `old`, leaving later occurrences unchanged. -/
def specReplaceFirst : List Nat → Nat → Nat → List Nat
  | [], _, _ => []
  | x :: xs, old, nv => if x = old then nv :: xs else x :: specReplaceFirst xs old nv

def c3pre : UDState :=
  (udRun UDState.init [UDOp.add 0 1, UDOp.add 0 2, UDOp.add 0 1]).getD UDState.init

def c3post : UDState := (udStep c3pre (UDOp.replace 0 1 3)).getD UDState.init

theorem c3step : udStep c3pre (UDOp.replace 0 1 3) = some c3post := rfl

/-- C3 counterexample: on operand list `[1, 2, 1]`, `replace_operand(1, 3)`
yields `[3, 2, 3]`, not `[3, 2, 1]`: the Python loop has no `break`, so
every occurrence is replaced, not just the first. -/
theorem c3_counterexample :
    ¬ (∀ (s : UDState) (i old nv : Nat) (s₂ : UDState),
        udStep s (.replace i old nv) = some s₂ →
          s₂.operands i = specReplaceFirst (s.operands i) old nv) := by
  intro h
  have := h c3pre 0 1 3 c3post c3step
  exact absurd this (by decide)

/-- C3 amended: `replace_operand(old, nv)` replaces every occurrence of
`old` (compared by identity) among the operands with `nv`; when `old`
was an operand it adds the instruction to `nv`'s users and (if `nv` is a
different value) removes it from `old`'s users; when `old` was not an
operand the state is unchanged.  Other instructions and other values'
user sets are untouched, and the call never fails. -/
theorem c3_replace_all_occurrences (s : UDState) (i old nv : Nat) :
    ∃ s₂, udStep s (.replace i old nv) = some s₂ ∧
      s₂.operands i = (s.operands i).map (fun x => if x = old then nv else x) ∧
      (old ∈ s.operands i → s₂.users nv i = true) ∧
      (old ∈ s.operands i → nv ≠ old → s₂.users old i = false) ∧
      (old ∉ s.operands i → s₂ = s) ∧
      (∀ j, j ≠ i → s₂.operands j = s.operands j) ∧
      (∀ w u, w ≠ nv → w ≠ old → s₂.users w u = s.users w u) := by
  by_cases hmem : old ∈ s.operands i
  · refine ⟨udReplacePost s i old nv, udStep_replace_eq s i old nv hmem,
      ?_, ?_, ?_, ?_, ?_, ?_⟩
    · show (if i = i then _ else _) = _
      rw [if_pos rfl]
    · intro _
      show (if nv = nv ∧ i = i then true else _) = true
      rw [if_pos ⟨rfl, rfl⟩]
    · intro _ hne
      show (if old = nv ∧ i = i then true else if old = old ∧ i = i then false else _) = false
      rw [if_neg (fun hc => hne hc.1.symm), if_pos ⟨rfl, rfl⟩]
    · intro habs; exact absurd hmem habs
    · intro j hj
      show (if j = i then _ else s.operands j) = s.operands j
      rw [if_neg hj]
    · intro w u hwn hwo
      show (if w = nv ∧ u = i then true else if w = old ∧ u = i then false else s.users w u) =
        s.users w u
      rw [if_neg (fun hc => hwn hc.1), if_neg (fun hc => hwo hc.1)]
  · refine ⟨s, udStep_replace_eq_of_not_mem s i old nv hmem, ?_, ?_, ?_, ?_, ?_, ?_⟩
    · exact (map_replace_of_not_mem _ nv hmem).symm
    · intro habs; exact absurd habs hmem
    · intro habs; exact absurd habs hmem
    · intro _; rfl
    · intro _ _; rfl
    · intro _ _ _ _; rfl

/-- C3 witness: the amended theorem applied to the concrete `[1, 2, 1]`
state. -/
theorem c3_witness :
    ∃ s₂, udStep c3pre (UDOp.replace 0 1 3) = some s₂ ∧
      s₂.operands 0 = (c3pre.operands 0).map (fun x => if x = 1 then 3 else x) := by
  obtain ⟨s₂, h1, h2, _⟩ := c3_replace_all_occurrences c3pre 0 1 3
  exact ⟨s₂, h1, h2⟩

/-! ## C4: `remove_operand` on an absent operand. -/

/-- C4 counterexample: `remove_operand` on a fresh instruction with no
operands raises `ValueError` (Python `list.remove`), modelled as `none`;
so the mutator does not return normally for all inputs. -/
theorem c4_counterexample :
    ¬ (∀ (s : UDState) (i v : Nat), (udStep s (.remove i v)).isSome = true) := by
  intro h
  exact absurd (h UDState.init 0 0) (by decide)

/-- C4 amended: `remove_operand(v)` returns normally exactly when `v` is
currently among the instruction's operands; when `v` is absent,
`list.remove` raises `ValueError`. -/
theorem c4_remove_operand_success (s : UDState) (i v : Nat) :
    (udStep s (.remove i v)).isSome = true ↔ v ∈ s.operands i := by
  simp only [udStep]
  by_cases h : v ∈ s.operands i <;> simp [h]

/-! ## C2: CFG symmetry state machine: `BasicBlock.add_predecessor` /
`add_successor` / `remove_predecessor` / `remove_successor`. -/

structure CFGState where
  succ : Nat → Nat → Bool
  pred : Nat → Nat → Bool

inductive CFGOp where
  | addPred (b p : Nat)
  | addSucc (b q : Nat)
  | removePred (b p : Nat)
  | removeSucc (b q : Nat)

/-- Freshly constructed blocks: empty predecessor and successor sets. -/
def CFGState.init : CFGState :=
  { succ := fun _ _ => false, pred := fun _ _ => false }

/-- One block mutator call: each inserts or discards on one side and
mirrors the change on the other side (`set.add` / `set.discard`). -/
def cfgStep (s : CFGState) : CFGOp → CFGState
  | .addPred b p =>
      { pred := fun x y => if x = b ∧ y = p then true else s.pred x y
        succ := fun x y => if x = p ∧ y = b then true else s.succ x y }
  | .addSucc b q =>
      { succ := fun x y => if x = b ∧ y = q then true else s.succ x y
        pred := fun x y => if x = q ∧ y = b then true else s.pred x y }
  | .removePred b p =>
      { pred := fun x y => if x = b ∧ y = p then false else s.pred x y
        succ := fun x y => if x = p ∧ y = b then false else s.succ x y }
  | .removeSucc b q =>
      { succ := fun x y => if x = b ∧ y = q then false else s.succ x y
        pred := fun x y => if x = q ∧ y = b then false else s.pred x y }

def cfgRun (s : CFGState) (ops : List CFGOp) : CFGState :=
  ops.foldl cfgStep s

/-- CFG symmetry: `b ∈ a.successors ⇔ a ∈ b.predecessors`. -/
def CFGSym (s : CFGState) : Prop :=
  ∀ a b, s.succ a b = s.pred b a

theorem mirror_if (c : Bool) (f g : Nat → Nat → Bool)
    (hfg : ∀ a b, f a b = g b a) (p q x y : Nat) :
    (if x = p ∧ y = q then c else f x y) = (if y = q ∧ x = p then c else g y x) := by
  by_cases h1 : x = p <;> by_cases h2 : y = q
  · rw [if_pos ⟨h1, h2⟩, if_pos ⟨h2, h1⟩]
  · rw [if_neg (fun hc => h2 hc.2), if_neg (fun hc => h2 hc.1)]
    exact hfg x y
  · rw [if_neg (fun hc => h1 hc.1), if_neg (fun hc => h1 hc.2)]
    exact hfg x y
  · rw [if_neg (fun hc => h1 hc.1), if_neg (fun hc => h1 hc.2)]
    exact hfg x y

theorem cfgStep_preserves (s : CFGState) (op : CFGOp) (hs : CFGSym s) :
    CFGSym (cfgStep s op) := by
  cases op with
  | addPred b p =>
      intro x y
      exact mirror_if true s.succ s.pred hs p b x y
  | addSucc b q =>
      intro x y
      exact mirror_if true s.succ s.pred hs b q x y
  | removePred b p =>
      intro x y
      exact mirror_if false s.succ s.pred hs p b x y
  | removeSucc b q =>
      intro x y
      exact mirror_if false s.succ s.pred hs b q x y

theorem cfgRun_preserves (ops : List CFGOp) :
    ∀ s, CFGSym s → CFGSym (cfgRun s ops) := by
  induction ops with
  | nil => intro s hs; exact hs
  | cons op rest ih =>
      intro s hs
      exact ih (cfgStep s op) (cfgStep_preserves s op hs)

/-- C2: after any finite sequence of `add_predecessor`, `add_successor`,
`remove_predecessor`, `remove_successor` calls starting from fresh
blocks, `b ∈ a.successors ⇔ a ∈ b.predecessors`. -/
theorem c2_cfg_symmetry (ops : List CFGOp) (a b : Nat) :
    (cfgRun CFGState.init ops).succ a b = (cfgRun CFGState.init ops).pred b a :=
  cfgRun_preserves ops CFGState.init (fun _ _ => rfl) a b

/-! ## Type system: `lapair/core/types.py`.

A factory call is recorded with the data that determines the constructed
name (`__attrs_post_init__`).  The `TypeSystem` registry maps each name
to the identity (arena index) of the most recently registered type
object; every factory call creates a fresh object and registers it,
overwriting any previous entry of the same name (`register_type` uses a
plain dict store). -/

inductive FCall where
  | pointer (pointee : String)
  | array (elem : String) (len : Option Nat)
  | struct (sname : String)
  | func (ret : String) (params : List String)

/-- The name each composite type constructs for itself. -/
def constructedName : FCall → String
  | .pointer p => p ++ "*"
  | .array e l => e ++ "[" ++ (match l with | some k => toString k | none => "") ++ "]"
  | .struct n => n
  | .func r ps => r ++ " (" ++ String.intercalate ", " ps ++ ")"

structure TS where
  types : String → Option Nat
  names : Nat → String
  nextId : Nat

/-- `register_type` for a fresh object with the given name. -/
def registerNamed (ts : TS) (n : String) : TS :=
  { types := fun m => if m = n then some ts.nextId else ts.types m
    names := fun i => if i = ts.nextId then n else ts.names i
    nextId := ts.nextId + 1 }

/-- A factory call constructs a fresh composite type and registers it. -/
def applyCall (ts : TS) (c : FCall) : TS :=
  registerNamed ts (constructedName c)

def applyCalls (ts : TS) : List FCall → TS
  | [] => ts
  | c :: rest => applyCalls (applyCall ts c) rest

def getType (ts : TS) (n : String) : Option Nat :=
  ts.types n

def builtinNames : List String :=
  ["void", "i8", "u8", "i16", "u16", "i32", "u32", "i64", "u64", "f32", "f64"]

/-- `TypeSystem.__init__`: empty registry seeded with the builtin types. -/
def tsInit : TS :=
  builtinNames.foldl registerNamed { types := fun _ => none, names := fun _ => "", nextId := 0 }

theorem applyCalls_preserves_entry (calls : List FCall) :
    ∀ (ts : TS) (n : String), (∀ c ∈ calls, constructedName c ≠ n) →
      (applyCalls ts calls).types n = ts.types n := by
  induction calls with
  | nil => intro ts n _; rfl
  | cons c rest ih =>
      intro ts n hne
      have hr : (applyCalls (applyCall ts c) rest).types n = (applyCall ts c).types n :=
        ih (applyCall ts c) n (fun c' hc' => hne c' (List.mem_cons_of_mem c hc'))
      rw [show applyCalls ts (c :: rest) = applyCalls (applyCall ts c) rest from rfl, hr]
      show (if n = constructedName c then some ts.nextId else ts.types n) = ts.types n
      rw [if_neg (fun h => hne c (List.mem_cons_self c rest) h.symm)]

/-- C5 counterexample: create `i32*` twice on the same `TypeSystem`; the
second factory call builds a fresh object and `register_type` overwrites
the registry entry, so `get_type("i32*")` no longer returns the first
object (identity 11 here) but the second (identity 12). -/
theorem c5_counterexample :
    ¬ (∀ (ts : TS) (c : FCall) (later : List FCall),
        getType (applyCalls (applyCall ts c) later) (constructedName c) = some ts.nextId) := by
  intro h
  have := h tsInit (.pointer "i32") [.pointer "i32"]
  exact absurd this (by decide)

/-- C5 amended: every factory call registers its fresh composite type
under its constructed name, so `get_type(t.name) is t` holds right after
the call and keeps holding across any later factory calls none of which
constructs the same name; a later same-name call overwrites the entry
with the new object (last-write-wins). -/
theorem c5_factory_interning (ts : TS) (c : FCall) (later : List FCall)
    (hfresh : ∀ c' ∈ later, constructedName c' ≠ constructedName c) :
    getType (applyCalls (applyCall ts c) later) (constructedName c) = some ts.nextId := by
  rw [getType, applyCalls_preserves_entry later (applyCall ts c) (constructedName c) hfresh]
  show (if constructedName c = constructedName c then some ts.nextId else _) = some ts.nextId
  rw [if_pos rfl]

/-- C5 witness: a pointer type stays interned across a later array-type
factory call with a different constructed name. -/
theorem c5_witness :
    (∀ c' ∈ [FCall.array "i8" (some 4)],
        constructedName c' ≠ constructedName (FCall.pointer "i32")) ∧
      getType (applyCalls (applyCall tsInit (FCall.pointer "i32")) [FCall.array "i8" (some 4)])
          (constructedName (FCall.pointer "i32")) = some tsInit.nextId :=
  ⟨by decide, c5_factory_interning tsInit (FCall.pointer "i32") [FCall.array "i8" (some 4)]
    (by decide)⟩

/-! ## Symbol table: `lapair/core/symbol.py`.

The chain of scopes from the current scope up to the global root is
modelled as a nonempty list, innermost first.  Only this parent chain is
relevant to `lookup_symbol`; symbols carry fresh identities. -/

structure SScope where
  scopeName : String
  syms : String → Option Nat

structure SymTab where
  chain : List SScope
  nextSym : Nat

inductive SymOp where
  | enter (n : String)
  | leave
  | addSym (n : String)

/-- `SymbolTable.__init__`: a single global scope, nothing bound. -/
def symInit : SymTab :=
  { chain := [{ scopeName := "global", syms := fun _ => none }], nextSym := 0 }

/-- `enter_scope` pushes a child; `exit_scope` pops unless at the root;
`add_symbol` binds a fresh symbol in the current scope (silently
shadowing any previous binding of the name). -/
def symStep (st : SymTab) : SymOp → SymTab
  | .enter n => { st with chain := { scopeName := n, syms := fun _ => none } :: st.chain }
  | .leave =>
      match st.chain with
      | _sc :: rest => if rest.isEmpty then st else { st with chain := rest }
      | [] => st
  | .addSym n =>
      match st.chain with
      | sc :: rest =>
          { chain := { sc with syms := fun m => if m = n then some st.nextSym else sc.syms m } :: rest
            nextSym := st.nextSym + 1 }
      | [] => st

def symRun (st : SymTab) (ops : List SymOp) : SymTab :=
  ops.foldl symStep st

/-- `Scope.lookup_symbol` with `recursive=True`: return the binding in
the current scope if any, else recurse into the parent if there is one. -/
def lookupChain : List SScope → String → Option Nat
  | [], _ => none
  | sc :: rest, n =>
      match sc.syms n with
      | some v => some v
      | none => if rest.isEmpty then none else lookupChain rest n

/-- The innermost binding: walking the parent chain from the current
scope outward, the binding of the first scope that binds the name. -/
def innermostBinding : List SScope → String → Option Nat
  | [], _ => none
  | sc :: rest, n => if (sc.syms n).isSome then sc.syms n else innermostBinding rest n

theorem lookupChain_eq_innermost (chain : List SScope) (n : String) :
    lookupChain chain n = innermostBinding chain n := by
  induction chain with
  | nil => rfl
  | cons sc rest ih =>
      cases hsc : sc.syms n with
      | some v =>
          simp [lookupChain, innermostBinding, hsc]
      | none =>
          cases rest with
          | nil => simp [lookupChain, innermostBinding, hsc]
          | cons sc2 rest2 =>
              simp only [lookupChain, innermostBinding, hsc, Option.isSome_none,
                Bool.false_eq_true, if_false, List.isEmpty_cons]
              exact ih

def s6Table : SymTab :=
  symRun symInit [SymOp.addSym "x", SymOp.enter "function", SymOp.addSym "x"]

/-- C8: `lookup_symbol` returns the innermost binding while walking
parent scopes (first conjunct, in general), and on scenario S6 the local
`x` (symbol 1) shadows the global `x` (symbol 0) until `exit_scope`
restores the global binding. -/
theorem c8_symbol_shadowing :
    (∀ (chain : List SScope) (n : String),
        lookupChain chain n = innermostBinding chain n) ∧
      lookupChain s6Table.chain "x" = some 1 ∧
      lookupChain (symStep s6Table .leave).chain "x" = some 0 :=
  ⟨lookupChain_eq_innermost, by decide, by decide⟩

/-! ## Expressions: `Expression.from_instruction` in
`lapair/analysis/data_flow.py`.

An operand is a constant (with a rendered literal), an instruction
(with an optional name), or some other plain value (with an optional
name); the instruction kind stands for the Python class looked up in
`OPERATOR_MAP`. -/

inductive IKind where
  | add
  | mul
  | assign
  | sub
  | divk
  | generic
deriving DecidableEq

inductive IRValue where
  | constant (lit : String) (vname : Option String)
  | instr (vname : Option String)
  | plain (vname : Option String)
deriving DecidableEq

/-- `OPERATOR_MAP`: Add, Mul and Assign instructions only. -/
def operatorMap : IKind → Option String
  | .add => some "add"
  | .mul => some "multiply"
  | .assign => some "assign"
  | _ => none

/-- The token one operand contributes: an instruction with a truthy
(non-empty) name contributes the name, a constant contributes
`const_<literal>`, anything else disqualifies the expression. -/
def operandToken : IRValue → Option String
  | .instr (some n) => if n = "" then none else some n
  | .instr none => none
  | .constant v _ => some ("const_" ++ v)
  | .plain _ => none

/-- Collect the operand tokens in order; `none` as soon as one operand
disqualifies. -/
def collectTokens : List IRValue → Option (List String)
  | [] => some []
  | v :: rest =>
      match operandToken v, collectTokens rest with
      | some t, some ts => some (t :: ts)
      | _, _ => none

structure Expr where
  operator : String
  operandNames : List String
deriving DecidableEq

/-- Code-point lexicographic comparison, as Python compares strings. -/
def charsLt : List Char → List Char → Bool
  | [], [] => false
  | [], _ :: _ => true
  | _ :: _, [] => false
  | a :: as, b :: bs =>
      if a.toNat < b.toNat then true
      else if b.toNat < a.toNat then false
      else charsLt as bs

def strLeB (a b : String) : Bool :=
  !(charsLt b.data a.data)

/-- Insert into an ascending list, before the first element that is not
smaller. -/
def insertToken (x : String) : List String → List String
  | [] => [x]
  | y :: ys => if strLeB x y then x :: y :: ys else y :: insertToken x ys

/-- Python `sorted` on strings: stable ascending lexicographic sort
(insertion sort; stability is immaterial since equal string tokens are
indistinguishable). -/
def sortTokens (l : List String) : List String :=
  l.foldr insertToken []

/-- `Expression.from_instruction`. -/
def fromInstruction (kind : IKind) (operands : List IRValue) : Option Expr :=
  if operands.length ≤ 1 then none
  else
    match operatorMap kind with
    | none => none
    | some op =>
      match collectTokens operands with
      | none => none
      | some toks => if toks.isEmpty then none else some { operator := op, operandNames := sortTokens toks }

/-- Operand admissibility as the claim words it: a constant, or any
value carrying a non-empty name. -/
def specOperandOkB : IRValue → Bool
  | .constant _ _ => true
  | .instr (some n) => !(n == "")
  | .instr none => false
  | .plain (some n) => !(n == "")
  | .plain none => false

/-- Operand admissibility as the code implements it: a constant, or an
instruction carrying a non-empty name; a named non-instruction value
disqualifies. -/
def codeOperandOkB : IRValue → Bool
  | .constant _ _ => true
  | .instr (some n) => !(n == "")
  | _ => false

theorem operandToken_isSome (v : IRValue) :
    (operandToken v).isSome = codeOperandOkB v := by
  cases v with
  | constant lit vname => rfl
  | instr vname =>
      cases vname with
      | none => rfl
      | some n =>
          show (if n = "" then none else some n).isSome = !(n == "")
          by_cases h : n = "" <;> simp [h]
  | plain vname => cases vname <;> rfl

theorem collectTokens_isSome (l : List IRValue) :
    (collectTokens l).isSome = true ↔ ∀ v ∈ l, codeOperandOkB v = true := by
  induction l with
  | nil => simp [collectTokens]
  | cons v rest ih =>
      rw [collectTokens]
      cases ht : operandToken v with
      | none =>
          have hv : codeOperandOkB v = false := by rw [← operandToken_isSome, ht]; rfl
          simp [hv]
      | some t =>
          have hv : codeOperandOkB v = true := by rw [← operandToken_isSome, ht]; rfl
          cases hr : collectTokens rest with
          | none => simp [hv, ← ih, hr]
          | some ts => simp [hv, ← ih, hr]

theorem collectTokens_length (l : List IRValue) :
    ∀ ts, collectTokens l = some ts → ts.length = l.length := by
  induction l with
  | nil => intro ts h; cases h; rfl
  | cons v rest ih =>
      intro ts h
      rw [collectTokens] at h
      cases ht : operandToken v with
      | none => rw [ht] at h; exact absurd h (by simp)
      | some t =>
          rw [ht] at h
          cases hr : collectTokens rest with
          | none => rw [hr] at h; exact absurd h (by simp)
          | some ts2 =>
              rw [hr] at h
              injection h with h
              subst h
              show ts2.length + 1 = rest.length + 1
              rw [ih ts2 hr]

/-- C6 counterexample: an `AddInstruction` whose first operand is a
plain named `Value` (not an `Instruction`, not a `Constant`): the claim
admits it as "a value carrying a non-empty name", but the code returns
`None` because the operand is not an instruction. -/
theorem c6_counterexample :
    ¬ (∀ (k : IKind) (ops : List IRValue),
        (fromInstruction k ops).isSome = true ↔
          (2 ≤ ops.length ∧ (operatorMap k).isSome = true ∧
            ∀ v ∈ ops, specOperandOkB v = true)) := by
  intro h
  have := (h .add [IRValue.plain (some "x"), IRValue.constant "1" none]).mpr
    ⟨by decide, by decide, by decide⟩
  exact absurd this (by decide)

/-- C6 amended: `from_instruction` succeeds exactly when the instruction
has at least two operands, its kind is in the operator map, and every
operand is either a `Constant` or an `Instruction` with a non-empty
name (a named value of any other class disqualifies); the result is the
operator tag paired with the sorted list of operand tokens. -/
theorem c6_from_instruction (k : IKind) (ops : List IRValue) :
    ((fromInstruction k ops).isSome = true ↔
      (2 ≤ ops.length ∧ (operatorMap k).isSome = true ∧
        ∀ v ∈ ops, codeOperandOkB v = true)) ∧
    (∀ e, fromInstruction k ops = some e →
      (operatorMap k = some e.operator ∧
        ∃ toks, collectTokens ops = some toks ∧ e.operandNames = sortTokens toks)) := by
  constructor
  · rw [fromInstruction]
    by_cases hlen : ops.length ≤ 1
    · rw [if_pos hlen]
      simp only [Option.isSome_none, Bool.false_eq_true, false_iff]
      intro hc
      omega
    · rw [if_neg hlen]
      cases hop : operatorMap k with
      | none =>
          simp only [Option.isSome_none, Bool.false_eq_true, false_iff]
          intro hc
          exact absurd hc.2.1 (by simp)
      | some op =>
          cases hct : collectTokens ops with
          | none =>
              have hnot : ¬ ∀ v ∈ ops, codeOperandOkB v = true := by
                rw [← collectTokens_isSome, hct]
                simp
              simp only [Option.isSome_none, Bool.false_eq_true, false_iff]
              intro hc
              exact hnot hc.2.2
          | some toks =>
              have hlen2 : toks.length = ops.length := collectTokens_length ops toks hct
              have htoks : toks.isEmpty = false := by
                cases toks with
                | nil =>
                    exfalso
                    rw [List.length_nil] at hlen2
                    omega
                | cons t ts => rfl
              have hall : ∀ v ∈ ops, codeOperandOkB v = true := by
                rw [← collectTokens_isSome, hct]
                rfl
              simp only [htoks, Bool.false_eq_true, if_false, Option.isSome_some,
                true_iff, true_and]
              exact ⟨by omega, hall⟩
  · intro e he
    rw [fromInstruction] at he
    by_cases hlen : ops.length ≤ 1
    · rw [if_pos hlen] at he; exact absurd he (by simp)
    · rw [if_neg hlen] at he
      cases hop : operatorMap k with
      | none =>
          simp only [hop] at he
          exact absurd he (by simp)
      | some op =>
          simp only [hop] at he
          cases hct : collectTokens ops with
          | none =>
              simp only [hct] at he
              exact absurd he (by simp)
          | some toks =>
              simp only [hct] at he
              by_cases htoks : toks.isEmpty = true
              · simp only [htoks, if_true] at he
                exact absurd he (by simp)
              · simp only [htoks, if_false, Bool.false_eq_true, Option.some.injEq] at he
                subst he
                exact ⟨rfl, toks, rfl, rfl⟩

/-- C6 witness: a two-operand add over a named instruction and a
constant yields an expression. -/
theorem c6_witness :
    (fromInstruction IKind.add [IRValue.instr (some "y"), IRValue.constant "2" none]).isSome = true :=
  (c6_from_instruction IKind.add [IRValue.instr (some "y"), IRValue.constant "2" none]).1.mpr
    (by decide)

/-! ## Control-flow graph traversal: `ControlFlowGraph.traverse` in
`lapair/analysis/control_flow.py`.

CFG nodes are indexed by block position (`get_nodes` order); `succs m`
lists the successor node indices of node `m`.  The DFS stack is kept
top-first (Python pops from the end and extends at the end, so an
extension by `[a, b, c]` is modelled as prepending `[c, b, a]`). -/

structure TGraph where
  n : Nat
  succs : Nat → List Nat

/-- The `while stack:` loop of `traverse`, with explicit fuel.  Returns
the traversal order and the remaining stack (empty iff the loop
finished). -/
def dfsAux (g : TGraph) : Nat → List Nat → List Nat → List Nat → (List Nat × List Nat)
  | 0, stack, _, order => (order, stack)
  | _ + 1, [], _, order => (order, [])
  | fuel + 1, node :: rest, visited, order =>
      if node ∈ visited then dfsAux g fuel rest visited order
      else
        dfsAux g fuel
          (((g.succs node).filter (fun q => decide (q ∉ node :: visited))).reverse ++ rest)
          (node :: visited) (order ++ [node])

/-- `traverse()` with no start argument: `blocks[0]` raises `IndexError`
on an empty block list (modelled as `none`); otherwise a DFS from node
0.  The fuel is an upper bound on the loop iterations actually needed. -/
def traverse (g : TGraph) : Option (List Nat) :=
  if g.n = 0 then none
  else some (dfsAux g (g.n * g.n + g.n + 1) [0] [] []).1

theorem nodup_length_le (l : List Nat) (k : Nat) (hnd : l.Nodup) (hb : ∀ q ∈ l, q < k) :
    l.length ≤ k := by
  have h1 : l.toFinset.card = l.length := List.toFinset_card_of_nodup hnd
  have h2 : l.toFinset ⊆ Finset.range k := by
    intro q hq
    rw [List.mem_toFinset] at hq
    exact Finset.mem_range.mpr (hb q hq)
  have := Finset.card_le_card h2
  rw [h1, Finset.card_range] at this
  exact this

theorem dfsAux_spec (g : TGraph)
    (hwf : ∀ m, m < g.n → ∀ q ∈ g.succs m, q < g.n)
    (hnd : ∀ m, m < g.n → (g.succs m).Nodup) :
    ∀ (fuel : Nat) (stack visited : List Nat),
      (∀ q ∈ stack, q < g.n ∧ Relation.ReflTransGen (fun a b => b ∈ g.succs a) 0 q) →
      (∀ q ∈ visited, q < g.n ∧ Relation.ReflTransGen (fun a b => b ∈ g.succs a) 0 q) →
      visited.Nodup →
      (∀ v ∈ visited, ∀ q ∈ g.succs v, q ∈ visited ∨ q ∈ stack) →
      stack.length + (g.n - visited.length) * (g.n + 1) ≤ fuel →
      ∃ w, dfsAux g fuel stack visited visited.reverse = ((w ++ visited).reverse, []) ∧
        (∀ q ∈ stack, q ∈ w ++ visited) ∧
        (w ++ visited).Nodup ∧
        (∀ q ∈ w ++ visited, q < g.n ∧ Relation.ReflTransGen (fun a b => b ∈ g.succs a) 0 q) ∧
        (∀ v ∈ w ++ visited, ∀ q ∈ g.succs v, q ∈ w ++ visited) := by
  intro fuel
  induction fuel with
  | zero =>
      intro stack visited hst hvis hvnd hcl hm
      have hempty : stack = [] := by
        have : stack.length = 0 := by omega
        exact List.length_eq_zero.mp this
      subst hempty
      refine ⟨[], rfl, by simp, by simpa using hvnd, by simpa using hvis, ?_⟩
      intro v hv q hq
      rcases hcl v (by simpa using hv) q hq with h | h
      · simpa using h
      · exact absurd h (by simp)
  | succ fuel ih =>
      intro stack visited hst hvis hvnd hcl hm
      cases stack with
      | nil =>
          refine ⟨[], rfl, by simp, by simpa using hvnd, by simpa using hvis, ?_⟩
          intro v hv q hq
          rcases hcl v (by simpa using hv) q hq with h | h
          · simpa using h
          · exact absurd h (by simp)
      | cons node rest =>
          by_cases hv : node ∈ visited
          · rw [show dfsAux g (fuel + 1) (node :: rest) visited visited.reverse
                = dfsAux g fuel rest visited visited.reverse from by
              rw [dfsAux, if_pos hv]]
            obtain ⟨w, h1, h2, h3, h4, h5⟩ :=
              ih rest visited (fun q hq => hst q (List.mem_cons_of_mem node hq))
                hvis hvnd
                (by
                  intro v hvv q hq
                  rcases hcl v hvv q hq with h | h
                  · exact Or.inl h
                  · rcases List.mem_cons.mp h with h2 | h2
                    · exact Or.inl (h2 ▸ hv)
                    · exact Or.inr h2)
                (by
                  have hlc2 : (node :: rest).length = rest.length + 1 := rfl
                  rw [hlc2] at hm
                  omega)
            refine ⟨w, h1, ?_, h3, h4, h5⟩
            intro q hq
            rcases List.mem_cons.mp hq with h | h
            · exact h ▸ List.mem_append.mpr (Or.inr hv)
            · exact h2 q h
          · have hnode := hst node (List.mem_cons_self node rest)
            have hcons_nd : (node :: visited).Nodup := List.nodup_cons.mpr ⟨hv, hvnd⟩
            have hlen_cons : (node :: visited).length ≤ g.n := by
              refine nodup_length_le _ _ hcons_nd ?_
              intro q hq
              rcases List.mem_cons.mp hq with h | h
              · exact h ▸ hnode.1
              · exact (hvis q h).1
            have hsucc_bound : ∀ q ∈ g.succs node, q < g.n := hwf node hnode.1
            have hsucc_nd : (g.succs node).Nodup := hnd node hnode.1
            have hsucc_len : (g.succs node).length ≤ g.n :=
              nodup_length_le _ _ hsucc_nd hsucc_bound
            rw [show dfsAux g (fuel + 1) (node :: rest) visited visited.reverse
                = dfsAux g fuel
                  (((g.succs node).filter (fun q => decide (q ∉ node :: visited))).reverse ++ rest)
                  (node :: visited) (visited.reverse ++ [node]) from by
              rw [dfsAux, if_neg hv]]
            rw [show visited.reverse ++ [node] = (node :: visited).reverse from
              (List.reverse_cons node visited).symm]
            have hst' : ∀ q ∈ ((g.succs node).filter
                (fun q => decide (q ∉ node :: visited))).reverse ++ rest,
                q < g.n ∧ Relation.ReflTransGen (fun a b => b ∈ g.succs a) 0 q := by
              intro q hq
              rcases List.mem_append.mp hq with h | h
              · rw [List.mem_reverse, List.mem_filter] at h
                exact ⟨hsucc_bound q h.1, Relation.ReflTransGen.tail hnode.2 h.1⟩
              · exact hst q (List.mem_cons_of_mem node h)
            have hvis' : ∀ q ∈ node :: visited,
                q < g.n ∧ Relation.ReflTransGen (fun a b => b ∈ g.succs a) 0 q := by
              intro q hq
              rcases List.mem_cons.mp hq with h | h
              · exact h ▸ hnode
              · exact hvis q h
            have hcl' : ∀ v ∈ node :: visited, ∀ q ∈ g.succs v,
                q ∈ node :: visited ∨
                  q ∈ ((g.succs node).filter
                    (fun q => decide (q ∉ node :: visited))).reverse ++ rest := by
              intro v hvv q hq
              rcases List.mem_cons.mp hvv with h | h
              · rw [h] at hq
                by_cases hqv : q ∈ node :: visited
                · exact Or.inl hqv
                · refine Or.inr (List.mem_append.mpr (Or.inl ?_))
                  rw [List.mem_reverse, List.mem_filter]
                  exact ⟨hq, by simpa using hqv⟩
              · rcases hcl v h q hq with h2 | h2
                · exact Or.inl (List.mem_cons_of_mem node h2)
                · rcases List.mem_cons.mp h2 with h3 | h3
                  · exact Or.inl (h3 ▸ List.mem_cons_self node visited)
                  · exact Or.inr (List.mem_append.mpr (Or.inr h3))
            have hm' : (((g.succs node).filter
                  (fun q => decide (q ∉ node :: visited))).reverse ++ rest).length +
                (g.n - (node :: visited).length) * (g.n + 1) ≤ fuel := by
              have hfl : ((g.succs node).filter
                  (fun q => decide (q ∉ node :: visited))).length ≤ g.n :=
                le_trans (List.length_filter_le _ _) hsucc_len
              rw [List.length_append, List.length_reverse]
              have hlc : (node :: visited).length = visited.length + 1 := rfl
              have hlc2 : (node :: rest).length = rest.length + 1 := rfl
              rw [hlc]
              rw [hlc2] at hm
              have hvn : visited.length + 1 ≤ g.n := by rw [hlc] at hlen_cons; exact hlen_cons
              have hA : g.n - visited.length = (g.n - (visited.length + 1)) + 1 := by omega
              rw [hA] at hm
              have hexp : ((g.n - (visited.length + 1)) + 1) * (g.n + 1)
                  = (g.n - (visited.length + 1)) * (g.n + 1) + (g.n + 1) := by ring
              rw [hexp] at hm
              generalize (g.n - (visited.length + 1)) * (g.n + 1) = P at hm ⊢
              omega
            obtain ⟨w', hrun, hstw, hndw, hbw, hclw⟩ :=
              ih _ (node :: visited) hst' hvis' hcons_nd hcl' hm'
            refine ⟨w' ++ [node], ?_, ?_, ?_, ?_, ?_⟩
            · rw [hrun, List.append_assoc, List.singleton_append]
            · intro q hq
              rw [List.append_assoc, List.singleton_append]
              rcases List.mem_cons.mp hq with h | h
              · exact List.mem_append.mpr (Or.inr (h ▸ List.mem_cons_self node visited))
              · exact hstw q (List.mem_append.mpr (Or.inr h))
            · rw [List.append_assoc, List.singleton_append]
              exact hndw
            · rw [List.append_assoc, List.singleton_append]
              exact hbw
            · rw [List.append_assoc, List.singleton_append]
              exact hclw

/-- C10: with at least one basic block, `traverse()` starts at the entry
(node 0, the function's first block), visits each node reachable from it
exactly once (the returned list has no duplicates, starts with node 0,
and contains exactly the reachable nodes); with no blocks, the default
start lookup `blocks[0]` fails instead of returning an empty traversal. -/
theorem c10_traverse_default_start (g : TGraph)
    (hwf : ∀ m, m < g.n → ∀ q ∈ g.succs m, q < g.n)
    (hnd : ∀ m, m < g.n → (g.succs m).Nodup) :
    (g.n = 0 → traverse g = none) ∧
    (0 < g.n → ∃ l, traverse g = some l ∧ l.head? = some 0 ∧ l.Nodup ∧
      (∀ m, m ∈ l ↔ Relation.ReflTransGen (fun a b => b ∈ g.succs a) 0 m)) := by
  constructor
  · intro h
    rw [traverse, if_pos h]
  · intro hpos
    have hz : ¬ g.n = 0 := by omega
    have hstep : dfsAux g (g.n * g.n + g.n + 1) [0] [] []
        = dfsAux g (g.n * g.n + g.n)
            (((g.succs 0).filter (fun q => decide (q ∉ [0] ))).reverse ++ [])
            [0] ([] ++ [0]) := by
      rw [show g.n * g.n + g.n + 1 = (g.n * g.n + g.n) + 1 from rfl, dfsAux,
        if_neg (by simp)]
    have h0 : (0 : Nat) < g.n ∧ Relation.ReflTransGen (fun a b => b ∈ g.succs a) 0 0 :=
      ⟨hpos, Relation.ReflTransGen.refl⟩
    have hsucc_len : (g.succs 0).length ≤ g.n := nodup_length_le _ _ (hnd 0 hpos) (hwf 0 hpos)
    have hm : ((((g.succs 0).filter (fun q => decide (q ∉ [0] ))).reverse ++ [])).length +
        (g.n - ([0] : List Nat).length) * (g.n + 1) ≤ g.n * g.n + g.n := by
      rw [List.append_nil, List.length_reverse]
      have hfl : ((g.succs 0).filter (fun q => decide (q ∉ [0] ))).length ≤ g.n :=
        le_trans (List.length_filter_le _ _) hsucc_len
      have hl1 : ([0] : List Nat).length = 1 := rfl
      rw [hl1]
      have h1 : g.n - 1 + 1 = g.n := Nat.succ_pred_eq_of_pos hpos
      have h2 : (g.n - 1) * (g.n + 1) + (g.n + 1) = g.n * g.n + g.n := by
        calc (g.n - 1) * (g.n + 1) + (g.n + 1) = (g.n - 1 + 1) * (g.n + 1) := by ring
        _ = g.n * (g.n + 1) := by rw [h1]
        _ = g.n * g.n + g.n := by ring
      generalize (g.n - 1) * (g.n + 1) = X at h2 ⊢
      generalize g.n * g.n = Y at h2 ⊢
      omega
    obtain ⟨w, hrun, _, hndw, hbw, hclw⟩ := dfsAux_spec g hwf hnd (g.n * g.n + g.n)
      (((g.succs 0).filter (fun q => decide (q ∉ [0] ))).reverse ++ []) [0]
      (by
        intro q hq
        rw [List.append_nil, List.mem_reverse, List.mem_filter] at hq
        exact ⟨hwf 0 hpos q hq.1, Relation.ReflTransGen.single hq.1⟩)
      (by
        intro q hq
        rcases List.mem_cons.mp hq with h | h
        · exact h ▸ h0
        · exact absurd h (by simp))
      (List.nodup_singleton 0)
      (by
        intro v hvv q hq
        rcases List.mem_cons.mp hvv with h | h
        · subst h
          by_cases hqv : q ∈ ([0] : List Nat)
          · exact Or.inl hqv
          · refine Or.inr ?_
            rw [List.append_nil, List.mem_reverse, List.mem_filter]
            refine ⟨hq, ?_⟩
            simp only [decide_eq_true_eq]
            simpa using hqv
        · exact absurd h (by simp))
      hm
    have hshow : ([0] : List Nat).reverse = [] ++ [0] := rfl
    rw [← hshow] at hstep
    refine ⟨(w ++ [0]).reverse, ?_, ?_, ?_, ?_⟩
    · rw [traverse, if_neg hz, hstep, hrun]
    · rw [List.reverse_append]
      rfl
    · exact List.nodup_reverse.mpr hndw
    · intro m
      rw [List.mem_reverse]
      constructor
      · intro hm2
        exact (hbw m hm2).2
      · intro hreach
        induction hreach with
        | refl => exact List.mem_append.mpr (Or.inr (List.mem_cons_self 0 []))
        | tail hr hstep2 ihr => exact hclw _ ihr _ hstep2

/-- C10 witness: the two-node graph `0 → 1`. -/
theorem c10_witness :
    ∃ l, traverse { n := 2, succs := fun m => if m = 0 then [1] else [] } = some l ∧
      l.head? = some 0 ∧ l.Nodup ∧
      (∀ m, m ∈ l ↔ Relation.ReflTransGen
        (fun a b => b ∈ (fun m => if m = 0 then [1] else ([] : List Nat)) a) 0 m) :=
  (c10_traverse_default_start { n := 2, succs := fun m => if m = 0 then [1] else [] }
    (by
      intro m hm q hq
      by_cases h : m = 0
      · subst h
        simp at hq
        rw [hq]
        decide
      · simp only [if_neg h] at hq
        exact absurd hq (by simp))
    (by
      intro m hm
      by_cases h : m = 0
      · simp only [h, if_pos rfl]
        exact List.nodup_singleton 1
      · simp only [if_neg h]
        exact List.nodup_nil)).2 (by decide)

/-! ## Dataflow engine: `DataFlowAnalysis.analyze` in
`lapair/analysis/data_flow.py`.

The generic worklist solver is parameterized by the lattice element type
`D` and an analysis-private state `A` (used by Available Expressions for
its `killed_vars` record; `Unit` elsewhere).  The Python worklist is a
set with unspecified pop order; it is resolved deterministically as a
duplicate-free FIFO queue (initially all nodes in `get_nodes` order,
popped from the front, newly enqueued successors appended at the back).

Python initializes every `in_sets[n]` and `out_sets[n]` to
`initial_data()`; for analyses that do not override `initial_data` this
is the empty dict `{}`, which compares unequal to the sets the transfer
functions produce, so `D` is `Option (Finset _)` there with `none` as
the initial placeholder (`initial_data`), and the meet unwraps absent
placeholders to the empty set exactly as Python `set.update({})`
does. -/

structure Solver (D A : Type) where
  n : Nat
  preds : Nat → List Nat
  succs : Nat → List Nat
  forward : Bool
  initD : D
  flow : A → Nat → D → D × A
  meet : A → List D → D

structure SState (D A : Type) where
  inS : Nat → D
  outS : Nat → D
  wl : List Nat
  aux : A

def initState {D A : Type} (sv : Solver D A) (a0 : A) : SState D A :=
  { inS := fun _ => sv.initD, outS := fun _ => sv.initD, wl := List.range sv.n, aux := a0 }

/-- One iteration of the `while worklist:` loop; `none` when the
worklist is empty and `analyze` returns. -/
def solverStep {D A : Type} [DecidableEq D] (sv : Solver D A) (st : SState D A) :
    Option (SState D A) :=
  match st.wl with
  | [] => none
  | node :: rest =>
      if sv.forward then
        let nbrs := sv.preds node
        let sets := if nbrs.isEmpty then [sv.initD] else nbrs.map st.outS
        let m := sv.meet st.aux sets
        let fres := sv.flow st.aux node m
        some { inS := fun j => if j = node then m else st.inS j
               outS := fun j => if j = node then fres.1 else st.outS j
               wl := if fres.1 = st.outS node then rest
                 else rest ++ (sv.succs node).filter (fun q => decide (q ∉ rest))
               aux := fres.2 }
      else
        let nbrs := sv.succs node
        let sets := if nbrs.isEmpty then [sv.initD] else nbrs.map st.inS
        let m := sv.meet st.aux sets
        let fres := sv.flow st.aux node m
        some { inS := fun j => if j = node then fres.1 else st.inS j
               outS := fun j => if j = node then m else st.outS j
               wl := if fres.1 = st.inS node then rest
                 else rest ++ (sv.preds node).filter (fun q => decide (q ∉ rest))
               aux := fres.2 }

def solverRun {D A : Type} [DecidableEq D] (sv : Solver D A) : Nat → SState D A → SState D A
  | 0, st => st
  | fuel + 1, st =>
      match solverStep sv st with
      | none => st
      | some st' => solverRun sv fuel st'

/-! Instructions as the dataflow analyses observe them: an identity (for
reaching-definition pairs), an optional name, a kind, and operands. -/

structure AInstr where
  iid : Nat
  iname : Option String
  kind : IKind
  opnds : List IRValue

/-- Python truthiness of an optional string name. -/
def truthyName : Option String → Option String
  | some nm => if nm = "" then none else some nm
  | none => none

def valueName : IRValue → Option String
  | .constant _ n => n
  | .instr n => n
  | .plain n => n

/-- Names assigned by the block's instructions (the per-block kill
set common to the analyses). -/
def killedNames (block : List AInstr) : Finset String :=
  block.foldl (fun acc ins =>
    match truthyName ins.iname with
    | some nm => insert nm acc
    | none => acc) ∅

/-! ### Available Expressions (forward, intersection meet with the
global kill record). -/

def genExprs (block : List AInstr) : List Expr :=
  block.filterMap (fun ins => fromInstruction ins.kind ins.opnds)

/-- `AvailableExpressionsAnalysis.flow_function`: record this block's
killed variables, drop incoming expressions using them, then add the
block's own expressions. -/
def aeFlow (blocks : Nat → List AInstr) (aux : Nat → Option (Finset String)) (node : Nat)
    (d : Finset Expr) : Finset Expr × (Nat → Option (Finset String)) :=
  let killed := killedNames (blocks node)
  let filtered := d.filter (fun e => ¬ e.operandNames.any (fun v => decide (v ∈ killed)))
  ((genExprs (blocks node)).foldl (fun acc e => insert e acc) filtered,
    fun j => if j = node then some killed else aux j)

/-- `AvailableExpressionsAnalysis.meet_operator`: copy a single input;
otherwise intersect all inputs and then drop every expression whose
operands meet the union of all killed variables recorded so far. -/
def aeMeet (n : Nat) (aux : Nat → Option (Finset String)) (sets : List (Finset Expr)) :
    Finset Expr :=
  match sets with
  | [] => ∅
  | [s] => s
  | s :: rest =>
      let allk := (List.range n).foldl (fun acc j =>
        match aux j with
        | some ks => acc ∪ ks
        | none => acc) ∅
      let inter := rest.foldl (fun acc t => acc.filter (fun e => e ∈ t)) s
      inter.filter (fun e => ¬ e.operandNames.any (fun v => decide (v ∈ allk)))

def aeSolver (n : Nat) (preds succs : Nat → List Nat) (blocks : Nat → List AInstr) :
    Solver (Finset Expr) (Nat → Option (Finset String)) :=
  { n := n, preds := preds, succs := succs, forward := true, initD := ∅
    flow := fun aux node d => aeFlow blocks aux node d
    meet := fun aux sets => aeMeet n aux sets }

/-! ### The S3 diamond for Available Expressions. -/

def s3Blocks : Nat → List AInstr
  | 0 => [{ iid := 0, iname := some "x", kind := .assign, opnds := [.constant "1" none] },
          { iid := 1, iname := some "y", kind := .assign, opnds := [.constant "2" none] }]
  | 1 => [{ iid := 2, iname := some "a", kind := .add,
            opnds := [.instr (some "x"), .instr (some "y")] },
          { iid := 3, iname := some "b", kind := .mul,
            opnds := [.instr (some "x"), .instr (some "y")] }]
  | 2 => [{ iid := 4, iname := some "x", kind := .assign, opnds := [.constant "2" none] },
          { iid := 5, iname := some "c", kind := .add,
            opnds := [.instr (some "x"), .instr (some "y")] }]
  | _ => []

def s3Preds : Nat → List Nat
  | 1 => [0]
  | 2 => [0]
  | 3 => [1, 2]
  | _ => []

def s3Succs : Nat → List Nat
  | 0 => [1, 2]
  | 1 => [3]
  | 2 => [3]
  | _ => []

def s3Solver : Solver (Finset Expr) (Nat → Option (Finset String)) :=
  aeSolver 4 s3Preds s3Succs s3Blocks

def s3Final : SState (Finset Expr) (Nat → Option (Finset String)) :=
  solverRun s3Solver 32 (initState s3Solver (fun _ => none))

/-- C7: on the S3 diamond (entry 0 defines x,y; node 1 computes a=x+y,
b=x*y; node 2 redefines x and computes c=x+y; node 3 is the empty
merge), `analyze()` drains its worklist and yields out(entry)=∅,
out(b1)={add(x,y), multiply(x,y)}, out(b2)={add(x,y)} and out(exit)=∅:
at the merge the meet intersects {add, multiply} with {add} and then
drops add(x,y) because x is in the global union of recorded killed
variables. -/
theorem c7_available_expressions_s3 :
    s3Final.wl = [] ∧
    s3Final.outS 0 = ∅ ∧
    s3Final.outS 1 = ({ { operator := "add", operandNames := ["x", "y"] },
      { operator := "multiply", operandNames := ["x", "y"] } } : Finset Expr) ∧
    s3Final.outS 2 = ({ { operator := "add", operandNames := ["x", "y"] } } : Finset Expr) ∧
    s3Final.outS 3 = ∅ := by
  refine ⟨by decide, by decide, by decide, by decide, by decide⟩

/-! ### Termination of the worklist loop.

An abstract termination lemma for forward analyses whose transfer and
meet are monotone in a relation `le` along which a measure strictly
drops: each iteration either shrinks the worklist or strictly moves one
node's out-set along `le`, which can happen only finitely often.
`Good` confines the values to a finite universe. -/

def fwdSets {D A : Type} (sv : Solver D A) (st : SState D A) (j : Nat) : List D :=
  if (sv.preds j).isEmpty then [sv.initD] else (sv.preds j).map st.outS

/-- Invariant carried through the forward worklist loop. -/
structure FwdInv {D : Type} (sv : Solver D Unit) (le : D → D → Prop) (Good : D → Prop)
    (st : SState D Unit) : Prop where
  good : ∀ j, j < sv.n → Good (st.outS j)
  grow : ∀ j, j < sv.n →
    le (st.outS j) ((sv.flow () j (sv.meet () (fwdSets sv st j))).1)
  wlnd : st.wl.Nodup
  wlb : ∀ q ∈ st.wl, q < sv.n

def solverMeasure {D : Type} (sv : Solver D Unit) (μ : D → Nat) (st : SState D Unit) : Nat :=
  (∑ j in Finset.range sv.n, μ (st.outS j)) * (sv.n + 1) + st.wl.length

theorem forall₂_map_of_pointwise {D : Type} (le : D → D → Prop) (f g : Nat → D)
    (l : List Nat) (h : ∀ x ∈ l, le (f x) (g x)) :
    List.Forall₂ le (l.map f) (l.map g) := by
  induction l with
  | nil => exact List.Forall₂.nil
  | cons x xs ih =>
      exact List.Forall₂.cons (h x (List.mem_cons_self x xs))
        (ih (fun y hy => h y (List.mem_cons_of_mem x hy)))

theorem fwd_sets_good {D : Type} (sv : Solver D Unit)
    (Good : D → Prop)
    (hginit : Good sv.initD)
    (hpredb : ∀ m, m < sv.n → ∀ q ∈ sv.preds m, q < sv.n)
    (st : SState D Unit) (hgoodall : ∀ j, j < sv.n → Good (st.outS j)) (j : Nat)
    (hj : j < sv.n) : ∀ d ∈ fwdSets sv st j, Good d := by
  intro d hd
  rw [fwdSets] at hd
  by_cases hp : (sv.preds j).isEmpty
  · rw [if_pos hp] at hd
    rcases List.mem_cons.mp hd with h | h
    · exact h ▸ hginit
    · exact absurd h (by simp)
  · rw [if_neg hp] at hd
    obtain ⟨p, hp2, hpd⟩ := List.mem_map.mp hd
    exact hpd ▸ hgoodall p (hpredb j hj p hp2)

theorem fwd_step {D : Type} [DecidableEq D] (sv : Solver D Unit)
    (le : D → D → Prop) (Good : D → Prop) (μ : D → Nat)
    (hfwd : sv.forward = true)
    (hrefl : ∀ d, le d d)
    (htrans : ∀ a b c, le a b → le b c → le a c)
    (hflow : ∀ j, j < sv.n → ∀ d d', Good d → Good d' → le d d' →
      le ((sv.flow () j d).1) ((sv.flow () j d').1))
    (hmeet : ∀ l l', List.Forall₂ le l l' → le (sv.meet () l) (sv.meet () l'))
    (hginit : Good sv.initD)
    (hgflow : ∀ j, j < sv.n → ∀ d, Good d → Good ((sv.flow () j d).1))
    (hgmeet : ∀ l, (∀ d ∈ l, Good d) → Good (sv.meet () l))
    (hmu : ∀ a b, le a b → Good a → Good b → a ≠ b → μ b < μ a)
    (hpredb : ∀ m, m < sv.n → ∀ q ∈ sv.preds m, q < sv.n)
    (hsuccb : ∀ m, m < sv.n → ∀ q ∈ sv.succs m, q < sv.n)
    (hsuccnd : ∀ m, m < sv.n → (sv.succs m).Nodup)
    (st : SState D Unit) (hI : FwdInv sv le Good st)
    (node : Nat) (rest : List Nat) (hwl : st.wl = node :: rest) :
    ∃ st', solverStep sv st = some st' ∧ FwdInv sv le Good st' ∧
      solverMeasure sv μ st' < solverMeasure sv μ st := by
  have hnode : node < sv.n := hI.wlb node (hwl ▸ List.mem_cons_self node rest)
  set m := sv.meet () (fwdSets sv st node) with hm
  set newOut := (sv.flow () node m).1 with hnew
  have hgoodall : ∀ j, j < sv.n → Good (st.outS j) := hI.good
  have hgm : Good m := hgmeet _ (fwd_sets_good sv Good hginit hpredb st hgoodall node hnode)
  have hgnew : Good newOut := hgflow node hnode m hgm
  have hgrow_node : le (st.outS node) newOut := hI.grow node hnode
  set st' : SState D Unit :=
    { inS := fun j => if j = node then m else st.inS j
      outS := fun j => if j = node then newOut else st.outS j
      wl := if newOut = st.outS node then rest
        else rest ++ (sv.succs node).filter (fun q => decide (q ∉ rest))
      aux := (sv.flow () node m).2 } with hst'
  have hstep : solverStep sv st = some st' := by
    rw [solverStep, hwl]
    simp only [hfwd, if_true]
    rfl
  have hout_le : ∀ j, le (st.outS j) (st'.outS j) := by
    intro j
    show le (st.outS j) (if j = node then newOut else st.outS j)
    by_cases hj : j = node
    · rw [if_pos hj, hj]
      exact hgrow_node
    · rw [if_neg hj]
      exact hrefl _
  have hsets_le : ∀ j, j < sv.n →
      List.Forall₂ le (fwdSets sv st j) (fwdSets sv st' j) := by
    intro j _
    rw [fwdSets, fwdSets]
    by_cases hp : (sv.preds j).isEmpty
    · rw [if_pos hp, if_pos hp]
      exact List.Forall₂.cons (hrefl _) List.Forall₂.nil
    · rw [if_neg hp, if_neg hp]
      exact forall₂_map_of_pointwise le _ _ _ (fun x _ => hout_le x)
  have hgoodall' : ∀ j, j < sv.n → Good (st'.outS j) := by
    intro j hj
    show Good (if j = node then newOut else st.outS j)
    by_cases h : j = node
    · rw [if_pos h]; exact hgnew
    · rw [if_neg h]; exact hI.good j hj
  have hflow_le : ∀ j, j < sv.n →
      le ((sv.flow () j (sv.meet () (fwdSets sv st j))).1)
        ((sv.flow () j (sv.meet () (fwdSets sv st' j))).1) := by
    intro j hj
    refine hflow j hj _ _ ?_ ?_ (hmeet _ _ (hsets_le j hj))
    · exact hgmeet _ (fwd_sets_good sv Good hginit hpredb st hgoodall j hj)
    · exact hgmeet _ (fwd_sets_good sv Good hginit hpredb st' hgoodall' j hj)
  have hI' : FwdInv sv le Good st' := by
    refine ⟨hgoodall', ?_, ?_, ?_⟩
    · intro j hj
      show le (if j = node then newOut else st.outS j) _
      by_cases h : j = node
      · rw [if_pos h]
        have := hflow_le node hnode
        rw [← hm] at this
        exact h ▸ this
      · rw [if_neg h]
        exact htrans _ _ _ (hI.grow j hj) (hflow_le j hj)
    · show (if newOut = st.outS node then rest
        else rest ++ (sv.succs node).filter (fun q => decide (q ∉ rest))).Nodup
      have hrnd : rest.Nodup := (hwl ▸ hI.wlnd : (node :: rest).Nodup).of_cons
      by_cases hch : newOut = st.outS node
      · rw [if_pos hch]; exact hrnd
      · rw [if_neg hch]
        refine hrnd.append ((hsuccnd node hnode).filter _) ?_
        intro q hq hq2
        rw [List.mem_filter, decide_eq_true_eq] at hq2
        exact hq2.2 hq
    · intro q hq
      show q < sv.n
      have hq2 : q ∈ (if newOut = st.outS node then rest
          else rest ++ (sv.succs node).filter (fun q => decide (q ∉ rest))) := hq
      by_cases hch : newOut = st.outS node
      · rw [if_pos hch] at hq2
        exact hI.wlb q (hwl ▸ List.mem_cons_of_mem node hq2)
      · rw [if_neg hch] at hq2
        rcases List.mem_append.mp hq2 with h | h
        · exact hI.wlb q (hwl ▸ List.mem_cons_of_mem node h)
        · rw [List.mem_filter] at h
          exact hsuccb node hnode q h.1
  refine ⟨st', hstep, hI', ?_⟩
  rw [solverMeasure, solverMeasure]
  by_cases hch : newOut = st.outS node
  · have hsum : ∑ j in Finset.range sv.n, μ (st'.outS j)
        = ∑ j in Finset.range sv.n, μ (st.outS j) := by
      refine Finset.sum_congr rfl ?_
      intro j _
      show μ (if j = node then newOut else st.outS j) = _
      by_cases h : j = node
      · rw [if_pos h, hch, h]
      · rw [if_neg h]
    rw [hsum]
    have hwl' : st'.wl = rest := by
      show (if newOut = st.outS node then rest else _) = rest
      rw [if_pos hch]
    rw [hwl', hwl]
    have : rest.length < (node :: rest).length := by
      rw [List.length_cons]
      omega
    omega
  · have hmun : μ newOut < μ (st.outS node) :=
      hmu _ _ hgrow_node (hI.good node hnode) hgnew (fun h => hch h.symm)
    have hnode_mem : node ∈ Finset.range sv.n := Finset.mem_range.mpr hnode
    have hsum_erase : ∑ j in (Finset.range sv.n).erase node, μ (st'.outS j)
        = ∑ j in (Finset.range sv.n).erase node, μ (st.outS j) := by
      refine Finset.sum_congr rfl ?_
      intro j hj
      have hjne : j ≠ node := (Finset.mem_erase.mp hj).1
      show μ (if j = node then newOut else st.outS j) = _
      rw [if_neg hjne]
    have hsplit : ∑ j in Finset.range sv.n, μ (st'.outS j)
        = μ (st'.outS node) + ∑ j in (Finset.range sv.n).erase node, μ (st'.outS j) :=
      (Finset.add_sum_erase _ _ hnode_mem).symm
    have hsplit2 : ∑ j in Finset.range sv.n, μ (st.outS j)
        = μ (st.outS node) + ∑ j in (Finset.range sv.n).erase node, μ (st.outS j) :=
      (Finset.add_sum_erase _ _ hnode_mem).symm
    have hout_node : st'.outS node = newOut := by
      show (if node = node then newOut else _) = newOut
      rw [if_pos rfl]
    have hsumlt : ∑ j in Finset.range sv.n, μ (st'.outS j)
        < ∑ j in Finset.range sv.n, μ (st.outS j) := by
      rw [hsplit, hsplit2, hsum_erase, hout_node]
      omega
    have hwlb' : st'.wl.length ≤ sv.n := nodup_length_le _ _ hI'.wlnd hI'.wlb
    have hwllen : st.wl.length = rest.length + 1 := by
      rw [hwl]
      rfl
    generalize hA : ∑ j in Finset.range sv.n, μ (st'.outS j) = A at hsumlt hwlb' ⊢
    generalize hB : ∑ j in Finset.range sv.n, μ (st.outS j) = B at hsumlt ⊢
    have h1 : (A + 1) * (sv.n + 1) ≤ B * (sv.n + 1) :=
      Nat.mul_le_mul_right _ (by omega)
    have h2 : (A + 1) * (sv.n + 1) = A * (sv.n + 1) + (sv.n + 1) := by ring
    generalize A * (sv.n + 1) = X at h1 h2 ⊢
    generalize B * (sv.n + 1) = Y at h1 h2 ⊢
    omega

theorem fwd_run_terminates {D : Type} [DecidableEq D] (sv : Solver D Unit)
    (le : D → D → Prop) (Good : D → Prop) (μ : D → Nat)
    (hfwd : sv.forward = true)
    (hrefl : ∀ d, le d d)
    (htrans : ∀ a b c, le a b → le b c → le a c)
    (hflow : ∀ j, j < sv.n → ∀ d d', Good d → Good d' → le d d' →
      le ((sv.flow () j d).1) ((sv.flow () j d').1))
    (hmeet : ∀ l l', List.Forall₂ le l l' → le (sv.meet () l) (sv.meet () l'))
    (hginit : Good sv.initD)
    (hgflow : ∀ j, j < sv.n → ∀ d, Good d → Good ((sv.flow () j d).1))
    (hgmeet : ∀ l, (∀ d ∈ l, Good d) → Good (sv.meet () l))
    (hmu : ∀ a b, le a b → Good a → Good b → a ≠ b → μ b < μ a)
    (hpredb : ∀ m, m < sv.n → ∀ q ∈ sv.preds m, q < sv.n)
    (hsuccb : ∀ m, m < sv.n → ∀ q ∈ sv.succs m, q < sv.n)
    (hsuccnd : ∀ m, m < sv.n → (sv.succs m).Nodup)
    (st : SState D Unit) (hI : FwdInv sv le Good st) :
    ∃ fuel, (solverRun sv fuel st).wl = [] := by
  have key : ∀ k (st : SState D Unit), solverMeasure sv μ st ≤ k →
      FwdInv sv le Good st → ∃ fuel, (solverRun sv fuel st).wl = [] := by
    intro k
    induction k with
    | zero =>
        intro st hk hI2
        cases hwl : st.wl with
        | nil => exact ⟨0, hwl⟩
        | cons node rest =>
            exfalso
            have hlen : st.wl.length ≤ 0 := by
              rw [solverMeasure] at hk
              omega
            rw [hwl] at hlen
            simp at hlen
    | succ k ihk =>
        intro st hk hI2
        cases hwl : st.wl with
        | nil => exact ⟨0, hwl⟩
        | cons node rest =>
            obtain ⟨st', hstep, hI', hlt⟩ :=
              fwd_step sv le Good μ hfwd hrefl htrans hflow hmeet hginit hgflow hgmeet
                hmu hpredb hsuccb hsuccnd st hI2 node rest hwl
            obtain ⟨fuel, hfuel⟩ := ihk st' (by omega) hI'
            refine ⟨fuel + 1, ?_⟩
            rw [solverRun, hstep]
            exact hfuel
  exact key (solverMeasure sv μ st) st (le_refl _) hI

theorem fwd_terminates {D : Type} [DecidableEq D] (sv : Solver D Unit)
    (le : D → D → Prop) (Good : D → Prop) (μ : D → Nat)
    (hfwd : sv.forward = true)
    (hrefl : ∀ d, le d d)
    (htrans : ∀ a b c, le a b → le b c → le a c)
    (hflow : ∀ j, j < sv.n → ∀ d d', Good d → Good d' → le d d' →
      le ((sv.flow () j d).1) ((sv.flow () j d').1))
    (hmeet : ∀ l l', List.Forall₂ le l l' → le (sv.meet () l) (sv.meet () l'))
    (hinit : ∀ j, j < sv.n → ∀ d, le sv.initD ((sv.flow () j d).1))
    (hginit : Good sv.initD)
    (hgflow : ∀ j, j < sv.n → ∀ d, Good d → Good ((sv.flow () j d).1))
    (hgmeet : ∀ l, (∀ d ∈ l, Good d) → Good (sv.meet () l))
    (hmu : ∀ a b, le a b → Good a → Good b → a ≠ b → μ b < μ a)
    (hpredb : ∀ m, m < sv.n → ∀ q ∈ sv.preds m, q < sv.n)
    (hsuccb : ∀ m, m < sv.n → ∀ q ∈ sv.succs m, q < sv.n)
    (hsuccnd : ∀ m, m < sv.n → (sv.succs m).Nodup) :
    ∃ fuel, (solverRun sv fuel (initState sv ())).wl = [] := by
  refine fwd_run_terminates sv le Good μ hfwd hrefl htrans hflow hmeet hginit hgflow
    hgmeet hmu hpredb hsuccb hsuccnd _ ⟨?_, ?_, ?_, ?_⟩
  · intro j _
    exact hginit
  · intro j hj
    exact hinit j hj _
  · exact List.nodup_range _
  · intro q hq
    exact List.mem_range.mp hq

/-! ### Duality: a backward analysis is the forward analysis of the
edge-reversed solver with `in` and `out` swapped. -/

def Solver.dual {D A : Type} (sv : Solver D A) : Solver D A :=
  { n := sv.n, preds := sv.succs, succs := sv.preds, forward := true
    initD := sv.initD, flow := sv.flow, meet := sv.meet }

def SState.swap {D A : Type} (st : SState D A) : SState D A :=
  { inS := st.outS, outS := st.inS, wl := st.wl, aux := st.aux }

theorem solverStep_dual {D A : Type} [DecidableEq D] (sv : Solver D A)
    (hbwd : sv.forward = false) (st : SState D A) :
    solverStep sv st = Option.map SState.swap (solverStep sv.dual st.swap) := by
  cases hwl : st.wl with
  | nil =>
      rw [solverStep, solverStep]
      have hwl2 : st.swap.wl = [] := hwl
      rw [hwl2] at *
      simp [hwl, hwl2]
  | cons node rest =>
      have hwl2 : st.swap.wl = node :: rest := hwl
      rw [solverStep, solverStep, hwl, hwl2]
      simp only [hbwd, if_false, Solver.dual, if_true, Option.map_some]
      rfl

theorem solverRun_dual {D A : Type} [DecidableEq D] (sv : Solver D A)
    (hbwd : sv.forward = false) :
    ∀ (fuel : Nat) (st : SState D A),
      solverRun sv fuel st = ((solverRun sv.dual fuel st.swap)).swap := by
  intro fuel
  induction fuel with
  | zero => intro st; rfl
  | succ fuel ih =>
      intro st
      rw [solverRun, solverRun, solverStep_dual sv hbwd st]
      cases hstep : solverStep sv.dual st.swap with
      | none =>
          simp only [Option.map_none]
          rfl
      | some st' =>
          show solverRun sv fuel st'.swap = (solverRun sv.dual fuel st').swap
          rw [ih st'.swap]
          rfl

/-! ### Generic finite-set lattice pieces shared by the union-meet
analyses (reaching definitions forward, live variables backward), whose
`initial_data` is the `{}` placeholder (`none`). -/

def optLe {α : Type} : Option (Finset α) → Option (Finset α) → Prop
  | none, _ => True
  | some _, none => False
  | some s, some t => s ⊆ t

def optGood {α : Type} (U : Finset α) : Option (Finset α) → Prop
  | none => True
  | some s => s ⊆ U

def optMu {α : Type} [DecidableEq α] (U : Finset α) : Option (Finset α) → Nat
  | none => U.card + 1
  | some s => U.card - s.card

theorem optLe_refl {α : Type} (d : Option (Finset α)) : optLe d d := by
  cases d with
  | none => trivial
  | some s => exact Finset.Subset.refl s

theorem optLe_trans {α : Type} (a b c : Option (Finset α))
    (h1 : optLe a b) (h2 : optLe b c) : optLe a c := by
  cases a with
  | none => trivial
  | some s =>
      cases b with
      | none => exact absurd h1 (by simp [optLe])
      | some t =>
          cases c with
          | none => exact absurd h2 (by simp [optLe])
          | some u => exact Finset.Subset.trans h1 h2

theorem optMu_strict {α : Type} [DecidableEq α] (U : Finset α) (a b : Option (Finset α))
    (hle : optLe a b) (hga : optGood U a) (hgb : optGood U b) (hne : a ≠ b) :
    optMu U b < optMu U a := by
  cases a with
  | none =>
      cases b with
      | none => exact absurd rfl hne
      | some t =>
          show U.card - t.card < U.card + 1
          omega
  | some s =>
      cases b with
      | none => exact absurd hle (by simp [optLe])
      | some t =>
          have hst : s ⊆ t := hle
          have hsne : s ≠ t := fun h => hne (h ▸ rfl)
          have hcard : s.card < t.card := Finset.card_lt_card (ssubset_of_subset_of_ne hst hsne)
          have htU : t.card ≤ U.card := Finset.card_le_card hgb
          show U.card - t.card < U.card - s.card
          omega

theorem optLe_getD {α : Type} (a b : Option (Finset α)) (h : optLe a b) :
    a.getD ∅ ⊆ b.getD ∅ := by
  cases a with
  | none => simp
  | some s =>
      cases b with
      | none => exact absurd h (by simp [optLe])
      | some t => exact h

def unionMeet {α : Type} [DecidableEq α] (sets : List (Option (Finset α))) : Finset α :=
  sets.foldl (fun acc d => acc ∪ d.getD ∅) ∅

theorem unionMeet_aux_mono {α : Type} [DecidableEq α] :
    ∀ (l l' : List (Option (Finset α))), List.Forall₂ optLe l l' →
      ∀ acc acc' : Finset α, acc ⊆ acc' →
        l.foldl (fun acc d => acc ∪ d.getD ∅) acc ⊆
          l'.foldl (fun acc d => acc ∪ d.getD ∅) acc' := by
  intro l l' h
  induction h with
  | nil => intro acc acc' hacc; exact hacc
  | cons hd tl ih =>
      intro acc acc' hacc
      exact ih _ _ (Finset.union_subset_union hacc (optLe_getD _ _ hd))

theorem unionMeet_mono {α : Type} [DecidableEq α] (l l' : List (Option (Finset α)))
    (h : List.Forall₂ optLe l l') : unionMeet l ⊆ unionMeet l' :=
  unionMeet_aux_mono l l' h ∅ ∅ (Finset.Subset.refl ∅)

theorem unionMeet_good {α : Type} [DecidableEq α] (U : Finset α) :
    ∀ (l : List (Option (Finset α))), (∀ d ∈ l, optGood U d) →
      ∀ acc : Finset α, acc ⊆ U →
        l.foldl (fun acc d => acc ∪ d.getD ∅) acc ⊆ U := by
  intro l
  induction l with
  | nil => intro _ acc hacc; exact hacc
  | cons d tl ih =>
      intro hg acc hacc
      refine ih (fun x hx => hg x (List.mem_cons_of_mem d hx)) _ ?_
      refine Finset.union_subset hacc ?_
      have := hg d (List.mem_cons_self d tl)
      cases d with
      | none => simp
      | some t => exact this

/-- Accumulated unions over a list: the accumulator is contained. -/
theorem foldl_union_acc_subset {α β : Type} [DecidableEq α] (X : β → Finset α) :
    ∀ (l : List β) (acc : Finset α), acc ⊆ l.foldl (fun a j => a ∪ X j) acc := by
  intro l
  induction l with
  | nil => intro acc; exact Finset.Subset.refl acc
  | cons j tl ih =>
      intro acc
      exact Finset.Subset.trans Finset.subset_union_left (ih (acc ∪ X j))

/-- Each summand is contained in the accumulated union. -/
theorem subset_foldl_union {α β : Type} [DecidableEq α] (X : β → Finset α) :
    ∀ (l : List β) (acc : Finset α) (j : β), j ∈ l →
      X j ⊆ l.foldl (fun a j => a ∪ X j) acc := by
  intro l
  induction l with
  | nil => intro acc j hj; exact absurd hj (by simp)
  | cons k tl ih =>
      intro acc j hj
      rcases List.mem_cons.mp hj with h | h
      · subst h
        exact Finset.Subset.trans Finset.subset_union_right (foldl_union_acc_subset X tl _)
      · exact ih _ j h

/-! ### Reaching definitions (forward, union meet). -/

/-- The `(variable_name, defining_instruction)` pairs generated by a
block, in instruction order. -/
def genDefs (block : List AInstr) : List (String × Nat) :=
  block.filterMap (fun ins => (truthyName ins.iname).map (fun nm => (nm, ins.iid)))

/-- `ReachingDefinitionsAnalysis.flow_function`: kill every incoming
pair whose variable is redefined in the block, then add the block's own
definitions. -/
def rdFlow (block : List AInstr) (d : Finset (String × Nat)) : Finset (String × Nat) :=
  (d.filter (fun p => ¬ p.1 ∈ killedNames block)) ∪ (genDefs block).toFinset

def rdSolver (n : Nat) (preds succs : Nat → List Nat) (blocks : Nat → List AInstr) :
    Solver (Option (Finset (String × Nat))) Unit :=
  { n := n, preds := preds, succs := succs, forward := true, initD := none
    flow := fun _ node d => (some (rdFlow (blocks node) (d.getD ∅)), ())
    meet := fun _ sets => some (unionMeet sets) }

def rdUniverse (n : Nat) (blocks : Nat → List AInstr) : Finset (String × Nat) :=
  (List.range n).foldl (fun acc j => acc ∪ (genDefs (blocks j)).toFinset) ∅

theorem rdFlow_mono (block : List AInstr) (d d' : Finset (String × Nat)) (h : d ⊆ d') :
    rdFlow block d ⊆ rdFlow block d' :=
  Finset.union_subset_union (Finset.filter_subset_filter _ h) (Finset.Subset.refl _)

theorem rdFlow_good (n : Nat) (blocks : Nat → List AInstr) (j : Nat) (hj : j < n)
    (d : Finset (String × Nat)) (hd : d ⊆ rdUniverse n blocks) :
    rdFlow (blocks j) d ⊆ rdUniverse n blocks := by
  refine Finset.union_subset (Finset.Subset.trans (Finset.filter_subset _ _) hd) ?_
  exact subset_foldl_union (fun j => (genDefs (blocks j)).toFinset) (List.range n) ∅ j
    (List.mem_range.mpr hj)

/-- Termination of `ReachingDefinitionsAnalysis.analyze` on any finite
CFG. -/
theorem rd_terminates (n : Nat) (preds succs : Nat → List Nat) (blocks : Nat → List AInstr)
    (hpredb : ∀ m, m < n → ∀ q ∈ preds m, q < n)
    (hsuccb : ∀ m, m < n → ∀ q ∈ succs m, q < n)
    (hsuccnd : ∀ m, m < n → (succs m).Nodup) :
    ∃ fuel, (solverRun (rdSolver n preds succs blocks) fuel
      (initState (rdSolver n preds succs blocks) ())).wl = [] := by
  refine fwd_terminates (rdSolver n preds succs blocks) optLe
    (optGood (rdUniverse n blocks)) (optMu (rdUniverse n blocks))
    rfl optLe_refl optLe_trans ?_ ?_ ?_ trivial ?_ ?_ (optMu_strict (rdUniverse n blocks)) hpredb hsuccb hsuccnd
  · intro j hj d d' _ _ hle
    show optLe (some (rdFlow (blocks j) (d.getD ∅))) (some (rdFlow (blocks j) (d'.getD ∅)))
    exact rdFlow_mono (blocks j) _ _ (optLe_getD d d' hle)
  · intro l l' h
    show optLe (some (unionMeet l)) (some (unionMeet l'))
    exact unionMeet_mono l l' h
  · intro j hj d
    trivial
  · intro j hj d hd
    show rdFlow (blocks j) (d.getD ∅) ⊆ rdUniverse n blocks
    refine rdFlow_good n blocks j hj _ ?_
    cases d with
    | none => simp
    | some t => exact hd
  · intro l hl
    show unionMeet l ⊆ rdUniverse n blocks
    exact unionMeet_good _ l hl ∅ (Finset.empty_subset _)

/-! ### Live variables (backward, union meet). -/

/-- `get_used_variables`: operand names of any value with a truthy
name. -/
def usedVars (ins : AInstr) : Finset String :=
  (ins.opnds.filterMap (fun v => truthyName (valueName v))).toFinset

/-- One instruction of `LiveVariableAnalysis.flow_function`, applied in
reverse block order: kill the defined name, then add the used names. -/
def lvStep (s : Finset String) (ins : AInstr) : Finset String :=
  (match truthyName ins.iname with
   | some nm => s.erase nm
   | none => s) ∪ usedVars ins

def lvFlow (block : List AInstr) (d : Finset String) : Finset String :=
  block.reverse.foldl lvStep d

def lvSolver (n : Nat) (preds succs : Nat → List Nat) (blocks : Nat → List AInstr) :
    Solver (Option (Finset String)) Unit :=
  { n := n, preds := preds, succs := succs, forward := false, initD := none
    flow := fun _ node d => (some (lvFlow (blocks node) (d.getD ∅)), ())
    meet := fun _ sets => some (unionMeet sets) }

def blockUsed (block : List AInstr) : Finset String :=
  block.foldl (fun a ins => a ∪ usedVars ins) ∅

def lvUniverse (n : Nat) (blocks : Nat → List AInstr) : Finset String :=
  (List.range n).foldl (fun acc j => acc ∪ blockUsed (blocks j)) ∅

theorem lvStep_mono (ins : AInstr) (s s' : Finset String) (h : s ⊆ s') :
    lvStep s ins ⊆ lvStep s' ins := by
  refine Finset.union_subset_union ?_ (Finset.Subset.refl _)
  cases truthyName ins.iname with
  | none => exact h
  | some nm => exact Finset.erase_subset_erase nm h

theorem lvFlow_aux_mono :
    ∀ (l : List AInstr) (s s' : Finset String), s ⊆ s' →
      l.foldl lvStep s ⊆ l.foldl lvStep s' := by
  intro l
  induction l with
  | nil => intro s s' h; exact h
  | cons ins tl ih =>
      intro s s' h
      exact ih _ _ (lvStep_mono ins s s' h)

theorem lvFlow_mono (block : List AInstr) (d d' : Finset String) (h : d ⊆ d') :
    lvFlow block d ⊆ lvFlow block d' :=
  lvFlow_aux_mono block.reverse d d' h

theorem lvStep_bound (ins : AInstr) (s : Finset String) :
    lvStep s ins ⊆ s ∪ usedVars ins := by
  refine Finset.union_subset ?_ Finset.subset_union_right
  cases truthyName ins.iname with
  | none => exact Finset.subset_union_left
  | some nm => exact Finset.Subset.trans (Finset.erase_subset _ _) Finset.subset_union_left

theorem lvFlow_aux_bound (U : Finset String) :
    ∀ (l : List AInstr), (∀ ins ∈ l, usedVars ins ⊆ U) →
      ∀ (s : Finset String), s ⊆ U → l.foldl lvStep s ⊆ U := by
  intro l
  induction l with
  | nil => intro _ s hs; exact hs
  | cons ins tl ih =>
      intro hins s hs
      refine ih (fun x hx => hins x (List.mem_cons_of_mem ins hx)) _ ?_
      refine Finset.Subset.trans (lvStep_bound ins s) ?_
      exact Finset.union_subset hs (hins ins (List.mem_cons_self ins tl))

theorem usedVars_subset_blockUsed (block : List AInstr) (ins : AInstr) (h : ins ∈ block) :
    usedVars ins ⊆ blockUsed block :=
  subset_foldl_union usedVars block ∅ ins h

theorem lv_terminates (n : Nat) (preds succs : Nat → List Nat) (blocks : Nat → List AInstr)
    (hpredb : ∀ m, m < n → ∀ q ∈ preds m, q < n)
    (hsuccb : ∀ m, m < n → ∀ q ∈ succs m, q < n)
    (hprednd : ∀ m, m < n → (preds m).Nodup) :
    ∃ fuel, (solverRun (lvSolver n preds succs blocks) fuel
      (initState (lvSolver n preds succs blocks) ())).wl = [] := by
  have hdual : ∃ fuel, (solverRun (lvSolver n preds succs blocks).dual fuel
      (initState (lvSolver n preds succs blocks).dual ())).wl = [] := by
    refine fwd_terminates ((lvSolver n preds succs blocks).dual) optLe
      (optGood (lvUniverse n blocks)) (optMu (lvUniverse n blocks))
      rfl optLe_refl optLe_trans ?_ ?_ ?_ trivial ?_ ?_ (optMu_strict (lvUniverse n blocks)) hsuccb hpredb hprednd
    · intro j hj d d' _ _ hle
      show optLe (some (lvFlow (blocks j) (d.getD ∅))) (some (lvFlow (blocks j) (d'.getD ∅)))
      exact lvFlow_mono (blocks j) _ _ (optLe_getD d d' hle)
    · intro l l' h
      show optLe (some (unionMeet l)) (some (unionMeet l'))
      exact unionMeet_mono l l' h
    · intro j hj d
      trivial
    · intro j hj d hd
      show lvFlow (blocks j) (d.getD ∅) ⊆ lvUniverse n blocks
      refine lvFlow_aux_bound _ (blocks j).reverse ?_ _ ?_
      · intro ins hins
        rw [List.mem_reverse] at hins
        refine Finset.Subset.trans (usedVars_subset_blockUsed (blocks j) ins hins) ?_
        exact subset_foldl_union (fun j => blockUsed (blocks j)) (List.range n) ∅ j
          (List.mem_range.mpr hj)
      · cases d with
        | none => simp
        | some t => exact hd
    · intro l hl
      show unionMeet l ⊆ lvUniverse n blocks
      exact unionMeet_good _ l hl ∅ (Finset.empty_subset _)
  obtain ⟨fuel, hfuel⟩ := hdual
  refine ⟨fuel, ?_⟩
  rw [solverRun_dual (lvSolver n preds succs blocks) rfl fuel]
  show (solverRun (lvSolver n preds succs blocks).dual fuel
    ((initState (lvSolver n preds succs blocks) ()).swap)).wl = []
  have hswap : (initState (lvSolver n preds succs blocks) ()).swap
      = initState (lvSolver n preds succs blocks).dual () := rfl
  rw [hswap]
  exact hfuel

/-! ### Constant propagation (forward, element-wise meet).

Python dicts mapping variable names to CONST/TOP are modelled as
association lists in canonical form: keys strictly ascending in the
order of a fixed master name list, so that Python dict equality (used by
the engine's change check) coincides with structural equality.  `true`
stands for CONST and `false` for TOP; an absent key reads as TOP. -/

abbrev CPDict := List (String × Bool)

def dget : CPDict → String → Option Bool
  | [], _ => none
  | (k2, v) :: rest, k => if k = k2 then some v else dget rest k

def dgetD (d : CPDict) (k : String) (dflt : Bool) : Bool :=
  (dget d k).getD dflt

/-- The master-order index of a key. -/
def kidx (master : List String) (k : String) : Nat :=
  master.indexOf k

/-- `d[k] = v`, keeping keys sorted by master order. -/
def dset (master : List String) : CPDict → String → Bool → CPDict
  | [], k, v => [(k, v)]
  | (k2, v2) :: rest, k, v =>
      if k = k2 then (k, v) :: rest
      else if kidx master k < kidx master k2 then (k, v) :: (k2, v2) :: rest
      else (k2, v2) :: dset master rest k v

/-- Canonical form: keys strictly ascending in master order, all keys
drawn from the master list. -/
def dcanon (master : List String) (d : CPDict) : Prop :=
  d.Pairwise (fun p q => kidx master p.1 < kidx master q.1) ∧ ∀ kv ∈ d, kv.1 ∈ master

theorem dget_dset_self (master : List String) :
    ∀ (d : CPDict) (k : String) (v : Bool), dget (dset master d k v) k = some v := by
  intro d
  induction d with
  | nil =>
      intro k v
      show (if k = k then some v else none) = some v
      rw [if_pos rfl]
  | cons kv2 rest ih =>
      intro k v
      obtain ⟨k2, v2⟩ := kv2
      show dget (if k = k2 then (k, v) :: rest
        else if kidx master k < kidx master k2 then (k, v) :: (k2, v2) :: rest
        else (k2, v2) :: dset master rest k v) k = some v
      by_cases h1 : k = k2
      · rw [if_pos h1]
        show (if k = k then some v else _) = some v
        rw [if_pos rfl]
      · rw [if_neg h1]
        by_cases h2 : kidx master k < kidx master k2
        · rw [if_pos h2]
          show (if k = k then some v else _) = some v
          rw [if_pos rfl]
        · rw [if_neg h2]
          show (if k = k2 then some v2 else dget (dset master rest k v) k) = some v
          rw [if_neg h1]
          exact ih k v

theorem dget_dset_other (master : List String) :
    ∀ (d : CPDict) (k k2 : String) (v : Bool), k2 ≠ k →
      dget (dset master d k v) k2 = dget d k2 := by
  intro d
  induction d with
  | nil =>
      intro k k2 v hne
      show (if k2 = k then some v else none) = none
      rw [if_neg hne]
  | cons kv3 rest ih =>
      intro k k2 v hne
      obtain ⟨k3, v3⟩ := kv3
      show dget (if k = k3 then (k, v) :: rest
        else if kidx master k < kidx master k3 then (k, v) :: (k3, v3) :: rest
        else (k3, v3) :: dset master rest k v) k2 = dget ((k3, v3) :: rest) k2
      by_cases h1 : k = k3
      · rw [if_pos h1]
        show (if k2 = k then some v else dget rest k2)
          = (if k2 = k3 then some v3 else dget rest k2)
        rw [if_neg hne, if_neg (h1 ▸ hne)]
      · rw [if_neg h1]
        by_cases h2 : kidx master k < kidx master k3
        · rw [if_pos h2]
          show (if k2 = k then some v else dget ((k3, v3) :: rest) k2) = _
          rw [if_neg hne]
        · rw [if_neg h2]
          show (if k2 = k3 then some v3 else dget (dset master rest k v) k2)
            = (if k2 = k3 then some v3 else dget rest k2)
          by_cases h3 : k2 = k3
          · rw [if_pos h3, if_pos h3]
          · rw [if_neg h3, if_neg h3]
            exact ih k k2 v hne

theorem mem_dset (master : List String) :
    ∀ (d : CPDict) (k : String) (v : Bool) (q : String × Bool),
      q ∈ dset master d k v → q.1 = k ∨ q ∈ d := by
  intro d
  induction d with
  | nil =>
      intro k v q hq
      rcases List.mem_singleton.mp hq with h
      exact Or.inl (by rw [h])
  | cons kv2 rest ih =>
      intro k v q hq
      obtain ⟨k2, v2⟩ := kv2
      by_cases h1 : k = k2
      · rw [show dset master ((k2, v2) :: rest) k v = (k, v) :: rest from by
          show (if k = k2 then _ else _) = _
          rw [if_pos h1]] at hq
        rcases List.mem_cons.mp hq with h | h
        · exact Or.inl (by rw [h])
        · exact Or.inr (List.mem_cons_of_mem _ h)
      · by_cases h2 : kidx master k < kidx master k2
        · rw [show dset master ((k2, v2) :: rest) k v = (k, v) :: (k2, v2) :: rest from by
            show (if k = k2 then _ else _) = _
            rw [if_neg h1, if_pos h2]] at hq
          rcases List.mem_cons.mp hq with h | h
          · exact Or.inl (by rw [h])
          · exact Or.inr h
        · rw [show dset master ((k2, v2) :: rest) k v = (k2, v2) :: dset master rest k v from by
            show (if k = k2 then _ else _) = _
            rw [if_neg h1, if_neg h2]] at hq
          rcases List.mem_cons.mp hq with h | h
          · exact Or.inr (h ▸ List.mem_cons_self _ _)
          · rcases ih k v q h with h3 | h3
            · exact Or.inl h3
            · exact Or.inr (List.mem_cons_of_mem _ h3)

theorem kidx_lt_of_ne (master : List String) (k k2 : String)
    (hk : k ∈ master) (hk2 : k2 ∈ master) (hne : k ≠ k2)
    (hnlt : ¬ kidx master k < kidx master k2) : kidx master k2 < kidx master k := by
  have hinj : kidx master k ≠ kidx master k2 := by
    intro h
    exact hne ((List.indexOf_inj hk hk2).mp h)
  omega

theorem dset_pairwise (master : List String) (k : String) (hk : k ∈ master) (v : Bool) :
    ∀ d : CPDict, d.Pairwise (fun p q => kidx master p.1 < kidx master q.1) →
      (∀ kv ∈ d, kv.1 ∈ master) →
      (dset master d k v).Pairwise (fun p q => kidx master p.1 < kidx master q.1) := by
  intro d
  induction d with
  | nil =>
      intro _ _
      exact List.pairwise_singleton _ _
  | cons kv2 rest ih =>
      intro hpw hmem
      obtain ⟨k2, v2⟩ := kv2
      rw [List.pairwise_cons] at hpw
      by_cases h1 : k = k2
      · rw [show dset master ((k2, v2) :: rest) k v = (k, v) :: rest from by
          show (if k = k2 then _ else _) = _
          rw [if_pos h1]]
        rw [List.pairwise_cons]
        exact ⟨fun q hq => h1 ▸ hpw.1 q hq, hpw.2⟩
      · by_cases h2 : kidx master k < kidx master k2
        · rw [show dset master ((k2, v2) :: rest) k v = (k, v) :: (k2, v2) :: rest from by
            show (if k = k2 then _ else _) = _
            rw [if_neg h1, if_pos h2]]
          rw [List.pairwise_cons]
          refine ⟨?_, List.pairwise_cons.mpr hpw⟩
          intro q hq
          rcases List.mem_cons.mp hq with h | h
          · rw [h]
            exact h2
          · exact Nat.lt_trans h2 (hpw.1 q h)
        · rw [show dset master ((k2, v2) :: rest) k v = (k2, v2) :: dset master rest k v from by
            show (if k = k2 then _ else _) = _
            rw [if_neg h1, if_neg h2]]
          rw [List.pairwise_cons]
          have hk2m : k2 ∈ master := hmem (k2, v2) (List.mem_cons_self _ _)
          refine ⟨?_, ih hpw.2 (fun kv hkv => hmem kv (List.mem_cons_of_mem _ hkv))⟩
          intro q hq
          rcases mem_dset master rest k v q hq with h | h
          · rw [h]
            exact kidx_lt_of_ne master k k2 hk hk2m h1 h2
          · exact hpw.1 q h

theorem dcanon_dset (master : List String) (d : CPDict) (k : String) (v : Bool)
    (hd : dcanon master d) (hk : k ∈ master) : dcanon master (dset master d k v) := by
  obtain ⟨hpw, hmem⟩ := hd
  refine ⟨dset_pairwise master k hk v d hpw hmem, ?_⟩
  intro q hq
  rcases mem_dset master d k v q hq with h | h
  · exact h ▸ hk
  · exact hmem q h

theorem dget_some_mem : ∀ (d : CPDict) (k : String) (v : Bool),
    dget d k = some v → (k, v) ∈ d := by
  intro d
  induction d with
  | nil => intro k v h; exact absurd h (by simp [dget])
  | cons kv2 rest ih =>
      intro k v h
      obtain ⟨k2, v2⟩ := kv2
      by_cases h1 : k = k2
      · rw [show dget ((k2, v2) :: rest) k = some v2 from by
          show (if k = k2 then some v2 else _) = _
          rw [if_pos h1]] at h
        injection h with h
        rw [h1, h]
        exact List.mem_cons_self _ _
      · rw [show dget ((k2, v2) :: rest) k = dget rest k from by
          show (if k = k2 then some v2 else _) = _
          rw [if_neg h1]] at h
        exact List.mem_cons_of_mem _ (ih k v h)

theorem dget_head_not_in_tail (master : List String) (k1 : String) (v1 : Bool)
    (t1 : CPDict)
    (hpw : ((k1, v1) :: t1).Pairwise (fun p q => kidx master p.1 < kidx master q.1)) :
    dget t1 k1 = none := by
  cases hg : dget t1 k1 with
  | none => rfl
  | some v =>
      exfalso
      have hmem := dget_some_mem t1 k1 v hg
      rw [List.pairwise_cons] at hpw
      have h2 : kidx master k1 < kidx master k1 := hpw.1 (k1, v) hmem
      omega

theorem dget_cons_ne (k2 : String) (v2 : Bool) (rest : CPDict) (k : String) (h : k ≠ k2) :
    dget ((k2, v2) :: rest) k = dget rest k := by
  show (if k = k2 then some v2 else _) = _
  rw [if_neg h]

theorem dget_cons_self (k2 : String) (v2 : Bool) (rest : CPDict) :
    dget ((k2, v2) :: rest) k2 = some v2 := by
  show (if k2 = k2 then some v2 else _) = _
  rw [if_pos rfl]

/-- Canonical dicts with equal lookups are equal (the formal content of
"Python dict equality is extensional"). -/
theorem dict_ext (master : List String) :
    ∀ (d1 d2 : CPDict), dcanon master d1 → dcanon master d2 →
      (∀ k, dget d1 k = dget d2 k) → d1 = d2 := by
  intro d1
  induction d1 with
  | nil =>
      intro d2 _ _ hlook
      cases d2 with
      | nil => rfl
      | cons kv2 t2 =>
          obtain ⟨k2, v2⟩ := kv2
          have h2 : dget ((k2, v2) :: t2) k2 = some v2 := dget_cons_self _ _ _
          have h1 : dget ([] : CPDict) k2 = none := rfl
          rw [← hlook k2] at h2
          rw [h1] at h2
          exact absurd h2 (by simp)
  | cons kv1 t1 ih =>
      intro d2 hc1 hc2 hlook
      obtain ⟨k1, v1⟩ := kv1
      cases d2 with
      | nil =>
          have h1 : dget ((k1, v1) :: t1) k1 = some v1 := dget_cons_self _ _ _
          rw [hlook k1] at h1
          exact absurd h1 (by simp [dget])
      | cons kv2 t2 =>
          obtain ⟨k2, v2⟩ := kv2
          have hk1mem : (k1, v1) ∈ (k2, v2) :: t2 := by
            refine dget_some_mem _ _ _ ?_
            rw [← hlook k1]
            exact dget_cons_self _ _ _
          have hk2mem : (k2, v2) ∈ (k1, v1) :: t1 := by
            refine dget_some_mem _ _ _ ?_
            rw [hlook k2]
            exact dget_cons_self _ _ _
          have hkeq : k1 = k2 := by
            by_contra hne
            rcases List.mem_cons.mp hk1mem with h | h
            · exact hne (congrArg Prod.fst h)
            · rcases List.mem_cons.mp hk2mem with h2 | h2
              · exact hne (congrArg Prod.fst h2).symm
              · have ha := (List.pairwise_cons.mp hc2.1).1 (k1, v1) h
                have hb := (List.pairwise_cons.mp hc1.1).1 (k2, v2) h2
                omega
          have hveq : v1 = v2 := by
            have := hlook k1
            rw [dget_cons_self, hkeq, dget_cons_self] at this
            injection this
          subst hkeq
          subst hveq
          have ht : t1 = t2 := by
            refine ih t2 ⟨(List.pairwise_cons.mp hc1.1).2,
              fun kv hkv => hc1.2 kv (List.mem_cons_of_mem _ hkv)⟩
              ⟨(List.pairwise_cons.mp hc2.1).2,
              fun kv hkv => hc2.2 kv (List.mem_cons_of_mem _ hkv)⟩ ?_
            intro k
            by_cases hk : k = k1
            · rw [hk, dget_head_not_in_tail master k1 v1 t1 hc1.1,
                dget_head_not_in_tail master k1 v1 t2 hc2.1]
            · have := hlook k
              rw [dget_cons_ne _ _ _ _ hk, dget_cons_ne _ _ _ _ hk] at this
              exact this
          rw [ht]

/-- Writing a value a sorted dict already holds is the identity. -/
theorem dset_self_of_lookup (master : List String) :
    ∀ (d : CPDict) (k : String) (v : Bool),
      d.Pairwise (fun p q => kidx master p.1 < kidx master q.1) →
      dget d k = some v → dset master d k v = d := by
  intro d
  induction d with
  | nil => intro k v _ h; exact absurd h (by simp [dget])
  | cons kv2 rest ih =>
      intro k v hpw h
      obtain ⟨k2, v2⟩ := kv2
      by_cases h1 : k = k2
      · have : v = v2 := by
          rw [h1, dget_cons_self] at h
          injection h with h
          exact h.symm
        show (if k = k2 then (k, v) :: rest else _) = _
        rw [if_pos h1, h1, this]
      · rw [dget_cons_ne _ _ _ _ h1] at h
        have hmem := dget_some_mem rest k v h
        have hlt : kidx master k2 < kidx master k := (List.pairwise_cons.mp hpw).1 (k, v) hmem
        show (if k = k2 then _ else if kidx master k < kidx master k2 then _
          else (k2, v2) :: dset master rest k v) = _
        rw [if_neg h1, if_neg (by omega),
          ih k v (List.pairwise_cons.mp hpw).2 h]

def pointRank (d : CPDict) (k : String) : Nat :=
  match dget d k with
  | none => 2
  | some false => 1
  | some true => 0

theorem dget_eq_of_rank_eq (d d' : CPDict) (k : String)
    (h : pointRank d k = pointRank d' k) : dget d k = dget d' k := by
  rw [pointRank, pointRank] at h
  cases hg : dget d k with
  | none =>
      rw [hg] at h
      cases hg' : dget d' k with
      | none => rfl
      | some b =>
          rw [hg'] at h
          cases b <;> simp at h
  | some b =>
      rw [hg] at h
      cases hg' : dget d' k with
      | none =>
          rw [hg'] at h
          cases b <;> simp at h
      | some b2 =>
          rw [hg'] at h
          cases b <;> cases b2 <;> simp at h ⊢
  
theorem pointRank_dset_self (master : List String) (d : CPDict) (k : String) (v : Bool) :
    pointRank (dset master d k v) k = (if v then 0 else 1) := by
  rw [pointRank, dget_dset_self]
  cases v <;> rfl

theorem pointRank_dset_other (master : List String) (d : CPDict) (k k2 : String) (v : Bool)
    (h : k2 ≠ k) : pointRank (dset master d k v) k2 = pointRank d k2 := by
  rw [pointRank, dget_dset_other master d k k2 v h, pointRank]

theorem dget_none_of_keys_subset (master : List String) (d : CPDict) (k : String)
    (hd : ∀ kv ∈ d, kv.1 ∈ master) (hk : k ∉ master) : dget d k = none := by
  cases hg : dget d k with
  | none => rfl
  | some v => exact absurd (hd (k, v) (dget_some_mem d k v hg)) (by intro h; exact hk h)

/-- The constant-propagation order: a step from `a` to `b` may only
lower each variable's rank (absent/TOP ≥ TOP ≥ CONST). -/
def cpLe (a b : CPDict) : Prop :=
  ∀ k, pointRank b k ≤ pointRank a k

def cpMu (U : Finset String) (d : CPDict) : Nat :=
  ∑ k in U, pointRank d k

theorem cpMu_strict (master : List String) (a b : CPDict)
    (hle : cpLe a b) (hga : dcanon master a) (hgb : dcanon master b) (hne : a ≠ b) :
    cpMu master.toFinset b < cpMu master.toFinset a := by
  by_cases hall : ∀ k ∈ master.toFinset, pointRank b k = pointRank a k
  · exfalso
    refine hne (dict_ext master a b hga hgb ?_)
    intro k
    by_cases hk : k ∈ master
    · exact (dget_eq_of_rank_eq b a k (hall k (List.mem_toFinset.mpr hk))).symm
    · rw [dget_none_of_keys_subset master a k hga.2 hk,
        dget_none_of_keys_subset master b k hgb.2 hk]
  · push_neg at hall
    obtain ⟨k0, hk0, hkne⟩ := hall
    refine Finset.sum_lt_sum (fun k _ => hle k) ⟨k0, hk0, ?_⟩
    have := hle k0
    omega

def cpStatusOf (din dout : CPDict) (onm : String) : Bool :=
  match dget dout onm with
  | some v => v
  | none =>
      match dget din onm with
      | some v => v
      | none => false

def cpOperandConst (din dout : CPDict) (op : IRValue) : Bool :=
  match op with
  | .constant _ _ => true
  | .instr onm =>
      match truthyName onm with
      | some onm2 => cpStatusOf din dout onm2
      | none => false
  | .plain _ => false

/-- One named instruction of `ConstantPropagationAnalysis.flow_function`:
a single `Constant` operand makes the name CONST; a single named
instruction operand copies that name's current status (evolving out
first, else the block input, else TOP); with several operands the name
is CONST iff every operand is constant; with none it is TOP.  A single
operand of any other shape writes nothing. -/
def cpInstr (master : List String) (din : CPDict) (dout : CPDict) (ins : AInstr) : CPDict :=
  match truthyName ins.iname with
  | none => dout
  | some nm =>
      match ins.opnds with
      | [op] =>
          match op with
          | .constant _ _ => dset master dout nm true
          | .instr onm =>
              match truthyName onm with
              | some onm2 => dset master dout nm (cpStatusOf din dout onm2)
              | none => dout
          | .plain _ => dout
      | [] => dset master dout nm false
      | _ :: _ :: _ => dset master dout nm (ins.opnds.all (cpOperandConst din dout))

/-- The final loop of the flow function: re-copy input values of
variables the block does not define. -/
def cpPreserve (master : List String) (defined : Finset String) (din dout : CPDict) : CPDict :=
  din.foldl (fun acc kv => if kv.1 ∈ defined then acc else dset master acc kv.1 kv.2) dout

def cpFlow (master : List String) (block : List AInstr) (din : CPDict) : CPDict :=
  cpPreserve master (killedNames block) din
    (block.foldl (fun acc ins => cpInstr master din acc ins) din)

def insertKey (master : List String) (k : String) : List String → List String
  | [] => [k]
  | k2 :: rest =>
      if k = k2 then k2 :: rest
      else if kidx master k < kidx master k2 then k :: k2 :: rest
      else k2 :: insertKey master k rest

def keysUnion (master : List String) (sets : List CPDict) : List String :=
  sets.foldl (fun acc d => d.foldl (fun acc2 kv => insertKey master kv.1 acc2) acc) []

/-- `ConstantPropagationAnalysis.meet_operator`: over the union of all
keys, keep the common value when every input agrees (reading absent
keys as TOP), else TOP. -/
def cpMeet (master : List String) (sets : List CPDict) : CPDict :=
  match sets with
  | [] => []
  | s0 :: _ =>
      (keysUnion master sets).map (fun k =>
        (k, if sets.all (fun s => dgetD s k false == dgetD s0 k false)
          then dgetD s0 k false else false))

theorem mem_insertKey (master : List String) :
    ∀ (l : List String) (k q : String), q ∈ insertKey master k l → q = k ∨ q ∈ l := by
  intro l
  induction l with
  | nil =>
      intro k q hq
      exact Or.inl (List.mem_singleton.mp hq)
  | cons k2 rest ih =>
      intro k q hq
      by_cases h1 : k = k2
      · rw [show insertKey master k (k2 :: rest) = k2 :: rest from by
          show (if k = k2 then _ else _) = _
          rw [if_pos h1]] at hq
        exact Or.inr hq
      · by_cases h2 : kidx master k < kidx master k2
        · rw [show insertKey master k (k2 :: rest) = k :: k2 :: rest from by
            show (if k = k2 then _ else _) = _
            rw [if_neg h1, if_pos h2]] at hq
          rcases List.mem_cons.mp hq with h | h
          · exact Or.inl h
          · exact Or.inr h
        · rw [show insertKey master k (k2 :: rest) = k2 :: insertKey master k rest from by
            show (if k = k2 then _ else _) = _
            rw [if_neg h1, if_neg h2]] at hq
          rcases List.mem_cons.mp hq with h | h
          · exact Or.inr (h ▸ List.mem_cons_self _ _)
          · rcases ih k q h with h3 | h3
            · exact Or.inl h3
            · exact Or.inr (List.mem_cons_of_mem _ h3)

theorem self_mem_insertKey (master : List String) :
    ∀ (l : List String) (k : String), k ∈ insertKey master k l := by
  intro l
  induction l with
  | nil => intro k; exact List.mem_singleton.mpr rfl
  | cons k2 rest ih =>
      intro k
      by_cases h1 : k = k2
      · rw [show insertKey master k (k2 :: rest) = k2 :: rest from by
          show (if k = k2 then _ else _) = _
          rw [if_pos h1]]
        exact h1 ▸ List.mem_cons_self _ _
      · by_cases h2 : kidx master k < kidx master k2
        · rw [show insertKey master k (k2 :: rest) = k :: k2 :: rest from by
            show (if k = k2 then _ else _) = _
            rw [if_neg h1, if_pos h2]]
          exact List.mem_cons_self _ _
        · rw [show insertKey master k (k2 :: rest) = k2 :: insertKey master k rest from by
            show (if k = k2 then _ else _) = _
            rw [if_neg h1, if_neg h2]]
          exact List.mem_cons_of_mem _ (ih k)

theorem mem_insertKey_of_mem (master : List String) :
    ∀ (l : List String) (k q : String), q ∈ l → q ∈ insertKey master k l := by
  intro l
  induction l with
  | nil => intro k q hq; exact absurd hq (by simp)
  | cons k2 rest ih =>
      intro k q hq
      by_cases h1 : k = k2
      · rw [show insertKey master k (k2 :: rest) = k2 :: rest from by
          show (if k = k2 then _ else _) = _
          rw [if_pos h1]]
        exact hq
      · by_cases h2 : kidx master k < kidx master k2
        · rw [show insertKey master k (k2 :: rest) = k :: k2 :: rest from by
            show (if k = k2 then _ else _) = _
            rw [if_neg h1, if_pos h2]]
          exact List.mem_cons_of_mem _ hq
        · rw [show insertKey master k (k2 :: rest) = k2 :: insertKey master k rest from by
            show (if k = k2 then _ else _) = _
            rw [if_neg h1, if_neg h2]]
          rcases List.mem_cons.mp hq with h | h
          · exact h ▸ List.mem_cons_self _ _
          · exact List.mem_cons_of_mem _ (ih k q h)

/-- Canonical key lists. -/
def klCanon (master : List String) (l : List String) : Prop :=
  l.Pairwise (fun a b => kidx master a < kidx master b) ∧ ∀ k ∈ l, k ∈ master

theorem klCanon_insertKey (master : List String) (k : String) (hk : k ∈ master) :
    ∀ (l : List String), klCanon master l → klCanon master (insertKey master k l) := by
  intro l
  induction l with
  | nil =>
      intro _
      exact ⟨List.pairwise_singleton _ _, fun q hq => (List.mem_singleton.mp hq) ▸ hk⟩
  | cons k2 rest ih =>
      intro hc
      obtain ⟨hpw, hmem⟩ := hc
      rw [List.pairwise_cons] at hpw
      by_cases h1 : k = k2
      · rw [show insertKey master k (k2 :: rest) = k2 :: rest from by
          show (if k = k2 then _ else _) = _
          rw [if_pos h1]]
        exact ⟨List.pairwise_cons.mpr hpw, hmem⟩
      · by_cases h2 : kidx master k < kidx master k2
        · rw [show insertKey master k (k2 :: rest) = k :: k2 :: rest from by
            show (if k = k2 then _ else _) = _
            rw [if_neg h1, if_pos h2]]
          refine ⟨List.pairwise_cons.mpr ⟨?_, List.pairwise_cons.mpr hpw⟩, ?_⟩
          · intro q hq
            rcases List.mem_cons.mp hq with h | h
            · rw [h]; exact h2
            · exact Nat.lt_trans h2 (hpw.1 q h)
          · intro q hq
            rcases List.mem_cons.mp hq with h | h
            · exact h ▸ hk
            · exact hmem q h
        · rw [show insertKey master k (k2 :: rest) = k2 :: insertKey master k rest from by
            show (if k = k2 then _ else _) = _
            rw [if_neg h1, if_neg h2]]
          have hk2m : k2 ∈ master := hmem k2 (List.mem_cons_self _ _)
          obtain ⟨ihp, ihm⟩ := ih ⟨hpw.2, fun q hq => hmem q (List.mem_cons_of_mem _ hq)⟩
          refine ⟨List.pairwise_cons.mpr ⟨?_, ihp⟩, ?_⟩
          · intro q hq
            rcases mem_insertKey master rest k q hq with h | h
            · rw [h]
              exact kidx_lt_of_ne master k k2 hk hk2m h1 h2
            · exact hpw.1 q h
          · intro q hq
            rcases List.mem_cons.mp hq with h | h
            · exact h ▸ hk2m
            · exact ihm q h

theorem keysUnion_canon (master : List String) (sets : List CPDict)
    (hsets : ∀ d ∈ sets, ∀ kv ∈ d, kv.1 ∈ master) :
    klCanon master (keysUnion master sets) := by
  rw [keysUnion]
  have haux : ∀ (l : List CPDict), (∀ d ∈ l, ∀ kv ∈ d, kv.1 ∈ master) →
      ∀ acc, klCanon master acc →
      klCanon master (l.foldl (fun acc d => d.foldl
        (fun acc2 kv => insertKey master kv.1 acc2) acc) acc) := by
    intro l
    induction l with
    | nil => intro _ acc hacc; exact hacc
    | cons d tl ih =>
        intro hmem acc hacc
        refine ih (fun x hx => hmem x (List.mem_cons_of_mem _ hx)) _ ?_
        have hone : ∀ (d2 : CPDict), (∀ kv ∈ d2, kv.1 ∈ master) →
            ∀ acc2, klCanon master acc2 →
            klCanon master (d2.foldl (fun acc2 kv => insertKey master kv.1 acc2) acc2) := by
          intro d2
          induction d2 with
          | nil => intro _ acc2 hacc2; exact hacc2
          | cons kv tl2 ih2 =>
              intro hm2 acc2 hacc2
              refine ih2 (fun x hx => hm2 x (List.mem_cons_of_mem _ hx)) _ ?_
              exact klCanon_insertKey master kv.1 (hm2 kv (List.mem_cons_self _ _)) acc2 hacc2
        exact hone d (hmem d (List.mem_cons_self _ _)) acc hacc
  exact haux sets hsets [] ⟨List.Pairwise.nil, fun k hk => absurd hk (by simp)⟩

theorem mem_keysUnion_of_mem (master : List String) (sets : List CPDict)
    (d : CPDict) (hd : d ∈ sets) (k : String) (v : Bool) (hkv : (k, v) ∈ d) :
    k ∈ keysUnion master sets := by
  rw [keysUnion]
  have hgrow : ∀ (d2 : CPDict) (acc : List String) (q : String), q ∈ acc →
      q ∈ d2.foldl (fun acc2 kv => insertKey master kv.1 acc2) acc := by
    intro d2
    induction d2 with
    | nil => intro acc q hq; exact hq
    | cons kv2 tl ih =>
        intro acc q hq
        exact ih _ q (mem_insertKey_of_mem master acc kv2.1 q hq)
  have hin : ∀ (d2 : CPDict) (acc : List String), (k, v) ∈ d2 →
      k ∈ d2.foldl (fun acc2 kv => insertKey master kv.1 acc2) acc := by
    intro d2
    induction d2 with
    | nil => intro acc h; exact absurd h (by simp)
    | cons kv2 tl ih =>
        intro acc h
        rcases List.mem_cons.mp h with h2 | h2
        · refine hgrow tl _ k ?_
          show k ∈ insertKey master kv2.1 acc
          have hfst : kv2.1 = k := by rw [← h2]
          rw [hfst]
          exact self_mem_insertKey master acc k
        · exact ih _ h2
  have haux : ∀ (l : List CPDict) (acc : List String), d ∈ l →
      k ∈ l.foldl (fun acc d => d.foldl (fun acc2 kv => insertKey master kv.1 acc2) acc) acc := by
    intro l
    induction l with
    | nil => intro acc h; exact absurd h (by simp)
    | cons d2 tl ih =>
        intro acc h
        rcases List.mem_cons.mp h with h2 | h2
        · subst h2
          have hgrow2 : ∀ (l2 : List CPDict) (acc2 : List String), k ∈ acc2 →
              k ∈ l2.foldl (fun acc d => d.foldl
                (fun acc2 kv => insertKey master kv.1 acc2) acc) acc2 := by
            intro l2
            induction l2 with
            | nil => intro acc2 hq; exact hq
            | cons d3 tl3 ih3 =>
                intro acc2 hq
                exact ih3 _ (hgrow d3 acc2 k hq)
          exact hgrow2 tl _ (hin d acc hkv)
        · exact ih _ h2
  exact haux sets [] hd

theorem mem_keysUnion_src (master : List String) (sets : List CPDict) (k : String)
    (hk : k ∈ keysUnion master sets) : ∃ d ∈ sets, ∃ v, (k, v) ∈ d := by
  rw [keysUnion] at hk
  have hone : ∀ (d : CPDict) (acc : List String) (q : String),
      q ∈ d.foldl (fun acc2 kv => insertKey master kv.1 acc2) acc →
      q ∈ acc ∨ ∃ v, (q, v) ∈ d := by
    intro d
    induction d with
    | nil => intro acc q hq; exact Or.inl hq
    | cons kv tl ih =>
        intro acc q hq
        rcases ih _ q hq with h | h
        · rcases mem_insertKey master acc kv.1 q h with h2 | h2
          · refine Or.inr ⟨kv.2, ?_⟩
            rw [h2]
            exact List.mem_cons_self _ _
          · exact Or.inl h2
        · obtain ⟨v, hv⟩ := h
          exact Or.inr ⟨v, List.mem_cons_of_mem _ hv⟩
  have haux : ∀ (l : List CPDict) (acc : List String) (q : String),
      q ∈ l.foldl (fun acc d => d.foldl (fun acc2 kv => insertKey master kv.1 acc2) acc) acc →
      q ∈ acc ∨ ∃ d ∈ l, ∃ v, (q, v) ∈ d := by
    intro l
    induction l with
    | nil => intro acc q hq; exact Or.inl hq
    | cons d tl ih =>
        intro acc q hq
        rcases ih _ q hq with h | h
        · rcases hone d acc q h with h2 | h2
          · exact Or.inl h2
          · obtain ⟨v, hv⟩ := h2
            exact Or.inr ⟨d, List.mem_cons_self _ _, v, hv⟩
        · obtain ⟨d2, hd2, v, hv⟩ := h
          exact Or.inr ⟨d2, List.mem_cons_of_mem _ hd2, v, hv⟩
  rcases haux sets [] k hk with h | h
  · exact absurd h (by simp)
  · exact h

theorem dget_map_keys (f : String → Bool) :
    ∀ (l : List String) (k : String),
      dget (l.map (fun k2 => (k2, f k2))) k = if k ∈ l then some (f k) else none := by
  intro l
  induction l with
  | nil =>
      intro k
      rw [if_neg (by simp)]
      rfl
  | cons k2 rest ih =>
      intro k
      by_cases h1 : k = k2
      · rw [List.map_cons, show dget ((k2, f k2) :: rest.map (fun k2 => (k2, f k2))) k
            = some (f k2) from by
          show (if k = k2 then _ else _) = _
          rw [if_pos h1], if_pos (h1 ▸ List.mem_cons_self k2 rest), h1]
      · rw [List.map_cons, show dget ((k2, f k2) :: rest.map (fun k2 => (k2, f k2))) k
            = dget (rest.map (fun k2 => (k2, f k2))) k from by
          show (if k = k2 then _ else _) = _
          rw [if_neg h1], ih k]
        by_cases h2 : k ∈ rest
        · rw [if_pos h2, if_pos (List.mem_cons_of_mem _ h2)]
        · rw [if_neg h2, if_neg (by
            intro h3
            rcases List.mem_cons.mp h3 with h4 | h4
            · exact h1 h4
            · exact h2 h4)]

theorem exists_dget_of_mem : ∀ (d : CPDict) (k : String) (v : Bool),
    (k, v) ∈ d → ∃ v2, dget d k = some v2 := by
  intro d
  induction d with
  | nil => intro k v h; exact absurd h (by simp)
  | cons kv2 rest ih =>
      intro k v h
      obtain ⟨k2, v2⟩ := kv2
      by_cases h1 : k = k2
      · exact ⟨v2, by rw [h1, dget_cons_self]⟩
      · rcases List.mem_cons.mp h with h2 | h2
        · exact absurd (congrArg Prod.fst h2) h1
        · obtain ⟨v3, hv3⟩ := ih k v h2
          exact ⟨v3, by rw [dget_cons_ne _ _ _ _ h1]; exact hv3⟩

theorem pointRank_none (d : CPDict) (k : String) (h : dget d k = none) :
    pointRank d k = 2 := by
  rw [pointRank, h]

theorem pointRank_some (d : CPDict) (k : String) (b : Bool) (h : dget d k = some b) :
    pointRank d k = if b then 0 else 1 := by
  rw [pointRank, h]
  cases b <;> rfl

theorem pointRank_le_two (d : CPDict) (k : String) : pointRank d k ≤ 2 := by
  cases hg : dget d k with
  | none => rw [pointRank_none d k hg]
  | some b =>
      rw [pointRank_some d k b hg]
      cases b <;> simp

theorem pointRank_eq_zero_iff (d : CPDict) (k : String) :
    pointRank d k = 0 ↔ dget d k = some true := by
  cases hg : dget d k with
  | none =>
      rw [pointRank_none d k hg]
      simp
  | some b =>
      rw [pointRank_some d k b hg]
      cases b <;> simp

theorem dgetD_true_iff (d : CPDict) (k : String) :
    dgetD d k false = true ↔ dget d k = some true := by
  rw [dgetD]
  cases dget d k with
  | none => simp
  | some b => cases b <;> simp

theorem forall₂_mem_left {α : Type} {R : α → α → Prop} :
    ∀ {l l' : List α}, List.Forall₂ R l l' → ∀ x ∈ l, ∃ y ∈ l', R x y := by
  intro l l' h
  induction h with
  | nil => intro x hx; exact absurd hx (by simp)
  | cons hd tl ih =>
      intro x hx
      rcases List.mem_cons.mp hx with h2 | h2
      · exact ⟨_, List.mem_cons_self _ _, h2 ▸ hd⟩
      · obtain ⟨y, hy, hr⟩ := ih x h2
        exact ⟨y, List.mem_cons_of_mem _ hy, hr⟩

theorem forall₂_mem_right {α : Type} {R : α → α → Prop} :
    ∀ {l l' : List α}, List.Forall₂ R l l' → ∀ y ∈ l', ∃ x ∈ l, R x y := by
  intro l l' h
  induction h with
  | nil => intro y hy; exact absurd hy (by simp)
  | cons hd tl ih =>
      intro y hy
      rcases List.mem_cons.mp hy with h2 | h2
      · exact ⟨_, List.mem_cons_self _ _, h2 ▸ hd⟩
      · obtain ⟨x, hx, hr⟩ := ih y h2
        exact ⟨x, List.mem_cons_of_mem _ hx, hr⟩

theorem cpMeet_canon (master : List String) (sets : List CPDict)
    (hsets : ∀ d ∈ sets, ∀ kv ∈ d, kv.1 ∈ master) :
    dcanon master (cpMeet master sets) := by
  cases sets with
  | nil => exact ⟨List.Pairwise.nil, fun kv hkv => absurd hkv (by simp [cpMeet])⟩
  | cons s0 rest =>
      obtain ⟨hpw, hmem⟩ := keysUnion_canon master (s0 :: rest) hsets
      constructor
      · rw [cpMeet]
        rw [List.pairwise_map]
        exact hpw
      · intro kv hkv
        rw [cpMeet] at hkv
        obtain ⟨k, hk, hkv2⟩ := List.mem_map.mp hkv
        rw [← hkv2]
        exact hmem k hk

theorem cpMeet_dget_mem (master : List String) (s0 : CPDict) (rest : List CPDict)
    (k : String) (hk : k ∈ keysUnion master (s0 :: rest)) :
    dget (cpMeet master (s0 :: rest)) k
      = some (if (s0 :: rest).all (fun s => dgetD s k false == dgetD s0 k false)
          then dgetD s0 k false else false) := by
  rw [cpMeet, dget_map_keys _ _ k, if_pos hk]

theorem cpMeet_dget_not_mem (master : List String) (s0 : CPDict) (rest : List CPDict)
    (k : String) (hk : k ∉ keysUnion master (s0 :: rest)) :
    dget (cpMeet master (s0 :: rest)) k = none := by
  rw [cpMeet, dget_map_keys _ _ k, if_neg hk]

theorem cpMeet_mono (master : List String) (l l' : List CPDict)
    (h : List.Forall₂ cpLe l l') : cpLe (cpMeet master l) (cpMeet master l') := by
  intro k
  cases h with
  | nil => exact le_refl _
  | @cons s0 s0' rest rest0' h0 htl =>
      by_cases hk : k ∈ keysUnion master (s0 :: rest)
      · obtain ⟨d, hd, v, hv⟩ := mem_keysUnion_src master _ k hk
        obtain ⟨d', hd', hdd'⟩ := forall₂_mem_left (List.Forall₂.cons h0 htl) d hd
        obtain ⟨v2, hv2⟩ := exists_dget_of_mem d k v hv
        have hrd : pointRank d k ≤ 1 := by
          rw [pointRank_some d k v2 hv2]
          cases v2 <;> simp
        have hrank' : pointRank d' k ≤ 1 := le_trans (hdd' k) hrd
        have hdget' : ∃ v3, dget d' k = some v3 := by
          cases hg : dget d' k with
          | none =>
              rw [pointRank_none d' k hg] at hrank'
              omega
          | some v3 => exact ⟨v3, rfl⟩
        obtain ⟨v3, hv3⟩ := hdget'
        have hk' : k ∈ keysUnion master (s0' :: rest0') :=
          mem_keysUnion_of_mem master _ d' hd' k v3 (dget_some_mem d' k v3 hv3)
        have hrankm' : pointRank (cpMeet master (s0' :: rest0')) k ≤ 1 := by
          rw [pointRank_some _ _ _ (cpMeet_dget_mem master s0' rest0' k hk')]
          cases (if (s0' :: rest0').all (fun s => dgetD s k false == dgetD s0' k false)
            then dgetD s0' k false else false) <;> simp
        by_cases hzero : pointRank (cpMeet master (s0 :: rest)) k = 0
        · rw [pointRank_eq_zero_iff, cpMeet_dget_mem master s0 rest k hk] at hzero
          have hcond : ((s0 :: rest).all (fun s => dgetD s k false == dgetD s0 k false)
              = true) ∧ dgetD s0 k false = true := by
            by_cases hc : (s0 :: rest).all (fun s => dgetD s k false == dgetD s0 k false)
            · rw [if_pos hc] at hzero
              injection hzero with hzero
              exact ⟨hc, hzero⟩
            · rw [if_neg hc] at hzero
              injection hzero with hzero
              exact absurd hzero.symm (by simp)
          have halltrue : ∀ s ∈ s0 :: rest, dgetD s k false = true := by
            intro s hs
            have := (List.all_eq_true.mp hcond.1) s hs
            rw [beq_iff_eq] at this
            rw [this]
            exact hcond.2
          have halltrue' : ∀ s' ∈ s0' :: rest0', dgetD s' k false = true := by
            intro s' hs'
            obtain ⟨s, hs, hss'⟩ :=
              forall₂_mem_right (List.Forall₂.cons h0 htl) s' hs'
            have h1 : dget s k = some true := (dgetD_true_iff s k).mp (halltrue s hs)
            have h2 : pointRank s k = 0 := (pointRank_eq_zero_iff s k).mpr h1
            have h3 : pointRank s' k = 0 := by
              have := hss' k
              omega
            exact (dgetD_true_iff s' k).mpr ((pointRank_eq_zero_iff s' k).mp h3)
          have hzero' : pointRank (cpMeet master (s0' :: rest0')) k = 0 := by
            rw [pointRank_eq_zero_iff, cpMeet_dget_mem master s0' rest0' k hk']
            have hc' : (s0' :: rest0').all
                (fun s => dgetD s k false == dgetD s0' k false) = true := by
              rw [List.all_eq_true]
              intro s hs
              rw [beq_iff_eq, halltrue' s hs,
                halltrue' s0' (List.mem_cons_self _ _)]
            rw [if_pos hc', halltrue' s0' (List.mem_cons_self _ _)]
          omega
        · have h1 : 1 ≤ pointRank (cpMeet master (s0 :: rest)) k := by
            have hksome := cpMeet_dget_mem master s0 rest k hk
            rw [pointRank_some _ _ _ hksome]
            cases hc : (if (s0 :: rest).all (fun s => dgetD s k false == dgetD s0 k false)
              then dgetD s0 k false else false) with
            | false => simp
            | true =>
                exfalso
                apply hzero
                rw [pointRank_eq_zero_iff, hksome, hc]
          omega
      · have h2 : pointRank (cpMeet master (s0 :: rest)) k = 2 :=
          pointRank_none _ _ (cpMeet_dget_not_mem master s0 rest k hk)
        rw [h2]
        exact pointRank_le_two _ _

/-! ### Constant propagation: flow monotonicity and termination. -/

theorem dget_of_mem_canon (master : List String) :
    ∀ (d : CPDict), d.Pairwise (fun p q => kidx master p.1 < kidx master q.1) →
      ∀ kv ∈ d, dget d kv.1 = some kv.2 := by
  intro d
  induction d with
  | nil =>
      intro _ kv hkv
      exact absurd hkv (by simp)
  | cons kv2 rest ih =>
      intro hpw kv hkv
      obtain ⟨k2, v2⟩ := kv2
      rcases List.mem_cons.mp hkv with h | h
      · rw [h, dget_cons_self]
      · have hlt : kidx master k2 < kidx master kv.1 :=
          (List.pairwise_cons.mp hpw).1 kv h
        have hne : kv.1 ≠ k2 := by
          intro he
          rw [he] at hlt
          omega
        rw [dget_cons_ne k2 v2 rest kv.1 hne]
        exact ih (List.pairwise_cons.mp hpw).2 kv h

theorem killedNames_foldl_mono :
    ∀ (block : List AInstr) (acc : Finset String) (x : String), x ∈ acc →
      x ∈ block.foldl (fun a ins =>
        match truthyName ins.iname with
        | some nm => insert nm a
        | none => a) acc := by
  intro block
  induction block with
  | nil =>
      intro acc x hx
      exact hx
  | cons ins rest ih =>
      intro acc x hx
      refine ih _ x ?_
      show x ∈ (match truthyName ins.iname with
        | some nm => insert nm acc
        | none => acc)
      cases truthyName ins.iname with
      | some nm => exact Finset.mem_insert_of_mem hx
      | none => exact hx

theorem mem_killedNames_aux :
    ∀ (block : List AInstr) (acc : Finset String) (ins : AInstr), ins ∈ block →
      ∀ nm, truthyName ins.iname = some nm →
      nm ∈ block.foldl (fun a ins2 =>
        match truthyName ins2.iname with
        | some nm2 => insert nm2 a
        | none => a) acc := by
  intro block
  induction block with
  | nil =>
      intro acc ins hins
      exact absurd hins (by simp)
  | cons i rest ih =>
      intro acc ins hins nm hnm
      rcases List.mem_cons.mp hins with h | h
      · show nm ∈ rest.foldl _ (match truthyName i.iname with
          | some nm2 => insert nm2 acc
          | none => acc)
        rw [← h, hnm]
        exact killedNames_foldl_mono rest _ nm (Finset.mem_insert_self nm acc)
      · exact ih _ ins h nm hnm

theorem mem_killedNames (block : List AInstr) (ins : AInstr) (hins : ins ∈ block)
    (nm : String) (hnm : truthyName ins.iname = some nm) : nm ∈ killedNames block :=
  mem_killedNames_aux block ∅ ins hins nm hnm

/-- The two-run invariant carried through the instruction fold of
`ConstantPropagationAnalysis.flow_function`: pointwise rank decrease,
the evolving `out_set` covers the keys of its own `in_set`, canonicity,
and agreement with the input outside the killed names. -/
def CPInv (master : List String) (kill : Finset String) (din din' dout dout' : CPDict) :
    Prop :=
  cpLe dout dout' ∧
  (∀ q, dget dout q = none → dget din q = none) ∧
  dcanon master dout ∧ dcanon master dout' ∧
  (∀ q, q ∉ kill → dget dout q = dget din q) ∧
  (∀ q, q ∉ kill → dget dout' q = dget din' q)

theorem cpStatusOf_true_mono (din din' dout dout' : CPDict) (k : String)
    (hI1 : cpLe dout dout')
    (hI2 : ∀ q, dget dout q = none → dget din q = none)
    (h : cpStatusOf din dout k = true) : cpStatusOf din' dout' k = true := by
  cases hg : dget dout k with
  | none =>
      have hdin := hI2 k hg
      simp only [cpStatusOf, hg, hdin] at h
      exact absurd h (by simp)
  | some v =>
      simp only [cpStatusOf, hg] at h
      have hz : pointRank dout k = 0 := by
        rw [h] at hg
        exact (pointRank_eq_zero_iff dout k).mpr hg
      have hz' : pointRank dout' k = 0 := by
        have := hI1 k
        omega
      have hg' : dget dout' k = some true := (pointRank_eq_zero_iff dout' k).mp hz'
      simp only [cpStatusOf, hg']

theorem cpOperandConst_true_mono (din din' dout dout' : CPDict) (op : IRValue)
    (hI1 : cpLe dout dout')
    (hI2 : ∀ q, dget dout q = none → dget din q = none)
    (h : cpOperandConst din dout op = true) : cpOperandConst din' dout' op = true := by
  cases op with
  | constant lit vn => rfl
  | instr onm =>
      cases honm : truthyName onm with
      | some onm2 =>
          simp only [cpOperandConst, honm] at h ⊢
          exact cpStatusOf_true_mono din din' dout dout' onm2 hI1 hI2 h
      | none =>
          simp only [cpOperandConst, honm] at h
          exact absurd h (by simp)
  | plain vn =>
      simp only [cpOperandConst] at h
      exact absurd h (by simp)

theorem CPInv_dset (master : List String) (kill : Finset String)
    (din din' dout dout' : CPDict) (nm : String) (v v' : Bool)
    (hinv : CPInv master kill din din' dout dout')
    (hm : nm ∈ master) (hk : nm ∈ kill)
    (hvv : v = true → v' = true) :
    CPInv master kill din din' (dset master dout nm v) (dset master dout' nm v') := by
  obtain ⟨hI1, hI2, hc, hc', hC, hC'⟩ := hinv
  refine ⟨?_, ?_, dcanon_dset master dout nm v hc hm,
    dcanon_dset master dout' nm v' hc' hm, ?_, ?_⟩
  · intro q
    by_cases hq : q = nm
    · rw [hq, pointRank_dset_self, pointRank_dset_self]
      cases v with
      | true =>
          rw [hvv rfl]
      | false =>
          cases v' <;> simp
    · rw [pointRank_dset_other master dout nm q v hq,
        pointRank_dset_other master dout' nm q v' hq]
      exact hI1 q
  · intro q hq
    by_cases hqe : q = nm
    · rw [hqe, dget_dset_self] at hq
      exact absurd hq (by simp)
    · rw [dget_dset_other master dout nm q v hqe] at hq
      exact hI2 q hq
  · intro q hq
    have hqe : q ≠ nm := by
      intro he
      rw [he] at hq
      exact hq hk
    rw [dget_dset_other master dout nm q v hqe]
    exact hC q hq
  · intro q hq
    have hqe : q ≠ nm := by
      intro he
      rw [he] at hq
      exact hq hk
    rw [dget_dset_other master dout' nm q v' hqe]
    exact hC' q hq

theorem cpInstr_inv (master : List String) (kill : Finset String)
    (din din' dout dout' : CPDict) (ins : AInstr)
    (hins : ∀ nm, truthyName ins.iname = some nm → nm ∈ master ∧ nm ∈ kill)
    (hinv : CPInv master kill din din' dout dout') :
    CPInv master kill din din' (cpInstr master din dout ins) (cpInstr master din' dout' ins) := by
  cases hnm : truthyName ins.iname with
  | none =>
      simp only [cpInstr, hnm]
      exact hinv
  | some nm =>
      obtain ⟨hm, hk⟩ := hins nm hnm
      cases hops : ins.opnds with
      | nil =>
          simp only [cpInstr, hnm, hops]
          exact CPInv_dset master kill din din' dout dout' nm false false hinv hm hk
            (fun h => h)
      | cons op rest2 =>
          cases rest2 with
          | nil =>
              cases op with
              | constant lit vn =>
                  simp only [cpInstr, hnm, hops]
                  exact CPInv_dset master kill din din' dout dout' nm true true hinv hm hk
                    (fun _ => rfl)
              | instr onm =>
                  cases honm : truthyName onm with
                  | some onm2 =>
                      simp only [cpInstr, hnm, hops, honm]
                      exact CPInv_dset master kill din din' dout dout' nm
                        (cpStatusOf din dout onm2) (cpStatusOf din' dout' onm2) hinv hm hk
                        (cpStatusOf_true_mono din din' dout dout' onm2 hinv.1 hinv.2.1)
                  | none =>
                      simp only [cpInstr, hnm, hops, honm]
                      exact hinv
              | plain vn =>
                  simp only [cpInstr, hnm, hops]
                  exact hinv
          | cons op2 rest3 =>
              simp only [cpInstr, hnm, hops]
              refine CPInv_dset master kill din din' dout dout' nm
                ((op :: op2 :: rest3).all (cpOperandConst din dout))
                ((op :: op2 :: rest3).all (cpOperandConst din' dout')) hinv hm hk ?_
              intro hall
              rw [List.all_eq_true] at hall ⊢
              intro x hx
              exact cpOperandConst_true_mono din din' dout dout' x hinv.1 hinv.2.1
                (hall x hx)

theorem cpFold_inv (master : List String) (kill : Finset String) (din din' : CPDict) :
    ∀ (block : List AInstr) (dout dout' : CPDict),
      (∀ ins ∈ block, ∀ nm, truthyName ins.iname = some nm → nm ∈ master ∧ nm ∈ kill) →
      CPInv master kill din din' dout dout' →
      CPInv master kill din din'
        (block.foldl (fun acc ins => cpInstr master din acc ins) dout)
        (block.foldl (fun acc ins => cpInstr master din' acc ins) dout') := by
  intro block
  induction block with
  | nil =>
      intro dout dout' _ hinv
      exact hinv
  | cons ins rest ih =>
      intro dout dout' hblk hinv
      refine ih _ _ (fun i hi => hblk i (List.mem_cons_of_mem _ hi)) ?_
      exact cpInstr_inv master kill din din' dout dout' ins
        (hblk ins (List.mem_cons_self _ _)) hinv

theorem cpPreserve_eq (master : List String) (defined : Finset String) :
    ∀ (din : CPDict) (dout : CPDict),
      dout.Pairwise (fun p q => kidx master p.1 < kidx master q.1) →
      (∀ kv ∈ din, kv.1 ∉ defined → dget dout kv.1 = some kv.2) →
      cpPreserve master defined din dout = dout := by
  intro din
  induction din with
  | nil =>
      intro dout _ _
      rfl
  | cons kv rest ih =>
      intro dout hpw hagree
      show List.foldl _ (if kv.1 ∈ defined then dout else dset master dout kv.1 kv.2) rest
        = dout
      by_cases hd : kv.1 ∈ defined
      · rw [if_pos hd]
        exact ih dout hpw (fun q hq => hagree q (List.mem_cons_of_mem _ hq))
      · rw [if_neg hd,
          dset_self_of_lookup master dout kv.1 kv.2 hpw
            (hagree kv (List.mem_cons_self _ _) hd)]
        exact ih dout hpw (fun q hq => hagree q (List.mem_cons_of_mem _ hq))

theorem CPInv_init (master : List String) (kill : Finset String) (din din' : CPDict)
    (hdin : dcanon master din) (hdin' : dcanon master din') (hle : cpLe din din') :
    CPInv master kill din din' din din' :=
  ⟨hle, fun _ h => h, hdin, hdin', fun _ _ => rfl, fun _ _ => rfl⟩

theorem cpFlow_eq_fold (master : List String) (block : List AInstr) (din : CPDict)
    (hdin : dcanon master din)
    (hnames : ∀ ins ∈ block, ∀ nm, truthyName ins.iname = some nm → nm ∈ master) :
    cpFlow master block din
      = block.foldl (fun acc ins => cpInstr master din acc ins) din := by
  have hblk : ∀ ins ∈ block, ∀ nm, truthyName ins.iname = some nm →
      nm ∈ master ∧ nm ∈ killedNames block :=
    fun ins hi nm hnm => ⟨hnames ins hi nm hnm, mem_killedNames block ins hi nm hnm⟩
  have hinv := cpFold_inv master (killedNames block) din din block din din hblk
    (CPInv_init master (killedNames block) din din hdin hdin (fun k => le_refl _))
  rw [cpFlow]
  refine cpPreserve_eq master (killedNames block) din _ hinv.2.2.1.1 ?_
  intro kv hkv hnd
  rw [hinv.2.2.2.2.1 kv.1 hnd]
  exact dget_of_mem_canon master din hdin.1 kv hkv

theorem cpFlow_mono (master : List String) (block : List AInstr) (din din' : CPDict)
    (hdin : dcanon master din) (hdin' : dcanon master din')
    (hnames : ∀ ins ∈ block, ∀ nm, truthyName ins.iname = some nm → nm ∈ master)
    (hle : cpLe din din') :
    cpLe (cpFlow master block din) (cpFlow master block din') := by
  rw [cpFlow_eq_fold master block din hdin hnames,
    cpFlow_eq_fold master block din' hdin' hnames]
  have hblk : ∀ ins ∈ block, ∀ nm, truthyName ins.iname = some nm →
      nm ∈ master ∧ nm ∈ killedNames block :=
    fun ins hi nm hnm => ⟨hnames ins hi nm hnm, mem_killedNames block ins hi nm hnm⟩
  exact (cpFold_inv master (killedNames block) din din' block din din' hblk
    (CPInv_init master (killedNames block) din din' hdin hdin' hle)).1

theorem cpFlow_good (master : List String) (block : List AInstr) (din : CPDict)
    (hdin : dcanon master din)
    (hnames : ∀ ins ∈ block, ∀ nm, truthyName ins.iname = some nm → nm ∈ master) :
    dcanon master (cpFlow master block din) := by
  rw [cpFlow_eq_fold master block din hdin hnames]
  have hblk : ∀ ins ∈ block, ∀ nm, truthyName ins.iname = some nm →
      nm ∈ master ∧ nm ∈ killedNames block :=
    fun ins hi nm hnm => ⟨hnames ins hi nm hnm, mem_killedNames block ins hi nm hnm⟩
  exact (cpFold_inv master (killedNames block) din din block din din hblk
    (CPInv_init master (killedNames block) din din hdin hdin (fun k => le_refl _))).2.2.1

/-- The embedded `ConstantPropagationAnalysis` solver: forward, initial
data the empty dictionary, dictionary flow and agreeing-value meet. -/
def cpSolver (master : List String) (n : Nat) (preds succs : Nat → List Nat)
    (blocks : Nat → List AInstr) : Solver CPDict Unit :=
  { n := n, preds := preds, succs := succs, forward := true, initD := []
    flow := fun _ node d => (cpFlow master (blocks node) d, ())
    meet := fun _ sets => cpMeet master sets }

theorem cp_terminates (master : List String) (n : Nat)
    (preds succs : Nat → List Nat) (blocks : Nat → List AInstr)
    (hnames : ∀ j, j < n → ∀ ins ∈ blocks j, ∀ nm,
      truthyName ins.iname = some nm → nm ∈ master)
    (hpredb : ∀ m, m < n → ∀ q ∈ preds m, q < n)
    (hsuccb : ∀ m, m < n → ∀ q ∈ succs m, q < n)
    (hsuccnd : ∀ m, m < n → (succs m).Nodup) :
    ∃ fuel, (solverRun (cpSolver master n preds succs blocks) fuel
      (initState (cpSolver master n preds succs blocks) ())).wl = [] := by
  refine fwd_terminates (cpSolver master n preds succs blocks) cpLe
    (dcanon master) (cpMu master.toFinset)
    rfl (fun d k => le_refl _)
    (fun a b c h1 h2 k => le_trans (h2 k) (h1 k))
    ?_ ?_ ?_ ⟨List.Pairwise.nil, fun kv h => absurd h (List.not_mem_nil kv)⟩ ?_ ?_
    (cpMu_strict master) hpredb hsuccb hsuccnd
  · intro j hj d d' hgd hgd' hle
    exact cpFlow_mono master (blocks j) d d' hgd hgd' (hnames j hj) hle
  · intro l l' h
    exact cpMeet_mono master l l' h
  · intro j hj d
    intro k
    have h3 : pointRank ((cpSolver master n preds succs blocks).initD) k = 2 :=
      pointRank_none [] k rfl
    rw [h3]
    exact pointRank_le_two _ _
  · intro j hj d hd
    exact cpFlow_good master (blocks j) d hd (hnames j hj)
  · intro l hl
    refine cpMeet_canon master l ?_
    intro d hd kv hkv
    exact (hl d hd).2 kv hkv

/-! ### Available Expressions: termination of the worklist run.

The proof decomposes the evolving `out` sets per expression.  Nodes
generating an expression hold it forever after their first visit; free
nodes on (or reachable backward from) an all-free cycle never hold it;
the remaining free nodes form a well-founded region whose bits
stabilise by induction.  Once every `out` set is stable the worklist
drains. -/

/-- One solver step, total: the state is unchanged once the worklist is
empty. -/
def stepT {D A : Type} [DecidableEq D] (sv : Solver D A) (st : SState D A) : SState D A :=
  (solverStep sv st).getD st

theorem solverRun_of_none {D A : Type} [DecidableEq D] (sv : Solver D A) :
    ∀ (t : Nat) (st : SState D A), solverStep sv st = none → solverRun sv t st = st := by
  intro t
  induction t with
  | zero => intro st _; rfl
  | succ t ih =>
      intro st h
      show (match solverStep sv st with
        | none => st
        | some st2 => solverRun sv t st2) = st
      rw [h]

theorem solverRun_succ {D A : Type} [DecidableEq D] (sv : Solver D A) :
    ∀ (t : Nat) (st : SState D A),
      solverRun sv (t + 1) st = stepT sv (solverRun sv t st) := by
  intro t
  induction t with
  | zero =>
      intro st
      show (match solverStep sv st with
        | none => st
        | some st2 => solverRun sv 0 st2) = (solverStep sv st).getD st
      cases h : solverStep sv st with
      | none => rfl
      | some st2 => rfl
  | succ t ih =>
      intro st
      show (match solverStep sv st with
        | none => st
        | some st2 => solverRun sv (t + 1) st2) = stepT sv (solverRun sv (t + 1) st)
      cases h : solverStep sv st with
      | none =>
          rw [solverRun_of_none sv (t + 1) st h]
          show st = (solverStep sv st).getD st
          rw [h]
          rfl
      | some st2 =>
          show solverRun sv (t + 1) st2 = stepT sv (solverRun sv (t + 1) st)
          rw [ih st2]
          have h2 : solverRun sv (t + 1) st = solverRun sv t st2 := by
            show (match solverStep sv st with
              | none => st
              | some st3 => solverRun sv t st3) = solverRun sv t st2
            rw [h]
          rw [h2]

/-- The state of the embedded `AvailableExpressionsAnalysis.analyze`
run after `t` worklist iterations. -/
def aeS (n : Nat) (preds succs : Nat → List Nat) (blocks : Nat → List AInstr)
    (t : Nat) : SState (Finset Expr) (Nat → Option (Finset String)) :=
  solverRun (aeSolver n preds succs blocks) t
    (initState (aeSolver n preds succs blocks) (fun _ => none))

theorem aeS_succ (n : Nat) (preds succs : Nat → List Nat) (blocks : Nat → List AInstr)
    (t : Nat) : aeS n preds succs blocks (t + 1)
      = stepT (aeSolver n preds succs blocks) (aeS n preds succs blocks t) :=
  solverRun_succ (aeSolver n preds succs blocks) t _

theorem aeS_succ_nil (n : Nat) (preds succs : Nat → List Nat) (blocks : Nat → List AInstr)
    (t : Nat) (h : (aeS n preds succs blocks t).wl = []) :
    aeS n preds succs blocks (t + 1) = aeS n preds succs blocks t := by
  rw [aeS_succ, stepT]
  have h2 : solverStep (aeSolver n preds succs blocks) (aeS n preds succs blocks t)
      = none := by
    rw [solverStep, h]
  rw [h2]
  rfl

/-- The meet inputs of a forward step at `node`. -/
def aeSets (preds : Nat → List Nat)
    (st : SState (Finset Expr) (Nat → Option (Finset String))) (node : Nat) :
    List (Finset Expr) :=
  if (preds node).isEmpty then [(∅ : Finset Expr)] else (preds node).map st.outS

/-- The `out` set written by a forward step at `node`. -/
def aePopOut (n : Nat) (preds : Nat → List Nat) (blocks : Nat → List AInstr)
    (st : SState (Finset Expr) (Nat → Option (Finset String))) (node : Nat) : Finset Expr :=
  (aeFlow blocks st.aux node (aeMeet n st.aux (aeSets preds st node))).1

/-- The successor state of a forward AE step that pops `node`. -/
def aeStepState (n : Nat) (preds succs : Nat → List Nat) (blocks : Nat → List AInstr)
    (st : SState (Finset Expr) (Nat → Option (Finset String))) (node : Nat)
    (rest : List Nat) : SState (Finset Expr) (Nat → Option (Finset String)) :=
  { inS := fun j => if j = node then aeMeet n st.aux (aeSets preds st node) else st.inS j
    outS := fun j => if j = node then aePopOut n preds blocks st node else st.outS j
    wl := if aePopOut n preds blocks st node = st.outS node then rest
      else rest ++ (succs node).filter (fun q => decide (q ∉ rest))
    aux := fun j => if j = node then some (killedNames (blocks node)) else st.aux j }

theorem aeS_succ_cons (n : Nat) (preds succs : Nat → List Nat) (blocks : Nat → List AInstr)
    (t node : Nat) (rest : List Nat) (h : (aeS n preds succs blocks t).wl = node :: rest) :
    aeS n preds succs blocks (t + 1)
      = aeStepState n preds succs blocks (aeS n preds succs blocks t) node rest := by
  rw [aeS_succ, stepT]
  have h2 : solverStep (aeSolver n preds succs blocks) (aeS n preds succs blocks t)
      = some (aeStepState n preds succs blocks (aeS n preds succs blocks t) node rest) := by
    rw [solverStep, h]
    rfl
  rw [h2]
  rfl

theorem aeStepState_wl (n : Nat) (preds succs : Nat → List Nat) (blocks : Nat → List AInstr)
    (st : SState (Finset Expr) (Nat → Option (Finset String))) (node : Nat)
    (rest : List Nat) :
    (aeStepState n preds succs blocks st node rest).wl
      = if aePopOut n preds blocks st node = st.outS node then rest
        else rest ++ (succs node).filter (fun q => decide (q ∉ rest)) := rfl

theorem aeStepState_outS_pop (n : Nat) (preds succs : Nat → List Nat)
    (blocks : Nat → List AInstr) (st : SState (Finset Expr) (Nat → Option (Finset String)))
    (node : Nat) (rest : List Nat) :
    (aeStepState n preds succs blocks st node rest).outS node
      = aePopOut n preds blocks st node := by
  show (if node = node then _ else _) = _
  rw [if_pos rfl]

theorem aeStepState_outS_other (n : Nat) (preds succs : Nat → List Nat)
    (blocks : Nat → List AInstr) (st : SState (Finset Expr) (Nat → Option (Finset String)))
    (node : Nat) (rest : List Nat) (j : Nat) (hj : j ≠ node) :
    (aeStepState n preds succs blocks st node rest).outS j = st.outS j := by
  show (if j = node then _ else _) = _
  rw [if_neg hj]

theorem ae_wl_inv (n : Nat) (preds succs : Nat → List Nat) (blocks : Nat → List AInstr)
    (hsuccb : ∀ m, m < n → ∀ q ∈ succs m, q < n)
    (hsuccnd : ∀ m, m < n → (succs m).Nodup) :
    ∀ t, (aeS n preds succs blocks t).wl.Nodup
      ∧ ∀ q ∈ (aeS n preds succs blocks t).wl, q < n := by
  intro t
  induction t with
  | zero =>
      refine ⟨List.nodup_range n, ?_⟩
      intro q hq
      exact List.mem_range.mp hq
  | succ t ih =>
      cases hw : (aeS n preds succs blocks t).wl with
      | nil =>
          rw [aeS_succ_nil n preds succs blocks t hw]
          exact ih
      | cons node rest =>
          have hnd := ih.1
          have hb := ih.2
          rw [hw] at hnd
          have hrestnd : rest.Nodup := (List.nodup_cons.mp hnd).2
          have hrestb : ∀ q ∈ rest, q < n := fun q hq =>
            hb q (by rw [hw]; exact List.mem_cons_of_mem _ hq)
          have hnode : node < n := hb node (by rw [hw]; exact List.mem_cons_self _ _)
          rw [aeS_succ_cons n preds succs blocks t node rest hw, aeStepState_wl]
          by_cases hcond : aePopOut n preds blocks (aeS n preds succs blocks t) node
              = (aeS n preds succs blocks t).outS node
          · rw [if_pos hcond]
            exact ⟨hrestnd, hrestb⟩
          · rw [if_neg hcond]
            constructor
            · refine List.Nodup.append hrestnd
                (List.Nodup.filter _ (hsuccnd node hnode)) ?_
              intro q hq1 hq2
              have h2 := (List.mem_filter.mp hq2).2
              exact absurd hq1 (of_decide_eq_true h2)
            · intro q hq
              rcases List.mem_append.mp hq with h | h
              · exact hrestb q h
              · exact hsuccb node hnode q (List.mem_filter.mp h).1

theorem ae_phase1 (n : Nat) (preds succs : Nat → List Nat) (blocks : Nat → List AInstr) :
    ∀ t, t ≤ n →
      (∃ junk, (aeS n preds succs blocks t).wl = List.range' t (n - t) ++ junk)
      ∧ ∀ j, (aeS n preds succs blocks t).aux j
          = if j < t then some (killedNames (blocks j)) else none := by
  intro t
  induction t with
  | zero =>
      intro _
      constructor
      · refine ⟨[], ?_⟩
        show List.range n = List.range' 0 (n - 0) ++ []
        rw [List.append_nil, Nat.sub_zero, List.range_eq_range']
      · intro j
        rw [if_neg (by omega)]
        rfl
  | succ t ih =>
      intro ht
      obtain ⟨⟨junk, hwl⟩, haux⟩ := ih (by omega)
      have hlen : n - t = (n - (t + 1)) + 1 := by omega
      have hwl2 : (aeS n preds succs blocks t).wl
          = t :: (List.range' (t + 1) (n - (t + 1)) ++ junk) := by
        rw [hwl, hlen, List.range'_succ]
        rfl
      rw [aeS_succ_cons n preds succs blocks t t _ hwl2]
      constructor
      · rw [aeStepState_wl]
        by_cases hcond : aePopOut n preds blocks (aeS n preds succs blocks t) t
            = (aeS n preds succs blocks t).outS t
        · rw [if_pos hcond]
          exact ⟨junk, rfl⟩
        · rw [if_neg hcond]
          exact ⟨junk ++ _, List.append_assoc _ _ _⟩
      · intro j
        show (if j = t then some (killedNames (blocks t))
          else (aeS n preds succs blocks t).aux j) = _
        by_cases hj : j = t
        · rw [if_pos hj, hj, if_pos (by omega)]
        · rw [if_neg hj, haux j]
          by_cases hjt : j < t
          · rw [if_pos hjt, if_pos (by omega)]
          · rw [if_neg hjt, if_neg (by omega)]

/-- After the first `n` iterations every node has been visited once, so
the recorded kill sets are final. -/
theorem ae_aux_final (n : Nat) (preds succs : Nat → List Nat) (blocks : Nat → List AInstr)
    (hsuccb : ∀ m, m < n → ∀ q ∈ succs m, q < n)
    (hsuccnd : ∀ m, m < n → (succs m).Nodup) :
    ∀ t, n ≤ t → ∀ j, (aeS n preds succs blocks t).aux j
      = if j < n then some (killedNames (blocks j)) else none := by
  intro t
  induction t with
  | zero =>
      intro h0 j
      have hn : n = 0 := by omega
      subst hn
      rw [if_neg (by omega)]
      rfl
  | succ t ih =>
      intro ht j
      by_cases htn : n ≤ t
      · cases hw : (aeS n preds succs blocks t).wl with
        | nil =>
            rw [aeS_succ_nil n preds succs blocks t hw]
            exact ih htn j
        | cons node rest =>
            have hnode : node < n :=
              (ae_wl_inv n preds succs blocks hsuccb hsuccnd t).2 node
                (by rw [hw]; exact List.mem_cons_self _ _)
            rw [aeS_succ_cons n preds succs blocks t node rest hw]
            show (if j = node then some (killedNames (blocks node))
              else (aeS n preds succs blocks t).aux j) = _
            by_cases hj : j = node
            · rw [if_pos hj, hj, if_pos hnode]
            · rw [if_neg hj]
              exact ih htn j
      · have hn1 : n = t + 1 := by omega
        rw [hn1]
        have h2 := (ae_phase1 n preds succs blocks (t + 1) (by omega)).2 j
        rw [hn1] at h2
        exact h2

/-- The union of all recorded kill sets, as read by the meet. -/
def allKilled (n : Nat) (aux : Nat → Option (Finset String)) : Finset String :=
  (List.range n).foldl (fun acc j =>
    match aux j with
    | some ks => acc ∪ ks
    | none => acc) ∅

theorem allKilled_congr_aux (aux aux2 : Nat → Option (Finset String)) :
    ∀ (l : List Nat) (acc : Finset String), (∀ j ∈ l, aux j = aux2 j) →
      l.foldl (fun acc2 j =>
        match aux j with
        | some ks => acc2 ∪ ks
        | none => acc2) acc
      = l.foldl (fun acc2 j =>
        match aux2 j with
        | some ks => acc2 ∪ ks
        | none => acc2) acc := by
  intro l
  induction l with
  | nil => intro acc _; rfl
  | cons j rest ih =>
      intro acc h
      show List.foldl _ (match aux j with
        | some ks => acc ∪ ks
        | none => acc) rest = List.foldl _ (match aux2 j with
        | some ks => acc ∪ ks
        | none => acc) rest
      rw [h j (List.mem_cons_self _ _)]
      exact ih _ (fun q hq => h q (List.mem_cons_of_mem _ hq))

theorem allKilled_congr (n : Nat) (aux aux2 : Nat → Option (Finset String))
    (h : ∀ j, j < n → aux j = aux2 j) : allKilled n aux = allKilled n aux2 :=
  allKilled_congr_aux aux aux2 (List.range n) ∅
    (fun j hj => h j (List.mem_range.mp hj))

theorem mem_foldl_insert :
    ∀ (l : List Expr) (init : Finset Expr) (e : Expr),
      (e ∈ l.foldl (fun acc x => insert x acc) init) ↔ e ∈ l ∨ e ∈ init := by
  intro l
  induction l with
  | nil =>
      intro init e
      simp
  | cons x xs ih =>
      intro init e
      show (e ∈ xs.foldl (fun acc x2 => insert x2 acc) (insert x init)) ↔ _
      rw [ih]
      simp only [Finset.mem_insert, List.mem_cons]
      tauto

theorem mem_aeFlow_iff (blocks : Nat → List AInstr)
    (aux : Nat → Option (Finset String)) (node : Nat) (d : Finset Expr) (e : Expr) :
    e ∈ (aeFlow blocks aux node d).1 ↔
      e ∈ genExprs (blocks node)
      ∨ (e ∈ d
        ∧ ¬ (e.operandNames.any
            (fun v => decide (v ∈ killedNames (blocks node))) = true)) := by
  show e ∈ (genExprs (blocks node)).foldl (fun acc e2 => insert e2 acc)
    (d.filter (fun e2 => ¬ e2.operandNames.any
      (fun v => decide (v ∈ killedNames (blocks node))))) ↔ _
  rw [mem_foldl_insert, Finset.mem_filter]

theorem foldl_filter_mem :
    ∀ (l : List (Finset Expr)) (acc : Finset Expr) (e : Expr),
      (e ∈ l.foldl (fun acc2 t => acc2.filter (fun x => x ∈ t)) acc)
        ↔ e ∈ acc ∧ ∀ u ∈ l, e ∈ u := by
  intro l
  induction l with
  | nil =>
      intro acc e
      simp
  | cons u us ih =>
      intro acc e
      show (e ∈ us.foldl _ (acc.filter (fun x => x ∈ u))) ↔ _
      rw [ih, Finset.mem_filter]
      simp only [List.mem_cons]
      constructor
      · rintro ⟨⟨h1, h2⟩, h3⟩
        refine ⟨h1, ?_⟩
        rintro v (rfl | hv)
        · exact h2
        · exact h3 v hv
      · rintro ⟨h1, h2⟩
        exact ⟨⟨h1, h2 u (Or.inl rfl)⟩, fun v hv => h2 v (Or.inr hv)⟩

theorem mem_aeMeet_multi (n : Nat) (aux : Nat → Option (Finset String))
    (s t : Finset Expr) (rest : List (Finset Expr)) (e : Expr) :
    e ∈ aeMeet n aux (s :: t :: rest)
      ↔ (e ∈ s ∧ ∀ u ∈ t :: rest, e ∈ u)
        ∧ ¬ (e.operandNames.any (fun v => decide (v ∈ allKilled n aux)) = true) := by
  show e ∈ ((t :: rest).foldl (fun acc u => acc.filter (fun x => x ∈ u)) s).filter
    (fun e2 => ¬ e2.operandNames.any (fun v => decide (v ∈ allKilled n aux))) ↔ _
  rw [Finset.mem_filter, foldl_filter_mem]

theorem mem_aeMeet_subset (n : Nat) (aux : Nat → Option (Finset String)) :
    ∀ (sets : List (Finset Expr)) (e : Expr), e ∈ aeMeet n aux sets →
      ∀ s2 ∈ sets, e ∈ s2 := by
  intro sets e hm s2 hs2
  match sets, hs2 with
  | [s], hs2 =>
      rw [List.mem_singleton.mp hs2]
      exact hm
  | s :: t :: rest, hs2 =>
      rw [mem_aeMeet_multi] at hm
      rcases List.mem_cons.mp hs2 with h | h
      · rw [h]
        exact hm.1.1
      · exact hm.1.2 s2 h

/-- The universe of expressions: everything any block generates. -/
def aeU (n : Nat) (blocks : Nat → List AInstr) : Finset Expr :=
  (List.range n).foldl (fun acc j => acc ∪ (genExprs (blocks j)).toFinset) ∅

theorem genExprs_subset_aeU (n : Nat) (blocks : Nat → List AInstr) (j : Nat)
    (hj : j < n) : (genExprs (blocks j)).toFinset ⊆ aeU n blocks :=
  subset_foldl_union (fun j2 => (genExprs (blocks j2)).toFinset) (List.range n) ∅ j
    (List.mem_range.mpr hj)

theorem ae_outU (n : Nat) (preds succs : Nat → List Nat) (blocks : Nat → List AInstr)
    (hsuccb : ∀ m, m < n → ∀ q ∈ succs m, q < n)
    (hsuccnd : ∀ m, m < n → (succs m).Nodup) :
    ∀ t j, (aeS n preds succs blocks t).outS j ⊆ aeU n blocks := by
  intro t
  induction t with
  | zero =>
      intro j e he
      exact absurd he (Finset.not_mem_empty e)
  | succ t ih =>
      intro j
      cases hw : (aeS n preds succs blocks t).wl with
      | nil =>
          rw [aeS_succ_nil n preds succs blocks t hw]
          exact ih j
      | cons node rest =>
          rw [aeS_succ_cons n preds succs blocks t node rest hw]
          by_cases hjn : j = node
          · rw [hjn, aeStepState_outS_pop]
            intro e he
            rw [aePopOut, mem_aeFlow_iff] at he
            rcases he with hgen | ⟨hm, _⟩
            · have hnode : node < n :=
                (ae_wl_inv n preds succs blocks hsuccb hsuccnd t).2 node
                  (by rw [hw]; exact List.mem_cons_self _ _)
              exact genExprs_subset_aeU n blocks node hnode (List.mem_toFinset.mpr hgen)
            · cases hpn : preds node with
              | nil =>
                  rw [aeSets, hpn] at hm
                  have h2 := mem_aeMeet_subset n _ _ e hm ∅ (by simp)
                  exact absurd h2 (Finset.not_mem_empty e)
              | cons a l =>
                  rw [aeSets, hpn, if_neg (by simp)] at hm
                  have h2 := mem_aeMeet_subset n _ _ e hm
                    ((aeS n preds succs blocks t).outS a)
                    (List.mem_map_of_mem _ (List.mem_cons_self _ _))
                  exact ih a h2
          · rw [aeStepState_outS_other n preds succs blocks _ node rest j hjn]
            exact ih j

theorem ae_gen_persist (n : Nat) (preds succs : Nat → List Nat)
    (blocks : Nat → List AInstr) (e : Expr) (j : Nat) (hj : j < n)
    (hg : e ∈ genExprs (blocks j)) :
    ∀ t, j + 1 ≤ t → e ∈ (aeS n preds succs blocks t).outS j := by
  intro t
  induction t with
  | zero =>
      intro h
      exact absurd h (by omega)
  | succ t ih =>
      intro ht
      by_cases htj : j + 1 ≤ t
      · cases hw : (aeS n preds succs blocks t).wl with
        | nil =>
            rw [aeS_succ_nil n preds succs blocks t hw]
            exact ih htj
        | cons node rest =>
            rw [aeS_succ_cons n preds succs blocks t node rest hw]
            by_cases hjn : j = node
            · rw [hjn, aeStepState_outS_pop, aePopOut, mem_aeFlow_iff]
              exact Or.inl (hjn ▸ hg)
            · rw [aeStepState_outS_other n preds succs blocks _ node rest j hjn]
              exact ih htj
      · have htj2 : t = j := by omega
        subst htj2
        obtain ⟨junk, hwl⟩ := (ae_phase1 n preds succs blocks t (by omega)).1
        have hlen : n - t = (n - (t + 1)) + 1 := by omega
        have hwl2 : (aeS n preds succs blocks t).wl
            = t :: (List.range' (t + 1) (n - (t + 1)) ++ junk) := by
          rw [hwl, hlen, List.range'_succ]
          rfl
        rw [aeS_succ_cons n preds succs blocks t t _ hwl2, aeStepState_outS_pop,
          aePopOut, mem_aeFlow_iff]
        exact Or.inl hg

/-- Free predecessor relation for an expression `e`: `p` feeds `j` and
does not generate `e`. -/
def aeFreePred (preds : Nat → List Nat) (blocks : Nat → List AInstr) (e : Expr)
    (p j : Nat) : Prop :=
  p ∈ preds j ∧ e ∉ genExprs (blocks p)

/-- A free node from which the free-predecessor relation admits
infinite descent never holds `e`: its zero bit is invariant from the
all-empty start. -/
theorem ae_z_zero (n : Nat) (preds succs : Nat → List Nat) (blocks : Nat → List AInstr)
    (e : Expr) :
    ∀ t j, e ∉ genExprs (blocks j) → ¬ Acc (aeFreePred preds blocks e) j →
      e ∉ (aeS n preds succs blocks t).outS j := by
  intro t
  induction t with
  | zero =>
      intro j _ _ he
      exact absurd he (Finset.not_mem_empty e)
  | succ t ih =>
      intro j hfree hnacc he
      cases hw : (aeS n preds succs blocks t).wl with
      | nil =>
          rw [aeS_succ_nil n preds succs blocks t hw] at he
          exact ih j hfree hnacc he
      | cons node rest =>
          rw [aeS_succ_cons n preds succs blocks t node rest hw] at he
          by_cases hjn : j = node
          · subst hjn
            rw [aeStepState_outS_pop, aePopOut, mem_aeFlow_iff] at he
            rcases he with hgen | ⟨hm, _⟩
            · exact hfree hgen
            · have hz : ∃ p, aeFreePred preds blocks e p j
                  ∧ ¬ Acc (aeFreePred preds blocks e) p := by
                by_contra hno
                push_neg at hno
                exact hnacc (Acc.intro j (fun p hp => hno p hp))
              obtain ⟨p, ⟨hpmem, hpfree⟩, hpnacc⟩ := hz
              cases hpn : preds j with
              | nil =>
                  rw [hpn] at hpmem
                  exact absurd hpmem (List.not_mem_nil p)
              | cons a l =>
                  rw [aeSets, hpn, if_neg (by simp)] at hm
                  have hsub := mem_aeMeet_subset n _ _ e hm
                    ((aeS n preds succs blocks t).outS p)
                    (List.mem_map_of_mem _ (by rw [← hpn]; exact hpmem))
                  exact ih p hpfree hpnacc hsub
          · rw [aeStepState_outS_other n preds succs blocks _ node rest j hjn] at he
            exact ih j hfree hnacc he

/-- The final kill record, as established after the first full pass. -/
def aeAuxF (n : Nat) (blocks : Nat → List AInstr) : Nat → Option (Finset String) :=
  fun j => if j < n then some (killedNames (blocks j)) else none

/-- The membership bit written for `e` at `j` by a visit, as a function
of the predecessors' current bits (valid once the kill record is
final). -/
def aeNext (n : Nat) (preds : Nat → List Nat) (blocks : Nat → List AInstr)
    (e : Expr) (j : Nat) (b : Nat → Prop) : Prop :=
  e ∈ genExprs (blocks j)
  ∨ ((¬ (e.operandNames.any (fun v => decide (v ∈ killedNames (blocks j))) = true))
    ∧ match preds j with
      | [] => False
      | [p] => b p
      | _ :: _ :: _ => (∀ p ∈ preds j, b p)
          ∧ ¬ (e.operandNames.any
              (fun v => decide (v ∈ allKilled n (aeAuxF n blocks))) = true))

theorem ae_pop_bit (n : Nat) (preds succs : Nat → List Nat) (blocks : Nat → List AInstr)
    (hsuccb : ∀ m, m < n → ∀ q ∈ succs m, q < n)
    (hsuccnd : ∀ m, m < n → (succs m).Nodup)
    (e : Expr) (t node : Nat) (rest : List Nat) (ht : n ≤ t)
    (hw : (aeS n preds succs blocks t).wl = node :: rest) :
    (e ∈ (aeS n preds succs blocks (t + 1)).outS node)
      ↔ aeNext n preds blocks e node (fun p => e ∈ (aeS n preds succs blocks t).outS p) := by
  rw [aeS_succ_cons n preds succs blocks t node rest hw, aeStepState_outS_pop,
    aePopOut, mem_aeFlow_iff]
  have hmeet : (e ∈ aeMeet n (aeS n preds succs blocks t).aux
      (aeSets preds (aeS n preds succs blocks t) node)) ↔
      (match preds node with
       | [] => False
       | [p] => e ∈ (aeS n preds succs blocks t).outS p
       | _ :: _ :: _ => (∀ p ∈ preds node, e ∈ (aeS n preds succs blocks t).outS p)
           ∧ ¬ (e.operandNames.any
               (fun v => decide (v ∈ allKilled n (aeAuxF n blocks))) = true)) := by
    cases hpn : preds node with
    | nil =>
        rw [aeSets, hpn]
        show e ∈ aeMeet n (aeS n preds succs blocks t).aux [∅] ↔ False
        show e ∈ (∅ : Finset Expr) ↔ False
        simp
    | cons a l =>
        cases l with
        | nil =>
            rw [aeSets, hpn]
            show e ∈ aeMeet n (aeS n preds succs blocks t).aux
              [(aeS n preds succs blocks t).outS a]
              ↔ e ∈ (aeS n preds succs blocks t).outS a
            exact Iff.rfl
        | cons a2 l2 =>
            rw [aeSets, hpn]
            have hsets : (if (a :: a2 :: l2).isEmpty = true then [(∅ : Finset Expr)]
                else (a :: a2 :: l2).map (aeS n preds succs blocks t).outS)
                = (aeS n preds succs blocks t).outS a
                  :: (aeS n preds succs blocks t).outS a2
                  :: l2.map (aeS n preds succs blocks t).outS := rfl
            rw [hsets, mem_aeMeet_multi]
            have haux : allKilled n (aeS n preds succs blocks t).aux
                = allKilled n (aeAuxF n blocks) := by
              refine allKilled_congr n _ _ ?_
              intro j2 hj2
              rw [ae_aux_final n preds succs blocks hsuccb hsuccnd t ht j2]
              rfl
            rw [haux]
            constructor
            · rintro ⟨⟨h1, h2⟩, h3⟩
              refine ⟨?_, h3⟩
              intro p hp
              rcases List.mem_cons.mp hp with rfl | hp2
              · exact h1
              · have hp3 : (aeS n preds succs blocks t).outS p
                    ∈ (a2 :: l2).map (aeS n preds succs blocks t).outS :=
                  List.mem_map_of_mem _ hp2
                exact h2 _ hp3
            · rintro ⟨h1, h3⟩
              refine ⟨⟨h1 a (List.mem_cons_self _ _), ?_⟩, h3⟩
              intro u hu
              have hu2 : u ∈ (a2 :: l2).map (aeS n preds succs blocks t).outS := hu
              obtain ⟨p, hp, hpu⟩ := List.mem_map.mp hu2
              rw [← hpu]
              exact h1 p (List.mem_cons_of_mem _ hp)
  rw [hmeet, aeNext]
  tauto

theorem aeNext_congr (n : Nat) (preds : Nat → List Nat) (blocks : Nat → List AInstr)
    (e : Expr) (j : Nat) (b b2 : Nat → Prop)
    (h : ∀ p ∈ preds j, (b p ↔ b2 p)) :
    aeNext n preds blocks e j b ↔ aeNext n preds blocks e j b2 := by
  cases hpn : preds j with
  | nil => simp only [aeNext, hpn]
  | cons a l =>
      cases l with
      | nil =>
          simp only [aeNext, hpn]
          have h2 := h a (by rw [hpn]; exact List.mem_cons_self _ _)
          tauto
      | cons a2 l2 =>
          simp only [aeNext, hpn]
          have h2 : ∀ p ∈ a :: a2 :: l2, (b p ↔ b2 p) := by
            intro p hp
            exact h p (by rw [hpn]; exact hp)
          constructor
          · rintro (hg | ⟨hk, hall, hglob⟩)
            · exact Or.inl hg
            · exact Or.inr ⟨hk, fun p hp => (h2 p hp).mp (hall p hp), hglob⟩
          · rintro (hg | ⟨hk, hall, hglob⟩)
            · exact Or.inl hg
            · exact Or.inr ⟨hk, fun p hp => (h2 p hp).mpr (hall p hp), hglob⟩

/-- The bit of `e` in `out(j)` is fixed from time `T` on. -/
def OutBitStable (n : Nat) (preds succs : Nat → List Nat) (blocks : Nat → List AInstr)
    (e : Expr) (j T : Nat) : Prop :=
  ∀ t, T ≤ t → ((e ∈ (aeS n preds succs blocks t).outS j)
    ↔ e ∈ (aeS n preds succs blocks T).outS j)

theorem outBitStable_mono (n : Nat) (preds succs : Nat → List Nat)
    (blocks : Nat → List AInstr) (e : Expr) (j T T2 : Nat)
    (h : OutBitStable n preds succs blocks e j T) (hle : T ≤ T2) :
    OutBitStable n preds succs blocks e j T2 := by
  intro t ht
  exact Iff.trans (h t (le_trans hle ht)) (h T2 hle).symm

theorem ae_out_ge_const (n : Nat) (preds succs : Nat → List Nat)
    (blocks : Nat → List AInstr)
    (hsuccb : ∀ m, m < n → ∀ q ∈ succs m, q < n)
    (hsuccnd : ∀ m, m < n → (succs m).Nodup)
    (j : Nat) (hj : n ≤ j) : ∀ t, (aeS n preds succs blocks t).outS j = ∅ := by
  intro t
  induction t with
  | zero => rfl
  | succ t ih =>
      cases hw : (aeS n preds succs blocks t).wl with
      | nil =>
          rw [aeS_succ_nil n preds succs blocks t hw]
          exact ih
      | cons node rest =>
          have hnode : node < n :=
            (ae_wl_inv n preds succs blocks hsuccb hsuccnd t).2 node
              (by rw [hw]; exact List.mem_cons_self _ _)
          rw [aeS_succ_cons n preds succs blocks t node rest hw,
            aeStepState_outS_other n preds succs blocks _ node rest j (by omega)]
          exact ih

theorem exists_uniform_stable (n : Nat) (preds succs : Nat → List Nat)
    (blocks : Nat → List AInstr) (e : Expr) :
    ∀ (l : List Nat),
      (∀ p ∈ l, ∃ T, n ≤ T ∧ OutBitStable n preds succs blocks e p T) →
      ∃ T, n ≤ T ∧ ∀ p ∈ l, OutBitStable n preds succs blocks e p T := by
  intro l
  induction l with
  | nil =>
      intro _
      exact ⟨n, le_refl n, fun p hp => absurd hp (List.not_mem_nil p)⟩
  | cons a l2 ih =>
      intro h
      obtain ⟨T1, hT1, hs1⟩ := h a (List.mem_cons_self _ _)
      obtain ⟨T2, hT2, hs2⟩ := ih (fun p hp => h p (List.mem_cons_of_mem _ hp))
      refine ⟨max T1 T2, le_trans hT1 (le_max_left _ _), ?_⟩
      intro p hp
      rcases List.mem_cons.mp hp with rfl | hp2
      · exact outBitStable_mono n preds succs blocks e p T1 _ hs1 (le_max_left _ _)
      · exact outBitStable_mono n preds succs blocks e p T2 _ (hs2 p hp2)
          (le_max_right _ _)

theorem ae_fa_stable (n : Nat) (preds succs : Nat → List Nat)
    (blocks : Nat → List AInstr)
    (hsuccb : ∀ m, m < n → ∀ q ∈ succs m, q < n)
    (hsuccnd : ∀ m, m < n → (succs m).Nodup) (e : Expr) :
    ∀ j, Acc (aeFreePred preds blocks e) j → e ∉ genExprs (blocks j) →
      ∃ T, n ≤ T ∧ OutBitStable n preds succs blocks e j T := by
  intro j hacc
  induction hacc with
  | intro j hstep ih =>
      intro hfree
      have hall : ∀ p ∈ preds j, ∃ T, n ≤ T
          ∧ OutBitStable n preds succs blocks e p T := by
        intro p hp
        by_cases hpn : p < n
        · by_cases hpg : e ∈ genExprs (blocks p)
          · refine ⟨n, le_refl n, ?_⟩
            intro t htn
            exact iff_of_true
              (ae_gen_persist n preds succs blocks e p hpn hpg t (by omega))
              (ae_gen_persist n preds succs blocks e p hpn hpg n (by omega))
          · by_cases hacc2 : Acc (aeFreePred preds blocks e) p
            · exact ih p ⟨hp, hpg⟩ hpg
            · refine ⟨n, le_refl n, ?_⟩
              intro t _
              exact iff_of_false (ae_z_zero n preds succs blocks e t p hpg hacc2)
                (ae_z_zero n preds succs blocks e n p hpg hacc2)
        · refine ⟨n, le_refl n, ?_⟩
          intro t _
          rw [ae_out_ge_const n preds succs blocks hsuccb hsuccnd p (by omega) t,
            ae_out_ge_const n preds succs blocks hsuccb hsuccnd p (by omega) n]
      obtain ⟨T0, hT0n, hT0⟩ := exists_uniform_stable n preds succs blocks e (preds j) hall
      by_cases hpop : ∃ s, T0 ≤ s ∧ ∃ rest, (aeS n preds succs blocks s).wl = j :: rest
      · obtain ⟨s, hs, rest, hws⟩ := hpop
        have hstab : ∀ t, s + 1 ≤ t → ((e ∈ (aeS n preds succs blocks t).outS j)
            ↔ aeNext n preds blocks e j
              (fun p => e ∈ (aeS n preds succs blocks T0).outS p)) := by
          intro t
          induction t with
          | zero =>
              intro h0
              exact absurd h0 (by omega)
          | succ t iht =>
              intro ht
              by_cases htp : s + 1 ≤ t
              · cases hw2 : (aeS n preds succs blocks t).wl with
                | nil =>
                    rw [aeS_succ_nil n preds succs blocks t hw2]
                    exact iht htp
                | cons node rest2 =>
                    by_cases hjn : j = node
                    · subst hjn
                      rw [ae_pop_bit n preds succs blocks hsuccb hsuccnd e t j rest2
                        (by omega) hw2]
                      exact aeNext_congr n preds blocks e j _ _
                        (fun p hp => hT0 p hp t (by omega))
                    · rw [aeS_succ_cons n preds succs blocks t node rest2 hw2,
                        aeStepState_outS_other n preds succs blocks _ node rest2 j hjn]
                      exact iht htp
              · have hts : t = s := by omega
                subst hts
                rw [ae_pop_bit n preds succs blocks hsuccb hsuccnd e t j rest
                  (le_trans hT0n hs) hws]
                exact aeNext_congr n preds blocks e j _ _
                  (fun p hp => hT0 p hp t hs)
        refine ⟨s + 1, by omega, ?_⟩
        intro t ht
        rw [hstab t ht, hstab (s + 1) (le_refl _)]
      · push_neg at hpop
        refine ⟨T0, hT0n, ?_⟩
        have hfr : ∀ t, T0 ≤ t →
            (aeS n preds succs blocks t).outS j
              = (aeS n preds succs blocks T0).outS j := by
          intro t
          induction t with
          | zero =>
              intro h0
              have hz : T0 = 0 := by omega
              rw [hz]
          | succ t iht =>
              intro ht
              by_cases htp : T0 ≤ t
              · cases hw2 : (aeS n preds succs blocks t).wl with
                | nil =>
                    rw [aeS_succ_nil n preds succs blocks t hw2]
                    exact iht htp
                | cons node rest2 =>
                    by_cases hjn : j = node
                    · rw [← hjn] at hw2
                      exact absurd hw2 (hpop t htp rest2)
                    · rw [aeS_succ_cons n preds succs blocks t node rest2 hw2,
                        aeStepState_outS_other n preds succs blocks _ node rest2 j hjn]
                      exact iht htp
              · have hts : t + 1 = T0 := by omega
                rw [hts]
        intro t ht
        rw [hfr t ht]

theorem ae_bit_stable (n : Nat) (preds succs : Nat → List Nat)
    (blocks : Nat → List AInstr)
    (hsuccb : ∀ m, m < n → ∀ q ∈ succs m, q < n)
    (hsuccnd : ∀ m, m < n → (succs m).Nodup) (e : Expr) (j : Nat) :
    ∃ T, n ≤ T ∧ OutBitStable n preds succs blocks e j T := by
  by_cases hjn : j < n
  · by_cases hg : e ∈ genExprs (blocks j)
    · refine ⟨n, le_refl n, ?_⟩
      intro t htn
      exact iff_of_true (ae_gen_persist n preds succs blocks e j hjn hg t (by omega))
        (ae_gen_persist n preds succs blocks e j hjn hg n (by omega))
    · by_cases hacc : Acc (aeFreePred preds blocks e) j
      · exact ae_fa_stable n preds succs blocks hsuccb hsuccnd e j hacc hg
      · refine ⟨n, le_refl n, ?_⟩
        intro t _
        exact iff_of_false (ae_z_zero n preds succs blocks e t j hg hacc)
          (ae_z_zero n preds succs blocks e n j hg hacc)
  · refine ⟨n, le_refl n, ?_⟩
    intro t _
    rw [ae_out_ge_const n preds succs blocks hsuccb hsuccnd j (by omega) t,
      ae_out_ge_const n preds succs blocks hsuccb hsuccnd j (by omega) n]

theorem exists_uniform_bits (n : Nat) (preds succs : Nat → List Nat)
    (blocks : Nat → List AInstr)
    (hsuccb : ∀ m, m < n → ∀ q ∈ succs m, q < n)
    (hsuccnd : ∀ m, m < n → (succs m).Nodup) (j : Nat) :
    ∀ (l : List Expr), ∃ T, n ≤ T
      ∧ ∀ e ∈ l, OutBitStable n preds succs blocks e j T := by
  intro l
  induction l with
  | nil => exact ⟨n, le_refl n, fun e he => absurd he (List.not_mem_nil e)⟩
  | cons a l2 ih =>
      obtain ⟨T2, hT2, hs2⟩ := ih
      obtain ⟨T1, hT1, hs1⟩ := ae_bit_stable n preds succs blocks hsuccb hsuccnd a j
      refine ⟨max T1 T2, le_trans hT1 (le_max_left _ _), ?_⟩
      intro e he
      rcases List.mem_cons.mp he with rfl | he2
      · exact outBitStable_mono n preds succs blocks e j T1 _ hs1 (le_max_left _ _)
      · exact outBitStable_mono n preds succs blocks e j T2 _ (hs2 e he2)
          (le_max_right _ _)

theorem ae_out_stable (n : Nat) (preds succs : Nat → List Nat)
    (blocks : Nat → List AInstr)
    (hsuccb : ∀ m, m < n → ∀ q ∈ succs m, q < n)
    (hsuccnd : ∀ m, m < n → (succs m).Nodup) (j : Nat) :
    ∃ T, n ≤ T ∧ ∀ t, T ≤ t →
      (aeS n preds succs blocks t).outS j = (aeS n preds succs blocks T).outS j := by
  obtain ⟨T, hTn, hT⟩ := exists_uniform_bits n preds succs blocks hsuccb hsuccnd j
    (aeU n blocks).toList
  refine ⟨T, hTn, ?_⟩
  intro t ht
  apply Finset.ext
  intro e
  by_cases he : e ∈ aeU n blocks
  · exact hT e (Finset.mem_toList.mpr he) t ht
  · refine iff_of_false ?_ ?_
    · intro h
      exact he (ae_outU n preds succs blocks hsuccb hsuccnd t j h)
    · intro h
      exact he (ae_outU n preds succs blocks hsuccb hsuccnd T j h)

theorem ae_all_stable (n : Nat) (preds succs : Nat → List Nat)
    (blocks : Nat → List AInstr)
    (hsuccb : ∀ m, m < n → ∀ q ∈ succs m, q < n)
    (hsuccnd : ∀ m, m < n → (succs m).Nodup) :
    ∃ T, n ≤ T ∧ ∀ j, j < n → ∀ t, T ≤ t →
      (aeS n preds succs blocks t).outS j = (aeS n preds succs blocks T).outS j := by
  have haux : ∀ (l : List Nat), ∃ T, n ≤ T ∧ ∀ j ∈ l, ∀ t, T ≤ t →
      (aeS n preds succs blocks t).outS j = (aeS n preds succs blocks T).outS j := by
    intro l
    induction l with
    | nil => exact ⟨n, le_refl n, fun j hj => absurd hj (List.not_mem_nil j)⟩
    | cons a l2 ih =>
        obtain ⟨T2, hT2n, hs2⟩ := ih
        obtain ⟨T1, hT1n, hs1⟩ := ae_out_stable n preds succs blocks hsuccb hsuccnd a
        refine ⟨max T1 T2, le_trans hT1n (le_max_left _ _), ?_⟩
        intro j hj t ht
        rcases List.mem_cons.mp hj with rfl | hj2
        · rw [hs1 t (le_trans (le_max_left _ _) ht), hs1 (max T1 T2) (le_max_left _ _)]
        · rw [hs2 j hj2 t (le_trans (le_max_right _ _) ht),
            hs2 j hj2 (max T1 T2) (le_max_right _ _)]
  obtain ⟨T, hTn, hT⟩ := haux (List.range n)
  exact ⟨T, hTn, fun j hj => hT j (List.mem_range.mpr hj)⟩

theorem ae_drain (n : Nat) (preds succs : Nat → List Nat) (blocks : Nat → List AInstr)
    (hsuccb : ∀ m, m < n → ∀ q ∈ succs m, q < n)
    (hsuccnd : ∀ m, m < n → (succs m).Nodup) :
    ∃ fuel, (aeS n preds succs blocks fuel).wl = [] := by
  obtain ⟨T, hTn, hT⟩ := ae_all_stable n preds succs blocks hsuccb hsuccnd
  have hstep : ∀ k, (aeS n preds succs blocks (T + k)).wl = []
      ∨ (aeS n preds succs blocks (T + k)).wl.length + k
        ≤ (aeS n preds succs blocks T).wl.length := by
    intro k
    induction k with
    | zero =>
        refine Or.inr ?_
        rw [show T + 0 = T from rfl]
        omega
    | succ k ih =>
        have hsucc : T + (k + 1) = (T + k) + 1 := rfl
        cases hw : (aeS n preds succs blocks (T + k)).wl with
        | nil =>
            left
            rw [hsucc, aeS_succ_nil n preds succs blocks (T + k) hw, hw]
        | cons node rest =>
            rcases ih with h | h
            · rw [hw] at h
              exact absurd h (by simp)
            · have hnode : node < n :=
                (ae_wl_inv n preds succs blocks hsuccb hsuccnd (T + k)).2 node
                  (by rw [hw]; exact List.mem_cons_self _ _)
              have hout1 : (aeS n preds succs blocks ((T + k) + 1)).outS node
                  = aePopOut n preds blocks (aeS n preds succs blocks (T + k)) node := by
                rw [aeS_succ_cons n preds succs blocks (T + k) node rest hw,
                  aeStepState_outS_pop]
              have heq : aePopOut n preds blocks (aeS n preds succs blocks (T + k)) node
                  = (aeS n preds succs blocks (T + k)).outS node := by
                rw [← hout1, hT node hnode ((T + k) + 1) (by omega),
                  hT node hnode (T + k) (by omega)]
              have hwl2 : (aeS n preds succs blocks ((T + k) + 1)).wl = rest := by
                rw [aeS_succ_cons n preds succs blocks (T + k) node rest hw,
                  aeStepState_wl, if_pos heq]
              right
              rw [hsucc, hwl2]
              have hlen : (aeS n preds succs blocks (T + k)).wl.length
                  = rest.length + 1 := by
                rw [hw]
                rfl
              omega
  rcases hstep ((aeS n preds succs blocks T).wl.length) with h | h
  · exact ⟨T + (aeS n preds succs blocks T).wl.length, h⟩
  · refine ⟨T + (aeS n preds succs blocks T).wl.length, ?_⟩
    have hz : (aeS n preds succs blocks
        (T + (aeS n preds succs blocks T).wl.length)).wl.length = 0 := by omega
    exact List.length_eq_zero.mp hz

/-- The embedded Available Expressions analysis terminates on every
finite CFG with in-range, duplicate-free successor lists. -/
theorem ae_terminates (n : Nat) (preds succs : Nat → List Nat)
    (blocks : Nat → List AInstr)
    (hsuccb : ∀ m, m < n → ∀ q ∈ succs m, q < n)
    (hsuccnd : ∀ m, m < n → (succs m).Nodup) :
    ∃ fuel, (solverRun (aeSolver n preds succs blocks) fuel
      (initState (aeSolver n preds succs blocks) (fun _ => none))).wl = [] :=
  ae_drain n preds succs blocks hsuccb hsuccnd

/-! ### C9: termination of all four analyses. -/

/-- A master key order for constant propagation: all assigned names in
program order. -/
def cpMaster (n : Nat) (blocks : Nat → List AInstr) : List String :=
  (List.range n).foldl (fun acc j =>
    acc ++ (blocks j).filterMap (fun ins => truthyName ins.iname)) []

theorem foldl_append_sub {β : Type} (f : β → List String) :
    ∀ (l : List β) (acc : List String) (x : String), x ∈ acc →
      x ∈ l.foldl (fun acc2 j => acc2 ++ f j) acc := by
  intro l
  induction l with
  | nil =>
      intro acc x hx
      exact hx
  | cons j rest ih =>
      intro acc x hx
      exact ih _ x (List.mem_append_left _ hx)

theorem mem_foldl_append {β : Type} (f : β → List String) :
    ∀ (l : List β) (acc : List String) (j : β), j ∈ l → ∀ x ∈ f j,
      x ∈ l.foldl (fun acc2 j2 => acc2 ++ f j2) acc := by
  intro l
  induction l with
  | nil =>
      intro acc j hj
      exact absurd hj (List.not_mem_nil j)
  | cons j2 rest ih =>
      intro acc j hj x hx
      rcases List.mem_cons.mp hj with h | h
      · refine foldl_append_sub f rest _ x ?_
        rw [← h]
        exact List.mem_append_right _ hx
      · exact ih _ j h x hx

theorem cpMaster_complete (n : Nat) (blocks : Nat → List AInstr) :
    ∀ j, j < n → ∀ ins ∈ blocks j, ∀ nm,
      truthyName ins.iname = some nm → nm ∈ cpMaster n blocks := by
  intro j hj ins hins nm hnm
  refine mem_foldl_append (fun j2 => (blocks j2).filterMap (fun i => truthyName i.iname))
    (List.range n) [] j (List.mem_range.mpr hj) nm ?_
  exact List.mem_filterMap.mpr ⟨ins, hins, hnm⟩

/-- C9: on every finite CFG (successor and predecessor lists in range
and duplicate-free), the embedded worklist runs of all four analyses —
reaching definitions, live variables, available expressions (with its
mutable kill record), and constant propagation — empty their worklists
after finitely many iterations, so `analyze()` returns with `in_sets`
and `out_sets` assigned for every node. -/
theorem c9_analyses_terminate (n : Nat) (preds succs : Nat → List Nat)
    (blocks : Nat → List AInstr)
    (hpredb : ∀ m, m < n → ∀ q ∈ preds m, q < n)
    (hsuccb : ∀ m, m < n → ∀ q ∈ succs m, q < n)
    (hprednd : ∀ m, m < n → (preds m).Nodup)
    (hsuccnd : ∀ m, m < n → (succs m).Nodup) :
    (∃ fuel, (solverRun (rdSolver n preds succs blocks) fuel
      (initState (rdSolver n preds succs blocks) ())).wl = [])
    ∧ (∃ fuel, (solverRun (lvSolver n preds succs blocks) fuel
      (initState (lvSolver n preds succs blocks) ())).wl = [])
    ∧ (∃ fuel, (solverRun (aeSolver n preds succs blocks) fuel
      (initState (aeSolver n preds succs blocks) (fun _ => none))).wl = [])
    ∧ (∃ fuel, (solverRun (cpSolver (cpMaster n blocks) n preds succs blocks) fuel
      (initState (cpSolver (cpMaster n blocks) n preds succs blocks) ())).wl = []) :=
  ⟨rd_terminates n preds succs blocks hpredb hsuccb hsuccnd,
   lv_terminates n preds succs blocks hpredb hsuccb hprednd,
   ae_terminates n preds succs blocks hsuccb hsuccnd,
   cp_terminates (cpMaster n blocks) n preds succs blocks
     (cpMaster_complete n blocks) hpredb hsuccb hsuccnd⟩

/-- C9 witness: the single-node CFG with an empty block satisfies every
hypothesis, and all four analyses terminate on it. -/
theorem c9_witness :
    (∃ fuel, (solverRun (rdSolver 1 (fun _ => []) (fun _ => []) (fun _ => [])) fuel
      (initState (rdSolver 1 (fun _ => []) (fun _ => []) (fun _ => [])) ())).wl = [])
    ∧ (∃ fuel, (solverRun (lvSolver 1 (fun _ => []) (fun _ => []) (fun _ => [])) fuel
      (initState (lvSolver 1 (fun _ => []) (fun _ => []) (fun _ => [])) ())).wl = [])
    ∧ (∃ fuel, (solverRun (aeSolver 1 (fun _ => []) (fun _ => []) (fun _ => [])) fuel
      (initState (aeSolver 1 (fun _ => []) (fun _ => []) (fun _ => []))
        (fun _ => none))).wl = [])
    ∧ (∃ fuel, (solverRun (cpSolver (cpMaster 1 (fun _ => [])) 1 (fun _ => [])
        (fun _ => []) (fun _ => [])) fuel
      (initState (cpSolver (cpMaster 1 (fun _ => [])) 1 (fun _ => [])
        (fun _ => []) (fun _ => [])) ())).wl = []) :=
  c9_analyses_terminate 1 (fun _ => []) (fun _ => []) (fun _ => [])
    (fun _ _ q hq => absurd hq (List.not_mem_nil q))
    (fun _ _ q hq => absurd hq (List.not_mem_nil q))
    (fun _ _ => List.nodup_nil)
    (fun _ _ => List.nodup_nil)

end LaPair
